import Mathlib

/-!
# Interpolation tree (`lib/Core/ITree.cpp`): a shallow embedding

The C++ objects live on the heap and are shared through raw pointers, so the
embedding is an explicit store: every `new` returns the next unused address of
its kind, `delete` turns the slot into `none`, and a null pointer is `none`.
Reading through a null or a deleted pointer is `Res.fault`, a failed `assert`
is `Res.abort`, and a pointer walk that outlives its fuel is `Res.diverge`.
-/

namespace ITreeModel

/-! ## Outcomes of a call -/

/-- Outcome of running a piece of the program: a normal return, a failed
`assert`, a read or write through a null or deleted pointer, or a loop that
does not end within the fuel it was given. -/
inductive Res (α : Type) where
  | ok (a : α)
  | abort
  | fault
  | diverge
  deriving DecidableEq, Repr

/-- Sequencing of two steps: the second runs only when the first returned. -/
def Res.bind {α β : Type} (x : Res α) (f : α → Res β) : Res β :=
  match x with
  | .ok a => f a
  | .abort => .abort
  | .fault => .fault
  | .diverge => .diverge

/-- Reading through a pointer slot: `none` (null, deleted, or never allocated)
is undefined behaviour. -/
def deref {α : Type} : Option α → Res α
  | some a => .ok a
  | none => .fault

/-! ## Expressions -/

/-- Modelled from the spec: `ref<Expr>` (klee/Expr.h is not part of the
sources at hand) is "an opaque, hashable, comparable value type". An
expression is identified with the code of its structure, so two expressions
are structurally equal exactly when their codes agree. -/
structure Expr where
  code : Nat
  deriving DecidableEq, Repr

/-- Modelled from the spec: `ref<Expr>::compare`, the structural three-way
comparison: zero exactly on structurally equal expressions. -/
def Expr.compare (a b : Expr) : Int :=
  if a.code < b.code then -1 else if a.code = b.code then 0 else 1

/-! ## Path conditions (ITree.cpp 33-64) -/

/-- One link of a path-condition chain: `constraint`, `inInterpolant`, `tail`. -/
structure PathCondition where
  constraint : Expr
  inInterpolant : Bool
  tail : Option Nat
  deriving DecidableEq, Repr

/-- The execution state as far as the tree reads and writes it: its
constraint sequence and the back-reference `itreeNode`. -/
structure ExecutionState where
  constraints : List Expr
  itreeNode : Option Nat
  deriving DecidableEq, Repr

/-- One node of the tree, with the fields of the C++ class. `data` is the
address of the owning state. -/
structure ITreeNode where
  parent : Option Nat
  left : Option Nat
  right : Option Nat
  nodeId : Nat
  isSubsumed : Bool
  data : Nat
  pathCondition : Option Nat
  deriving DecidableEq, Repr

/-- The store: path-condition links, tree nodes and execution states, each
addressed by its index. A deleted object leaves `none` in its slot and its
address is never handed out again. -/
structure Heap where
  pcs : List (Option PathCondition)
  nodes : List (Option ITreeNode)
  states : List ExecutionState
  deriving DecidableEq, Repr

/-- The live link at address `a`, if any. -/
def Heap.pcAt (h : Heap) (a : Nat) : Option PathCondition := (h.pcs[a]?).join

/-- The live node at address `a`, if any. -/
def Heap.nodeAt (h : Heap) (a : Nat) : Option ITreeNode := (h.nodes[a]?).join

/-- The state at address `a`, if any. -/
def Heap.stateAt (h : Heap) (a : Nat) : Option ExecutionState := h.states[a]?

/-- Overwrite the link stored at `a`. -/
def Heap.setPc (h : Heap) (a : Nat) (l : PathCondition) : Heap :=
  { h with pcs := h.pcs.set a (some l) }

/-- Overwrite the node stored at `a`. -/
def Heap.setNode (h : Heap) (a : Nat) (n : ITreeNode) : Heap :=
  { h with nodes := h.nodes.set a (some n) }

/-- Overwrite the state stored at `a`. -/
def Heap.setState (h : Heap) (a : Nat) (s : ExecutionState) : Heap :=
  { h with states := h.states.set a s }

/-- The operator `new PathCondition(...)`: the link gets the next address. -/
def Heap.allocPc (h : Heap) (l : PathCondition) : Nat × Heap :=
  (h.pcs.length, { h with pcs := h.pcs ++ [some l] })

/-- The operator `new ITreeNode(...)`: the node gets the next address. -/
def Heap.allocNode (h : Heap) (n : ITreeNode) : Nat × Heap :=
  (h.nodes.length, { h with nodes := h.nodes ++ [some n] })

/-- The operator `delete` on a link (`~PathCondition` is empty: the tail is
left alone). Deleting the null pointer does nothing; deleting a link that is
already gone is undefined. -/
def Heap.deletePc (h : Heap) : Option Nat → Res Heap
  | none => .ok h
  | some a =>
    match h.pcAt a with
    | none => .fault
    | some _ => .ok { h with pcs := h.pcs.set a none }

/-- `PathCondition::includeInInterpolant` on the link at `a`. -/
def PathCondition.includeInInterpolant (h : Heap) (a : Nat) : Res Heap :=
  match h.pcAt a with
  | none => .fault
  | some l => .ok (h.setPc a { l with inInterpolant := true })

/-- `PathCondition::carInInterpolant` on the pointer `p`. -/
def PathCondition.carInInterpolant (h : Heap) (p : Option Nat) : Res Bool :=
  match p with
  | none => .fault
  | some a =>
    match h.pcAt a with
    | none => .fault
    | some l => .ok l.inInterpolant

/-- The loop of `PathCondition::packInterpolant`: `it` walks the tails and
`res` collects the constraints of the flagged links. -/
def packInterpolantLoop (h : Heap) : Nat → Option Nat → List Expr → Res (List Expr)
  | _, none, res => .ok res
  | 0, some _, _ => .diverge
  | fuel + 1, some a, res =>
    match h.pcAt a with
    | none => .fault
    | some l =>
      packInterpolantLoop h fuel l.tail
        (if l.inInterpolant then res ++ [l.constraint] else res)

/-- `PathCondition::packInterpolant`, called on the pointer `this`. A chain
of live links without a cycle has at most `pcs.length` links, so the fuel
only runs out on a walk that would never end. -/
def PathCondition.packInterpolant (h : Heap) (this : Option Nat) : Res (List Expr) :=
  match this with
  | none => .fault
  | some a => packInterpolantLoop h (h.pcs.length + 1) (some a) []

/-! ## Markers (ITree.cpp 18-31) -/

/-- A `PathConditionMarker`: the gate and the link it gates. -/
structure PathConditionMarker where
  mayBeInInterpolant : Bool
  pathCondition : Nat
  deriving DecidableEq, Repr

/-- `PathConditionMarker::includeInInterpolant`: commits the flag into the
gated link only if the gate is set. -/
def PathConditionMarker.includeInInterpolant (h : Heap) (m : PathConditionMarker) :
    Res Heap :=
  if m.mayBeInInterpolant then PathCondition.includeInInterpolant h m.pathCondition
  else .ok h

/-- The dictionary `std::map< ref<Expr>, PathConditionMarker * >`: the
bindings in increasing key order, one per key. Each marker is pointed to from
its own slot only, so the slot holds the marker itself. -/
abbrev MarkerMap := List (Expr × PathConditionMarker)

/-- `std::map::insert`: places the binding at its position in key order and
leaves the map alone when the key is already bound. -/
def MarkerMap.insert (k : Expr) (v : PathConditionMarker) : MarkerMap → MarkerMap
  | [] => [(k, v)]
  | (k1, v1) :: rest =>
    if k.code < k1.code then (k, v) :: (k1, v1) :: rest
    else if k = k1 then (k1, v1) :: rest
    else (k1, v1) :: MarkerMap.insert k v rest

/-- `markerMap[k]->mayIncludeInInterpolant()`: sets the gate of the marker
bound to `k`. With `k` unbound, `operator[]` yields a null marker pointer and
the call through it is undefined: `none`. -/
def MarkerMap.mayInclude (k : Expr) : MarkerMap → Option MarkerMap
  | [] => none
  | (k1, v1) :: rest =>
    if k = k1 then some ((k1, { v1 with mayBeInInterpolant := true }) :: rest)
    else (MarkerMap.mayInclude k rest).map (fun r => (k1, v1) :: r)

/-- The loop of `ITreeNode::makeMarkerMap` over the chain from `it`. -/
def makeMarkerMapLoop (h : Heap) : Nat → Option Nat → MarkerMap → Res MarkerMap
  | _, none, result => .ok result
  | 0, some _, _ => .diverge
  | fuel + 1, some a, result =>
    match h.pcAt a with
    | none => .fault
    | some l =>
      makeMarkerMapLoop h fuel l.tail
        (MarkerMap.insert l.constraint
          { mayBeInInterpolant := false, pathCondition := a } result)

/-- `ITreeNode::makeMarkerMap` on the node `n`. -/
def ITreeNode.makeMarkerMap (h : Heap) (n : ITreeNode) : Res MarkerMap :=
  makeMarkerMapLoop h (h.pcs.length + 1) n.pathCondition []

/-! ## The solver -/

/-- `Solver::Validity`. -/
inductive Validity where
  | True
  | False
  | Unknown
  deriving DecidableEq, Repr

/-- What the solver gives back for one `evaluate` call: the success flag,
the validity, and the unsat core `getUnsatCore` will then report. -/
structure Answer where
  success : Bool
  validity : Validity
  core : List Expr
  deriving DecidableEq, Repr

/-- The calls the tree makes on the solver. -/
inductive SolverCall where
  | setTimeout (t : Nat)
  | evaluate (constraints : List Expr) (query : Expr)
  | getUnsatCore
  deriving DecidableEq, Repr

/-- Modelled from the spec: `TimingSolver` (TimingSolver.h is not part of the
sources at hand) is an external collaborator offering
`evaluate(state, query) → (success, validity)`, `getUnsatCore()` and
`setTimeout(duration)`. Its answers are not computed here: `script` lists
the answers of the coming `evaluate` calls in order, whatever they are, and a
solver with nothing left to say reports failure. `log` records every call
made. The `double` timeout is only passed through and is a plain number. -/
structure TimingSolver where
  script : List Answer
  core : List Expr
  timeout : Nat
  log : List SolverCall
  deriving DecidableEq, Repr

/-- `solver->setTimeout(t)`. -/
def TimingSolver.setTimeout (s : TimingSolver) (t : Nat) : TimingSolver :=
  { s with timeout := t, log := s.log ++ [.setTimeout t] }

/-- `solver->evaluate(state, query, result)`: the next scripted answer. -/
def TimingSolver.evaluate (s : TimingSolver) (state : ExecutionState) (query : Expr) :
    Bool × Validity × TimingSolver :=
  match s.script with
  | [] =>
    (false, .Unknown,
      { s with core := [], log := s.log ++ [.evaluate state.constraints query] })
  | a :: rest =>
    (a.success, a.validity,
      { s with script := rest, core := a.core,
               log := s.log ++ [.evaluate state.constraints query] })

/-- `solver->getUnsatCore()`. -/
def TimingSolver.getUnsatCore (s : TimingSolver) : List Expr × TimingSolver :=
  (s.core, { s with log := s.log ++ [.getUnsatCore] })

/-! ## Subsumption table entries (ITree.cpp 80-132) -/

/-- A table entry: the program point and the interpolant. -/
structure SubsumptionTableEntry where
  nodeId : Nat
  interpolant : List Expr
  deriving DecidableEq, Repr

/-- The inner loop of `subsumed` (lines 111-114) over the unsat core. -/
def markCore : List Expr → MarkerMap → Option MarkerMap
  | [], m => some m
  | c :: rest, m =>
    match MarkerMap.mayInclude c m with
    | none => none
    | some m1 => markCore rest m1

/-- The query loop of `subsumed` (lines 97-119) over the interpolant. The
result is `none` for the early `return false`, and the marker map when every
query passed. -/
def subsumedLoop (state : ExecutionState) (timeout : Nat) :
    List Expr → MarkerMap → TimingSolver → Res (Option MarkerMap × TimingSolver)
  | [], m, s => .ok (some m, s)
  | query :: rest, m, s =>
    let s1 := s.setTimeout timeout
    let r := s1.evaluate state query
    let s3 := r.2.2.setTimeout 0
    if r.1 && r.2.1 == Validity.True then
      let c := s3.getUnsatCore
      match markCore c.1 m with
      | none => .fault
      | some m1 => subsumedLoop state timeout rest m1 c.2
    else .ok (none, s3)

/-- The commit loop of `subsumed` (lines 124-127) over the marker map. -/
def commitMarkers (h : Heap) : MarkerMap → Res Heap
  | [] => .ok h
  | (_, v) :: rest =>
    match PathConditionMarker.includeInInterpolant h v with
    | .ok h1 => commitMarkers h1 rest
    | .abort => .abort
    | .fault => .fault
    | .diverge => .diverge

/-- `SubsumptionTableEntry::subsumed`: the returned flag with the store and
the solver as the call leaves them. -/
def SubsumptionTableEntry.subsumed (e : SubsumptionTableEntry) (h : Heap)
    (solver : TimingSolver) (state : ExecutionState) (timeout : Nat) :
    Res (Bool × Heap × TimingSolver) :=
  match state.itreeNode with
  | none => .ok (false, h, solver)
  | some na =>
    match h.nodeAt na with
    | none => .fault
    | some n =>
      if n.nodeId = e.nodeId then
        match ITreeNode.makeMarkerMap h n with
        | .ok markerMap =>
          match subsumedLoop state timeout e.interpolant markerMap solver with
          | .ok (some m, s1) =>
            match commitMarkers h m with
            | .ok h1 => .ok (true, h1, s1)
            | .abort => .abort
            | .fault => .fault
            | .diverge => .diverge
          | .ok (none, s1) => .ok (false, h, s1)
          | .abort => .abort
          | .fault => .fault
          | .diverge => .diverge
        | .abort => .abort
        | .fault => .fault
        | .diverge => .diverge
      else .ok (false, h, solver)

/-! ## Tree nodes (ITree.cpp 290-355) -/

/-- The constructor `ITreeNode::ITreeNode(_parent, _data)` followed by the
placement of the new node in the store: returns the address of the node. -/
def ITreeNode.create (h : Heap) (_parent : Option Nat) (_data : Nat) : Res (Nat × Heap) :=
  match h.stateAt _data with
  | none => .fault
  | some st =>
    (match _parent with
      | none => Res.ok none
      | some pa => (deref (h.nodeAt pa)).bind (fun pn => .ok pn.pathCondition)).bind
    fun inherited =>
      (match st.constraints.getLast? with
        | none => Res.ok (inherited, h)
        | some lastConstraint =>
          match inherited with
          | none =>
            let r := h.allocPc
              { constraint := lastConstraint, inInterpolant := false, tail := none }
            .ok (some r.1, r.2)
          | some hd =>
            (deref (h.pcAt hd)).bind fun l =>
              if l.constraint.compare lastConstraint ≠ 0 then
                let r := h.allocPc
                  { constraint := lastConstraint, inInterpolant := false, tail := some hd }
                .ok (some r.1, r.2)
              else .ok (some hd, h)).bind
      fun r =>
        .ok (r.2.allocNode
          { parent := _parent, left := none, right := none, nodeId := 0,
            isSubsumed := false, data := _data, pathCondition := r.1 })

/-- The destructor `~ITreeNode` followed by the release of the node at
`a`: the chain head is deleted only if it is not also the parent's. -/
def ITreeNode.delete (h : Heap) (a : Nat) : Res Heap :=
  (deref (h.nodeAt a)).bind fun n =>
    (match n.parent with
      | none => Res.ok h
      | some pa =>
        (deref (h.nodeAt pa)).bind fun pn =>
          if n.pathCondition ≠ pn.pathCondition then h.deletePc n.pathCondition
          else .ok h).bind
    fun h1 => .ok { h1 with nodes := h1.nodes.set a none }

/-- `ITreeNode::getNodeId`. -/
def ITreeNode.getNodeId (n : ITreeNode) : Nat := n.nodeId

/-- `ITreeNode::getInterpolant`. -/
def ITreeNode.getInterpolant (h : Heap) (n : ITreeNode) : Res (List Expr) :=
  PathCondition.packInterpolant h n.pathCondition

/-- `ITreeNode::setNodeLocation` on the node at `a`. -/
def ITreeNode.setNodeLocation (h : Heap) (a : Nat) (programPoint : Nat) : Res Heap :=
  (deref (h.nodeAt a)).bind fun n =>
    if n.nodeId = 0 then .ok (h.setNode a { n with nodeId := programPoint })
    else .ok h

/-- `ITreeNode::split` on the node at `this`. -/
def ITreeNode.split (h : Heap) (this : Nat) (leftData rightData : Nat) : Res Heap :=
  (deref (h.nodeAt this)).bind fun n =>
    if n.left = none ∧ n.right = none then
      (ITreeNode.create h (some this) leftData).bind fun l =>
        (deref (l.2.stateAt leftData)).bind fun ls =>
          let h1 := (l.2.setNode this { n with left := some l.1 }).setState leftData
            { ls with itreeNode := some l.1 }
          (ITreeNode.create h1 (some this) rightData).bind fun r =>
            (deref (r.2.nodeAt this)).bind fun n1 =>
              (deref (r.2.stateAt rightData)).bind fun rs =>
                .ok ((r.2.setNode this { n1 with right := some r.1 }).setState rightData
                  { rs with itreeNode := some r.1 })
    else .abort

/-- `ITreeNode::introducesMarkedConstraint` on the node `n`. -/
def ITreeNode.introducesMarkedConstraint (h : Heap) (n : ITreeNode) : Res Bool :=
  match n.parent with
  | none => .ok false
  | some pa =>
    (deref (h.nodeAt pa)).bind fun pn =>
      if n.pathCondition ≠ pn.pathCondition then
        PathCondition.carInInterpolant h n.pathCondition
      else .ok false

/-- The constructor `SubsumptionTableEntry(node)`. -/
def SubsumptionTableEntry.create (h : Heap) (n : ITreeNode) : Res SubsumptionTableEntry :=
  (ITreeNode.getInterpolant h n).bind fun i =>
    .ok { nodeId := n.getNodeId, interpolant := i }

/-! ## The tree (ITree.cpp 153-243) -/

/-- The tree object: the active node, the root and the subsumption table. -/
structure ITree where
  currentINode : Option Nat
  root : Option Nat
  subsumptionTable : List SubsumptionTableEntry
  deriving DecidableEq, Repr

/-- The constructor `ITree::ITree(_root)`. -/
def ITree.create (h : Heap) (_root : Nat) : Res (ITree × Heap) :=
  (ITreeNode.create h none _root).bind fun r =>
    .ok ({ currentINode := none, root := some r.1, subsumptionTable := [] }, r.2)

/-- The scan of `checkCurrentStateSubsumption` (lines 164-176) over the
entries still to try. -/
def checkLoop (t : ITree) (state : ExecutionState) (timeout : Nat) :
    List SubsumptionTableEntry → Heap → TimingSolver → Res (Bool × Heap × TimingSolver)
  | [], h, s => .ok (false, h, s)
  | e :: rest, h, s =>
    match e.subsumed h s state timeout with
    | .ok (true, h1, s1) =>
      (deref t.currentINode).bind fun c =>
        (deref (h1.nodeAt c)).bind fun n =>
          .ok (true, h1.setNode c { n with isSubsumed := true }, s1)
    | .ok (false, h1, s1) => checkLoop t state timeout rest h1 s1
    | .abort => .abort
    | .fault => .fault
    | .diverge => .diverge

/-- `ITree::checkCurrentStateSubsumption`. -/
def ITree.checkCurrentStateSubsumption (t : ITree) (h : Heap) (solver : TimingSolver)
    (state : ExecutionState) (timeout : Nat) : Res (Bool × Heap × TimingSolver) :=
  if state.itreeNode = t.currentINode then
    checkLoop t state timeout t.subsumptionTable h solver
  else .abort

/-- `ITree::getStore`. -/
def ITree.getStore (t : ITree) : List SubsumptionTableEntry := t.subsumptionTable

/-- `ITree::store`. -/
def ITree.store (t : ITree) (subItem : SubsumptionTableEntry) : ITree :=
  { t with subsumptionTable := t.subsumptionTable ++ [subItem] }

/-- `ITree::setCurrentINode`. -/
def ITree.setCurrentINode (t : ITree) (node : Option Nat) : ITree :=
  { t with currentINode := node }

/-- The `do ... while` loop of `ITree::remove` (lines 193-213), entered with
`node` non-null. -/
def removeLoop : Nat → ITree → Heap → Nat → Res (ITree × Heap)
  | 0, _, _, _ => .diverge
  | fuel + 1, t, h, node =>
    (deref (h.nodeAt node)).bind fun n =>
      (if !n.isSubsumed then n.introducesMarkedConstraint h else Res.ok false).bind
      fun tabled =>
        (if tabled then
            (SubsumptionTableEntry.create h n).bind fun entry => .ok (t.store entry)
          else Res.ok t).bind
        fun t1 =>
          (ITreeNode.delete h node).bind fun h1 =>
            match n.parent with
            | none => .ok (t1, h1)
            | some p =>
              (deref (h1.nodeAt p)).bind fun pn =>
                (if pn.left = some node then Res.ok { pn with left := none }
                  else if pn.right = some node then Res.ok { pn with right := none }
                  else Res.abort).bind
                fun pn1 =>
                  if pn1.left = none ∧ pn1.right = none then
                    removeLoop fuel t1 (h1.setNode p pn1) p
                  else .ok (t1, h1.setNode p pn1)

/-- `ITree::remove`. Every round deletes a node, so a run that is still
going after `nodes.length` rounds never ends. -/
def ITree.remove (t : ITree) (h : Heap) (node : Option Nat) : Res (ITree × Heap) :=
  (deref node).bind fun a =>
    (deref (h.nodeAt a)).bind fun n =>
      if n.left = none ∧ n.right = none then removeLoop (h.nodes.length + 1) t h a
      else .abort

/-- `ITree::split`: the pair `(parent->left, parent->right)` after the
split. -/
def ITree.split (h : Heap) (parent : Nat) (left right : Nat) :
    Res ((Option Nat × Option Nat) × Heap) :=
  (ITreeNode.split h parent left right).bind fun h1 =>
    (deref (h1.nodeAt parent)).bind fun pn => .ok ((pn.left, pn.right), h1)

/-- The `while` loop of `markPathCondition` (lines 232-239) for one core
element `c`: returns the store and the value of `pc` on leaving the loop. -/
def markWhile (c : Expr) : Nat → Heap → Option Nat → Res (Heap × Option Nat)
  | _, h, none => .ok (h, none)
  | 0, _, some _ => .diverge
  | fuel + 1, h, some a =>
    match h.pcAt a with
    | none => .fault
    | some l =>
      if l.constraint.compare c = 0 then
        (PathCondition.includeInInterpolant h a).bind fun h1 => .ok (h1, l.tail)
      else markWhile c fuel h l.tail

/-- The `for` loop of `markPathCondition` (lines 230-241) over the core
elements still to process, in the order the reverse iterator meets them. -/
def markFor : List Expr → Heap → Option Nat → Res Heap
  | [], h, _ => .ok h
  | c :: rest, h, pc =>
    (markWhile c (h.pcs.length + 1) h pc).bind fun r =>
      match r.2 with
      | none => .ok r.1
      | some a => markFor rest r.1 (some a)

/-- `ITree::markPathCondition`. -/
def ITree.markPathCondition (t : ITree) (h : Heap) (unsat_core : List Expr) : Res Heap :=
  if unsat_core.length = 0 then .ok h
  else
    (deref t.currentINode).bind fun c =>
      (deref (h.nodeAt c)).bind fun n =>
        match n.pathCondition with
        | none => .ok h
        | some a => markFor unsat_core.reverse h (some a)

/-! ## The state at a failed assertion (ITree.cpp 162, 192, 208, 334) -/

/-- Outcome of a call that keeps what a failed `assert` leaves behind:
`abort` carries the state, of type `σ`, as it is at the moment the assertion
fails. For a method of a node the state is the store; for a method of the
tree it is the tree object with the store, and with the solver where the
method is handed one. The other outcomes are those of `Res`. -/
inductive Exit (σ α : Type) where
  | ok (a : α)
  | abort (s : σ)
  | fault
  | diverge
  deriving DecidableEq, Repr

/-- Sequencing of two steps: the second runs only when the first returned. -/
def Exit.bind {σ α β : Type} (x : Exit σ α) (f : α → Exit σ β) : Exit σ β :=
  match x with
  | .ok a => f a
  | .abort s => .abort s
  | .fault => .fault
  | .diverge => .diverge

/-- The outcome without the state of the abort. -/
def Exit.erase {σ α : Type} : Exit σ α → Res α
  | .ok a => .ok a
  | .abort _ => .abort
  | .fault => .fault
  | .diverge => .diverge

/-- The outcome of a step that holds no `assert` (a pointer read, a
constructor, a destructor, the loop of a check), run while the state is
`s`. -/
def Exit.ofRes {σ α : Type} (s : σ) : Res α → Exit σ α
  | .ok a => .ok a
  | .abort => .abort s
  | .fault => .fault
  | .diverge => .diverge

/-- The outcome of a callee seen by a caller whose state `f s` holds the
state `s` of the callee. -/
def Exit.under {σ τ α : Type} (f : σ → τ) : Exit σ α → Exit τ α
  | .ok a => .ok a
  | .abort s => .abort (f s)
  | .fault => .fault
  | .diverge => .diverge

/-- `ITreeNode::split` on the node at `this` (lines 333-337), with the store
at a failed `assert`: the assertion is the first statement. -/
def ITreeNode.splitExit (h : Heap) (this : Nat) (leftData rightData : Nat) :
    Exit Heap Heap :=
  (Exit.ofRes h (deref (h.nodeAt this))).bind fun n =>
    if n.left = none ∧ n.right = none then
      (Exit.ofRes h (ITreeNode.create h (some this) leftData)).bind fun l =>
        (Exit.ofRes l.2 (deref (l.2.stateAt leftData))).bind fun ls =>
          let h1 := (l.2.setNode this { n with left := some l.1 }).setState leftData
            { ls with itreeNode := some l.1 }
          (Exit.ofRes h1 (ITreeNode.create h1 (some this) rightData)).bind fun r =>
            (Exit.ofRes r.2 (deref (r.2.nodeAt this))).bind fun n1 =>
              (Exit.ofRes r.2 (deref (r.2.stateAt rightData))).bind fun rs =>
                .ok ((r.2.setNode this { n1 with right := some r.1 }).setState rightData
                  { rs with itreeNode := some r.1 })
    else .abort h

/-- `ITree::split` (lines 216-219), with the tree and the store at a failed
`assert` of the node's `split`. -/
def ITree.splitExit (t : ITree) (h : Heap) (parent : Nat) (left right : Nat) :
    Exit (ITree × Heap) ((Option Nat × Option Nat) × Heap) :=
  ((ITreeNode.splitExit h parent left right).under fun h1 => (t, h1)).bind fun h1 =>
    (Exit.ofRes (t, h1) (deref (h1.nodeAt parent))).bind fun pn =>
      .ok ((pn.left, pn.right), h1)

/-- `ITree::checkCurrentStateSubsumption` (lines 159-177), with the tree, the
store and the solver at a failed `assert`: the assertion is the first
statement, and the scan that follows holds none. -/
def ITree.checkCurrentStateSubsumptionExit (t : ITree) (h : Heap) (solver : TimingSolver)
    (state : ExecutionState) (timeout : Nat) :
    Exit (ITree × Heap × TimingSolver) (Bool × Heap × TimingSolver) :=
  if state.itreeNode = t.currentINode then
    Exit.ofRes (t, h, solver) (checkLoop t state timeout t.subsumptionTable h solver)
  else .abort (t, h, solver)

/-- The `do ... while` loop of `ITree::remove` (lines 193-213), with the tree
and the store at a failed `assert`: the assertion of line 208 is reached
after the node was tabled and deleted. -/
def removeLoopExit : Nat → ITree → Heap → Nat → Exit (ITree × Heap) (ITree × Heap)
  | 0, _, _, _ => .diverge
  | fuel + 1, t, h, node =>
    (Exit.ofRes (t, h) (deref (h.nodeAt node))).bind fun n =>
      (Exit.ofRes (t, h)
        (if !n.isSubsumed then n.introducesMarkedConstraint h else Res.ok false)).bind
      fun tabled =>
        (Exit.ofRes (t, h)
          (if tabled then
            (SubsumptionTableEntry.create h n).bind fun entry => .ok (t.store entry)
          else Res.ok t)).bind
        fun t1 =>
          (Exit.ofRes (t1, h) (ITreeNode.delete h node)).bind fun h1 =>
            match n.parent with
            | none => .ok (t1, h1)
            | some p =>
              (Exit.ofRes (t1, h1) (deref (h1.nodeAt p))).bind fun pn =>
                (if pn.left = some node then Exit.ok { pn with left := none }
                  else if pn.right = some node then Exit.ok { pn with right := none }
                  else Exit.abort (t1, h1)).bind
                fun pn1 =>
                  if pn1.left = none ∧ pn1.right = none then
                    removeLoopExit fuel t1 (h1.setNode p pn1) p
                  else .ok (t1, h1.setNode p pn1)

/-- `ITree::remove` (lines 191-214), with the tree and the store at a failed
`assert`: the assertion of line 192 is the first statement. -/
def ITree.removeExit (t : ITree) (h : Heap) (node : Option Nat) :
    Exit (ITree × Heap) (ITree × Heap) :=
  (Exit.ofRes (t, h) (deref node)).bind fun a =>
    (Exit.ofRes (t, h) (deref (h.nodeAt a))).bind fun n =>
      if n.left = none ∧ n.right = none then removeLoopExit (h.nodes.length + 1) t h a
      else .abort (t, h)

/-! ## Vocabulary of the statements -/

/-- The links met walking the tails from `p`, head first, each with its
address: `none` when the walk reads a deleted link or outlives the fuel. -/
def chainLinks (h : Heap) : Nat → Option Nat → Option (List (Nat × PathCondition))
  | _, none => some []
  | 0, some _ => none
  | fuel + 1, some a =>
    match h.pcAt a with
    | none => none
    | some l => (chainLinks h fuel l.tail).map fun r => (a, l) :: r

/-- The constraints bound in a marker map. -/
def MarkerMap.keys (m : MarkerMap) : List Expr := m.map Prod.fst

/-- The links gated by the markers of a map. -/
def MarkerMap.gated (m : MarkerMap) : List Nat := m.map fun kv => kv.2.pathCondition

/-- An answer that lets the query loop go on: success with validity `True`. -/
def Answer.valid (a : Answer) : Bool := a.success && a.validity == Validity.True

/-- The answers up to the first one that is unsuccessful or not `True`. -/
def passing (script : List Answer) : List Answer := script.takeWhile Answer.valid

/-- The queries of the `evaluate` calls of a log, in the order made. -/
def evalQueries (l : List SolverCall) : List Expr :=
  l.filterMap fun c =>
    match c with
    | .evaluate _ q => some q
    | _ => none
/-- The state sits on a live node whose program point is the entry's. -/
def SubsumptionTableEntry.samePoint (e : SubsumptionTableEntry) (h : Heap)
    (state : ExecutionState) : Prop :=
  ∃ na n, state.itreeNode = some na ∧ h.nodeAt na = some n ∧ n.nodeId = e.nodeId

/-- The solver as the checks of the entries `es`, run one after the other in
list order, leave it when every one of them returns false; `none` as soon as
one of them does anything else. -/
def failAll (state : ExecutionState) (timeout : Nat) (h : Heap) :
    List SubsumptionTableEntry → TimingSolver → Option TimingSolver
  | [], s => some s
  | e :: rest, s =>
    match e.subsumed h s state timeout with
    | .ok (false, _, s1) => failAll state timeout h rest s1
    | _ => none

/-- The node record `pn` with the child slot that holds `c` set to null, the
way `remove` detaches `c` from its parent. -/
def clearSlot (pn : ITreeNode) (c : Nat) : ITreeNode :=
  if pn.left = some c then { pn with left := none } else { pn with right := none }

/-- Cascading removal in the words of the specification: starting from the
leaf `a`, the node is deleted and detached from its parent's slot; the parent
is deleted in turn if it has thereby become childless, and so on upward. The
result lists the deleted nodes bottom-up, and names the first ancestor that
still has a child, together with the child detached from it (`none` when the
root itself was deleted). -/
def cascade (h : Heap) : Nat → Nat → List Nat × Option (Nat × Nat)
  | 0, _ => ([], none)
  | fuel + 1, a =>
    match h.nodeAt a with
    | none => ([], none)
    | some n =>
      match n.parent with
      | none => ([a], none)
      | some p =>
        match h.nodeAt p with
        | none => ([a], none)
        | some pn =>
          if (clearSlot pn a).left = none ∧ (clearSlot pn a).right = none then
            ((a :: (cascade h fuel p).1), (cascade h fuel p).2)
          else ([a], some (p, a))

/-- The condition under which a deleted node is tabled, in the words of the
specification: not marked subsumed, not the root, its chain head is not the
parent's chain head, and the flag of that head is set. -/
def qualifies (h : Heap) (a : Nat) : Bool :=
  match h.nodeAt a with
  | none => false
  | some n =>
    !n.isSubsumed &&
    match n.parent with
    | none => false
    | some p =>
      match h.nodeAt p with
      | none => false
      | some pn =>
        n.pathCondition != pn.pathCondition &&
        match n.pathCondition with
        | none => false
        | some l =>
          match h.pcAt l with
          | none => false
          | some lk => lk.inInterpolant

/-- The table entry of the node at `a`: its program point with the packed
interpolant of its chain. -/
def entryOf (h : Heap) (a : Nat) : Option SubsumptionTableEntry :=
  match h.nodeAt a with
  | none => none
  | some n =>
    match PathCondition.packInterpolant h n.pathCondition with
    | .ok i => some { nodeId := n.nodeId, interpolant := i }
    | _ => none

/-- Shape of a live node at address `a`: its parent, if any, was allocated
before it, is live and holds it in a child slot; its chain head is the
parent's or a link put on top of the parent's; its two child slots do not
hold the same node; its chain consists of live links and ends. -/
def nodeOK (h : Heap) (a : Nat) (n : ITreeNode) : Bool :=
  (match n.parent with
    | none => true
    | some p =>
      decide (p < a) &&
      match h.nodeAt p with
      | none => false
      | some pn =>
        (pn.left == some a || pn.right == some a) &&
        (n.pathCondition == pn.pathCondition ||
          match n.pathCondition with
          | none => false
          | some l =>
            match h.pcAt l with
            | none => false
            | some lk => lk.tail == pn.pathCondition)) &&
  (n.left.isNone || n.left != n.right) &&
  (chainLinks h (h.pcs.length + 1) n.pathCondition).isSome

/-- Shape of a live link at address `a`: its tail was allocated before it. -/
def linkOK (a : Nat) (l : PathCondition) : Bool :=
  match l.tail with
  | none => true
  | some t => decide (t < a)

/-- The store holds trees the way the constructor and `split` lay them out. -/
def wellFormed (h : Heap) : Bool :=
  ((List.range h.nodes.length).all fun a =>
    match h.nodeAt a with
    | none => true
    | some n => nodeOK h a n) &&
  ((List.range h.pcs.length).all fun a =>
    match h.pcAt a with
    | none => true
    | some l => linkOK a l)
/-- The state of the loop of `remove` on reaching node `a`, set against the
store `h0` the call started from: nothing below `a` has changed, `a` has its
record of `h0` with both child slots cleared, and no link of the chain of `a`
has changed. -/
structure LoopInv (h0 h : Heap) (a : Nat) (n0 : ITreeNode) : Prop where
  nodesLen : h.nodes.length = h0.nodes.length
  pcsLen : h.pcs.length = h0.pcs.length
  below : ∀ x, x < a → h.nodeAt x = h0.nodeAt x
  here0 : h0.nodeAt a = some n0
  here : h.nodeAt a = some { n0 with left := none, right := none }
  links : ∀ y l, n0.pathCondition = some y → l ≤ y → h.pcAt l = h0.pcAt l

/-- The link the constructor of a child puts on top of the parent's chain
head `pc` for a state with constraints `cs`, if it puts one: the state has a
last constraint, and the parent's chain is empty or its head carries another
constraint. -/
def newLink (h : Heap) (pc : Option Nat) (cs : List Expr) : Option PathCondition :=
  match cs.getLast? with
  | none => none
  | some c =>
    match pc with
    | none => some { constraint := c, inInterpolant := false, tail := none }
    | some hd =>
      match h.pcAt hd with
      | none => none
      | some l =>
        if l.constraint = c then none
        else some { constraint := c, inInterpolant := false, tail := some hd }

/-- The node the constructor makes for the state at `data` under `parent`
with chain head `pc`. -/
def freshNode (parent : Option Nat) (data : Nat) (pc : Option Nat) : ITreeNode :=
  { parent := parent, left := none, right := none, nodeId := 0, isSubsumed := false,
    data := data, pathCondition := pc }
/-- A child made for a state with constraints `cs` under a parent with chain
head `pc` gets a link of its own: the state has at least one constraint, and
the parent's chain is empty or the constraint at its head differs from the
last constraint of the state. -/
def growsChain (h : Heap) (pc : Option Nat) (cs : List Expr) : Prop :=
  ∃ c, cs.getLast? = some c ∧
    (pc = none ∨ ∃ hd lk, pc = some hd ∧ h.pcAt hd = some lk ∧ lk.constraint ≠ c)

/-- The chain head of a child `cn` made by a split of `pn` in store `h`, for
a state `s`, as found in the store `h2` after the split: the parent's chain
head itself, or a link that is not in `h`, is unflagged, carries the last
constraint of `s` and has the parent's chain head as tail; the latter exactly
when `growsChain`. -/
def ChildHead (h h2 : Heap) (pn : ITreeNode) (s : ExecutionState) (cn : ITreeNode) : Prop :=
  (¬ growsChain h pn.pathCondition s.constraints ∧ cn.pathCondition = pn.pathCondition) ∨
  (growsChain h pn.pathCondition s.constraints ∧
    ∃ a c, cn.pathCondition = some a ∧ h.pcAt a = none ∧ h.pcs.length ≤ a ∧
      s.constraints.getLast? = some c ∧
      h2.pcAt a = some { constraint := c, inInterpolant := false, tail := pn.pathCondition })

/-- The greedy left-to-right embedding of the core elements `rcore`, in the
order they are processed, into the chain `ls`, head first: each element takes
the first link at or after the walk position that carries it, and the walk
goes on behind that link. The result lists the links taken. -/
def greedyLinks : List (Nat × PathCondition) → List Expr → List (Nat × PathCondition)
  | [], _ => []
  | _ :: _, [] => []
  | x :: rest, c :: cs =>
    if x.2.constraint = c then x :: greedyLinks rest cs else greedyLinks rest (c :: cs)

/-- The part of the chain `ls` behind the walk position once the greedy
embedding has processed the core elements `rcore`; empty when the chain was
exhausted on the way. -/
def afterGreedy : List (Nat × PathCondition) → List Expr → List (Nat × PathCondition)
  | ls, [] => ls
  | [], _ :: _ => []
  | x :: rest, c :: cs =>
    if x.2.constraint = c then afterGreedy rest cs else afterGreedy rest (c :: cs)

/-- The link `l` as it is after a call that flagged the links at the
addresses `marked`, seen at address `y`. -/
def flagIf (marked : List Nat) (y : Nat) (l : PathCondition) : PathCondition :=
  if y ∈ marked then { l with inInterpolant := true } else l

/-- The address of the link nearest the head of the chain `ls` that carries
the constraint `c`, if any link does. -/
def headMost (ls : List (Nat × PathCondition)) (c : Expr) : Option Nat :=
  (ls.find? fun x => decide (x.2.constraint = c)).map Prod.fst

/-- The bindings of a marker map stand in strictly increasing key order. -/
def MarkerMap.sorted (m : MarkerMap) : Prop :=
  List.Pairwise (fun a b : Expr × PathConditionMarker => a.1.code < b.1.code) m

/-- The binding `kv` after the gates of the markers bound to the constraints
`cs` were set. -/
def gate (cs : List Expr) (kv : Expr × PathConditionMarker) : Expr × PathConditionMarker :=
  if kv.1 ∈ cs then (kv.1, { kv.2 with mayBeInInterpolant := true }) else kv

/-- The links gated by the markers of a map whose gate is set. -/
def MarkerMap.gatedOn (m : MarkerMap) : List Nat :=
  (m.filter fun kv => kv.2.mayBeInInterpolant).map fun kv => kv.2.pathCondition

/-- The fields of a node that lay out the tree: parent, the two child slots
and the chain head. The program point and the subsumed flag are left out. -/
def ITreeNode.shape (n : ITreeNode) : Option Nat × Option Nat × Option Nat × Option Nat :=
  (n.parent, n.left, n.right, n.pathCondition)

/-- The fields of a link that lay out the chain: the constraint and the
tail. The flag is left out. -/
def PathCondition.shape (l : PathCondition) : Expr × Option Nat := (l.constraint, l.tail)

/-- The store `h1` has the layout of `h`: the same addresses hold nodes and
links, with the same `shape`. Flags, program points and states may differ. -/
def SameShape (h h1 : Heap) : Prop :=
  h1.nodes.length = h.nodes.length ∧ h1.pcs.length = h.pcs.length ∧
  (∀ a, (h1.nodeAt a).map ITreeNode.shape = (h.nodeAt a).map ITreeNode.shape) ∧
  (∀ y, (h1.pcAt y).map PathCondition.shape = (h.pcAt y).map PathCondition.shape)

/-- The node `n` brought its chain head along: it has no parent, or its
chain head is not the chain head of its parent. -/
def introduces (h : Heap) (n : ITreeNode) : Prop :=
  ∀ p pn, n.parent = some p → h.nodeAt p = some pn → n.pathCondition ≠ pn.pathCondition

/-- Every link at the head of a chain was brought by one node only, and the
link brought by a node without parent has no tail. -/
def owned (h : Heap) : Prop :=
  (∀ d e nd ne y, h.nodeAt d = some nd → h.nodeAt e = some ne →
    nd.pathCondition = some y → ne.pathCondition = some y →
    introduces h nd → introduces h ne → d = e) ∧
  (∀ a n y lk, h.nodeAt a = some n → n.parent = none → n.pathCondition = some y →
    h.pcAt y = some lk → lk.tail = none)

/-- The store `h2` is what is left of `h` after nodes and links were deleted
and child slots cleared: the links and nodes of `h2` are links and nodes of
`h`, a node keeps its parent and its chain head, its child slots differ, its
parent is in `h2` and holds it, and the links of its chain are in `h2`. -/
structure SubStore (h h2 : Heap) : Prop where
  pcsLen : h2.pcs.length = h.pcs.length
  links : ∀ y l, h2.pcAt y = some l → h.pcAt y = some l
  nodes : ∀ a n2, h2.nodeAt a = some n2 → ∃ n, h.nodeAt a = some n ∧
    n2.parent = n.parent ∧ n2.pathCondition = n.pathCondition
  kids : ∀ a n2 c, h2.nodeAt a = some n2 → n2.left = some c → n2.right ≠ some c
  held : ∀ a n2 p, h2.nodeAt a = some n2 → n2.parent = some p →
    ∃ pn2, h2.nodeAt p = some pn2 ∧ (pn2.left = some a ∨ pn2.right = some a)
  chains : ∀ a n2 ls, h2.nodeAt a = some n2 →
    chainLinks h (h.pcs.length + 1) n2.pathCondition = some ls →
    ∀ x ∈ ls, h2.pcAt x.1 = some x.2

/-- No restriction on the states handed to `split`. -/
def anyState : Heap → Option Nat → List Expr → Bool := fun _ _ _ => true

/-- The last constraint of a state with constraints `cs`, handed to `split`
under a parent with chain head `pc`, is carried by no link of the parent's
chain other than its head. -/
def freshLast (h : Heap) (pc : Option Nat) (cs : List Expr) : Bool :=
  match cs.getLast?, chainLinks h (h.pcs.length + 1) pc with
  | some c, some ls => ls.tail.all fun x => x.2.constraint != c
  | _, _ => true

/-- The stores a driver can reach from a store without nodes and links, by
calls that return: it may rewrite its states, make a root with the `ITree`
constructor, split a node, and run `markPathCondition`,
`checkCurrentStateSubsumption`, `setNodeLocation` and `remove`. The states
handed to `split` meet `adm` with respect to the chain head of the node
split. -/
inductive Built (adm : Heap → Option Nat → List Expr → Bool) : Heap → Prop
  | start (states : List ExecutionState) : Built adm { pcs := [], nodes := [], states := states }
  | edit (h : Heap) (states : List ExecutionState) :
      Built adm h → Built adm { h with states := states }
  | root (h : Heap) (sd : Nat) (t : ITree) (h1 : Heap) :
      Built adm h → ITree.create h sd = .ok (t, h1) → Built adm h1
  | split (h : Heap) (p l r : Nat) (res : Option Nat × Option Nat) (h1 : Heap) :
      Built adm h → ITree.split h p l r = .ok (res, h1) →
      (∀ pn s, h.nodeAt p = some pn → h.stateAt l = some s ∨ h.stateAt r = some s →
        adm h pn.pathCondition s.constraints = true) →
      Built adm h1
  | mark (h : Heap) (t : ITree) (core : List Expr) (h1 : Heap) :
      Built adm h → t.markPathCondition h core = .ok h1 → Built adm h1
  | check (h : Heap) (t : ITree) (solver : TimingSolver) (state : ExecutionState)
      (timeout : Nat) (b : Bool) (h1 : Heap) (s1 : TimingSolver) :
      Built adm h → t.checkCurrentStateSubsumption h solver state timeout = .ok (b, h1, s1) →
      Built adm h1
  | locate (h : Heap) (a programPoint : Nat) (h1 : Heap) :
      Built adm h → ITreeNode.setNodeLocation h a programPoint = .ok h1 → Built adm h1
  | remove (h : Heap) (t : ITree) (node : Option Nat) (t1 : ITree) (h1 : Heap) :
      Built adm h → t.remove h node = .ok (t1, h1) → Built adm h1

/-- No chain of a live node carries a constraint on two of its links. -/
def distinctChains (h : Heap) : Prop :=
  ∀ a n ls, h.nodeAt a = some n →
    chainLinks h (h.pcs.length + 1) n.pathCondition = some ls →
    (ls.map fun x => x.2.constraint).Nodup

/-! ## Example stores -/

/-- A store with one node at program point 7 whose chain has two links:
link 1 (constraint 11) on top of link 0 (constraint 10). -/
def exHeap : Heap :=
  { pcs := [some ⟨⟨10⟩, false, none⟩, some ⟨⟨11⟩, false, some 0⟩],
    nodes := [some { parent := none, left := none, right := none, nodeId := 7,
                     isSubsumed := false, data := 0, pathCondition := some 1 }],
    states := [⟨[⟨10⟩, ⟨11⟩], some 0⟩] }

/-- The state sitting on the node of `exHeap`. -/
def exState : ExecutionState := ⟨[⟨10⟩, ⟨11⟩], some 0⟩

/-- An entry for program point 7 with two interpolant constraints. -/
def exEntry : SubsumptionTableEntry := ⟨7, [⟨20⟩, ⟨21⟩]⟩

/-- An entry for another program point. -/
def exEntryElsewhere : SubsumptionTableEntry := ⟨8, [⟨20⟩]⟩

/-- A solver that proves the first query from link 0 and fails the second. -/
def exSolverFail : TimingSolver :=
  ⟨[⟨true, .True, [⟨10⟩]⟩, ⟨true, .False, []⟩], [], 0, []⟩

/-- The solver `exSolverFail` after the two queries of `exEntry`. -/
def exSolverFailAfter : TimingSolver :=
  ⟨[], [], 0,
    [.setTimeout 5, .evaluate [⟨10⟩, ⟨11⟩] ⟨20⟩, .setTimeout 0, .getUnsatCore,
     .setTimeout 5, .evaluate [⟨10⟩, ⟨11⟩] ⟨21⟩, .setTimeout 0]⟩

/-- A solver that proves both queries, from link 0 and then from both links. -/
def exSolverPass : TimingSolver :=
  ⟨[⟨true, .True, [⟨10⟩]⟩, ⟨true, .True, [⟨11⟩, ⟨10⟩]⟩], [], 0, []⟩

/-- A tree on `exHeap` whose table holds an entry of another program point
followed by `exEntry`, with the node of `exState` active. -/
def exTree : ITree :=
  { currentINode := some 0, root := some 0, subsumptionTable := [exEntryElsewhere, exEntry] }

/-- The store `exHeap` with both links flagged, as a successful check of
`exEntry` under `exSolverPass` leaves it. -/
def exHeapFlagged : Heap :=
  { pcs := [some ⟨⟨10⟩, true, none⟩, some ⟨⟨11⟩, true, some 0⟩],
    nodes := [some { parent := none, left := none, right := none, nodeId := 7,
                     isSubsumed := false, data := 0, pathCondition := some 1 }],
    states := [⟨[⟨10⟩, ⟨11⟩], some 0⟩] }

/-- The store `exHeapFlagged` with the node marked subsumed. -/
def exHeapSubsumed : Heap :=
  { pcs := [some ⟨⟨10⟩, true, none⟩, some ⟨⟨11⟩, true, some 0⟩],
    nodes := [some { parent := none, left := none, right := none, nodeId := 7,
                     isSubsumed := true, data := 0, pathCondition := some 1 }],
    states := [⟨[⟨10⟩, ⟨11⟩], some 0⟩] }

/-- The solver `exSolverPass` after the two queries of `exEntry`. -/
def exSolverPassAfter : TimingSolver :=
  ⟨[], [⟨11⟩, ⟨10⟩], 0,
    [.setTimeout 5, .evaluate [⟨10⟩, ⟨11⟩] ⟨20⟩, .setTimeout 0, .getUnsatCore,
     .setTimeout 5, .evaluate [⟨10⟩, ⟨11⟩] ⟨21⟩, .setTimeout 0, .getUnsatCore]⟩

/-- Five states for the tree `root -> {A, B}`, `A -> {A1, A2}`: the root
state has no constraint, A has `[1]`, B has `[2]`, A1 has `[1, 3]` and A2
still has `[1]`. -/
def famStart : Heap :=
  { pcs := [], nodes := [],
    states := [⟨[], none⟩, ⟨[⟨1⟩], none⟩, ⟨[⟨2⟩], none⟩, ⟨[⟨1⟩, ⟨3⟩], none⟩, ⟨[⟨1⟩], none⟩] }

/-- The tree built on `famStart` by the constructor and two splits: the root
is node 0, A is 1, B is 2, A1 is 3 and A2 is 4. -/
def famBuild : Res (ITree × Heap) :=
  (ITree.create famStart 0).bind fun r =>
    (ITree.split r.2 0 1 2).bind fun r1 =>
      (ITree.split r1.2 1 3 4).bind fun r2 => .ok (r.1, r2.2)

/-- The tree object of `famBuild`. -/
def famTree : ITree := { currentINode := none, root := some 0, subsumptionTable := [] }

/-- The states of `famBuild` after the two splits. -/
def famStates : List ExecutionState :=
  [⟨[], none⟩, ⟨[⟨1⟩], some 1⟩, ⟨[⟨2⟩], some 2⟩, ⟨[⟨1⟩, ⟨3⟩], some 3⟩, ⟨[⟨1⟩], some 4⟩]

/-- A childless node without program point, as the constructor makes it. -/
def famNode (parent : Option Nat) (left right : Option Nat) (data : Nat)
    (pc : Option Nat) : ITreeNode :=
  { parent := parent, left := left, right := right, nodeId := 0, isSubsumed := false,
    data := data, pathCondition := pc }

/-- The store of `famBuild`. -/
def famHeap : Heap :=
  { pcs := [some ⟨⟨1⟩, false, none⟩, some ⟨⟨2⟩, false, none⟩, some ⟨⟨3⟩, false, some 0⟩],
    nodes := [some (famNode none (some 1) (some 2) 0 none),
              some (famNode (some 0) (some 3) (some 4) 1 (some 0)),
              some (famNode (some 0) none none 2 (some 1)),
              some (famNode (some 1) none none 3 (some 2)),
              some (famNode (some 1) none none 4 (some 0))],
    states := famStates }

/-- The store after `remove(A1)`: only A1 and its own link are gone. -/
def famHeap1 : Heap :=
  { pcs := [some ⟨⟨1⟩, false, none⟩, some ⟨⟨2⟩, false, none⟩, none],
    nodes := [some (famNode none (some 1) (some 2) 0 none),
              some (famNode (some 0) none (some 4) 1 (some 0)),
              some (famNode (some 0) none none 2 (some 1)),
              none,
              some (famNode (some 1) none none 4 (some 0))],
    states := famStates }

/-- The store after `remove(A2)`: A2 and A are gone. -/
def famHeap2 : Heap :=
  { pcs := [none, some ⟨⟨2⟩, false, none⟩, none],
    nodes := [some (famNode none none (some 2) 0 none), none,
              some (famNode (some 0) none none 2 (some 1)), none, none],
    states := famStates }

/-- The store after `remove(B)`: B and the root are gone. -/
def famHeap3 : Heap :=
  { pcs := [none, none, none], nodes := [none, none, none, none, none], states := famStates }

/-- The store `famHeap` with the links of constraints 1 and 3 flagged. -/
def famMarked : Heap :=
  { famHeap with
    pcs := [some ⟨⟨1⟩, true, none⟩, some ⟨⟨2⟩, false, none⟩, some ⟨⟨3⟩, true, some 0⟩] }

/-- The store `famMarked` after `remove(A1)`. -/
def famMarked1 : Heap :=
  { famHeap1 with pcs := [some ⟨⟨1⟩, true, none⟩, some ⟨⟨2⟩, false, none⟩, none] }

/-- The store after the constructor made a root from state 1 of `famStart`,
whose only constraint is 1: node 0 with the one-link chain `[1]`. -/
def soloHeap : Heap :=
  { pcs := [some ⟨⟨1⟩, false, none⟩],
    nodes := [some (freshNode none 1 (some 0))],
    states := famStart.states }

/-- Constraint `x > 0`. -/
def xGt0 : Expr := ⟨100⟩

/-- Constraint `x <= 0`. -/
def xLe0 : Expr := ⟨101⟩

/-- Constraint `x == 5`. -/
def xEq5 : Expr := ⟨102⟩

/-- The states of the end-to-end scenario: the root state without
constraint, L with `[x > 0]`, R with `[x <= 0]`, and a later state with
`[x == 5]`. -/
def e2eStart : Heap :=
  { pcs := [], nodes := [],
    states := [⟨[], none⟩, ⟨[xGt0], none⟩, ⟨[xLe0], none⟩, ⟨[xEq5], none⟩] }

/-- A solver that is never asked anything. -/
def idleSolver : TimingSolver := ⟨[], [], 0, []⟩

/-- A solver that answers its first query with success, validity `True` and
unsat core `[x == 5]`. -/
def validSolver : TimingSolver := ⟨[⟨true, .True, [xEq5]⟩], [], 0, []⟩

/-- What the end-to-end scenario observes. -/
structure E2EObs where
  checkL : Bool
  tableAfterR : List SubsumptionTableEntry
  idL : Nat
  tableAfterL : List SubsumptionTableEntry
  freshId : Nat
  freshChain : Res (List Expr)
  subsumedFresh : Bool
  queries : List Expr
  deriving DecidableEq, Repr

/-- The end-to-end scenario: the constructor on the root state, the split
into L and R, the subsumption check of L against the empty table,
`remove(R)`, `setCurrentINode(L)`, `markPathCondition([x > 0])`, `remove(L)`,
and the check of the tabled entry for a state with `[x == 5]` on a new node.
With `early` the driver makes L the current node before the first check;
without it the calls are exactly those listed. -/
def e2e (early : Bool) : Res E2EObs :=
  (ITree.create e2eStart 0).bind fun r0 =>
  (ITree.split r0.2 0 1 2).bind fun r1 =>
  (deref (r1.2.stateAt 1)).bind fun stL =>
  (((if early then r0.1.setCurrentINode r1.1.1 else r0.1).checkCurrentStateSubsumption
      r1.2 idleSolver stL 10).bind fun c =>
  ((if early then r0.1.setCurrentINode r1.1.1 else r0.1).remove c.2.1 r1.1.2).bind fun r2 =>
  ((r2.1.setCurrentINode r1.1.1).markPathCondition r2.2 [xGt0]).bind fun h3 =>
  (deref (r1.1.1.bind h3.nodeAt)).bind fun nL =>
  ((r2.1.setCurrentINode r1.1.1).remove h3 r1.1.1).bind fun r4 =>
  (ITree.create r4.2 3).bind fun r5 =>
  (deref (r5.1.root.bind r5.2.nodeAt)).bind fun nF =>
  (deref r4.1.subsumptionTable.head?).bind fun e =>
  (e.subsumed r5.2 validSolver ⟨[xEq5], r5.1.root⟩ 10).bind fun s =>
    .ok { checkL := c.1, tableAfterR := r2.1.subsumptionTable, idL := nL.nodeId,
          tableAfterL := r4.1.subsumptionTable, freshId := nF.nodeId,
          freshChain := (chainLinks r5.2 (r5.2.pcs.length + 1) nF.pathCondition).elim
            .fault (fun ls => .ok (ls.map fun x => x.2.constraint)),
          subsumedFresh := s.1, queries := evalQueries s.2.2.log })
/-- The store after the constructor made a root from state 0 of `famStart`,
which has no constraint. -/
def soloRoot : Heap :=
  { pcs := [], nodes := [some (freshNode none 0 none)], states := famStart.states }

/-- A chain of three links, head first: link 2 (constraint 32, flagged) on
link 1 (constraint 31, not flagged) on link 0 (constraint 30, flagged). -/
def packHeap : Heap :=
  { pcs := [some ⟨⟨30⟩, true, none⟩, some ⟨⟨31⟩, false, some 0⟩, some ⟨⟨32⟩, true, some 1⟩],
    nodes := [], states := [] }

/-- A store with one node, current in `markTree`, whose chain reads, head
first, 43, 42, 41, 42, 40 (links 4 down to 0), no link flagged. -/
def markHeap : Heap :=
  { pcs := [some ⟨⟨40⟩, false, none⟩, some ⟨⟨42⟩, false, some 0⟩, some ⟨⟨41⟩, false, some 1⟩,
            some ⟨⟨42⟩, false, some 2⟩, some ⟨⟨43⟩, false, some 3⟩],
    nodes := [some (freshNode none 0 (some 4))],
    states := [⟨[], some 0⟩] }

/-- The chain of the node of `markHeap`. -/
def markChain : List (Nat × PathCondition) :=
  [(4, ⟨⟨43⟩, false, some 3⟩), (3, ⟨⟨42⟩, false, some 2⟩), (2, ⟨⟨41⟩, false, some 1⟩),
   (1, ⟨⟨42⟩, false, some 0⟩), (0, ⟨⟨40⟩, false, none⟩)]

/-- A tree object whose current node is the node of `markHeap`. -/
def markTree : ITree := { currentINode := some 0, root := some 0, subsumptionTable := [] }

/-- An entry for program point 0 with one interpolant constraint. -/
def dupEntry : SubsumptionTableEntry := ⟨0, [⟨50⟩]⟩

/-- A solver that proves its first query from the constraints 42 and 40. -/
def dupSolver : TimingSolver := ⟨[⟨true, .True, [⟨42⟩, ⟨40⟩]⟩], [], 0, []⟩

/-- The links of `markHeap` after a successful check of `dupEntry` under
`dupSolver`: link 3, the one nearest the head that carries 42, and link 0 are
flagged; link 1, which also carries 42, is not. -/
def markHeapAfter : Heap :=
  { markHeap with
    pcs := [some ⟨⟨40⟩, true, none⟩, some ⟨⟨42⟩, false, some 0⟩, some ⟨⟨41⟩, false, some 1⟩,
            some ⟨⟨42⟩, true, some 2⟩, some ⟨⟨43⟩, false, some 3⟩] }

/-- The solver `dupSolver` after the query of `dupEntry`. -/
def dupSolverAfter : TimingSolver :=
  ⟨[], [⟨42⟩, ⟨40⟩], 0,
    [.setTimeout 5, .evaluate [] ⟨50⟩, .setTimeout 0, .getUnsatCore]⟩

/-- The store after the constructor made the root of `famBuild`. -/
def famRoot : Heap :=
  { pcs := [], nodes := [some (famNode none none none 0 none)], states := famStart.states }

/-- The store of `famBuild` after the first split. -/
def famMid : Heap :=
  { pcs := [some ⟨⟨1⟩, false, none⟩, some ⟨⟨2⟩, false, none⟩],
    nodes := [some (famNode none (some 1) (some 2) 0 none),
              some (famNode (some 0) none none 1 (some 0)),
              some (famNode (some 0) none none 2 (some 1))],
    states := [⟨[], none⟩, ⟨[⟨1⟩], some 1⟩, ⟨[⟨2⟩], some 2⟩, ⟨[⟨1⟩, ⟨3⟩], none⟩,
      ⟨[⟨1⟩], none⟩] }

/-- Five states before any tree is made: the state of the root has the one
constraint 1, those of its children have `[1, 2]` and `[1]`, and those of
the children of the left child have `[1, 2, 1]` and `[1, 2]`. -/
def dupStart : Heap :=
  { pcs := [], nodes := [],
    states := [⟨[⟨1⟩], none⟩, ⟨[⟨1⟩, ⟨2⟩], none⟩, ⟨[⟨1⟩], none⟩, ⟨[⟨1⟩, ⟨2⟩, ⟨1⟩], none⟩,
      ⟨[⟨1⟩, ⟨2⟩], none⟩] }

/-- The store after the constructor made a root from state 0 of `dupStart`. -/
def dupRoot : Heap :=
  { dupStart with
    pcs := [some ⟨⟨1⟩, false, none⟩], nodes := [some (famNode none none none 0 (some 0))] }

/-- The store after the root of `dupRoot` was split with states 1 and 2. -/
def dupMid : Heap :=
  { pcs := [some ⟨⟨1⟩, false, none⟩, some ⟨⟨2⟩, false, some 0⟩],
    nodes := [some (famNode none (some 1) (some 2) 0 (some 0)),
              some (famNode (some 0) none none 1 (some 1)),
              some (famNode (some 0) none none 2 (some 0))],
    states := [⟨[⟨1⟩], none⟩, ⟨[⟨1⟩, ⟨2⟩], some 1⟩, ⟨[⟨1⟩], some 2⟩, ⟨[⟨1⟩, ⟨2⟩, ⟨1⟩], none⟩,
      ⟨[⟨1⟩, ⟨2⟩], none⟩] }

/-- The states of the `dup` stores once both splits were made. -/
def dupStates : List ExecutionState :=
  [⟨[⟨1⟩], none⟩, ⟨[⟨1⟩, ⟨2⟩], some 1⟩, ⟨[⟨1⟩], some 2⟩, ⟨[⟨1⟩, ⟨2⟩, ⟨1⟩], some 3⟩,
    ⟨[⟨1⟩, ⟨2⟩], some 4⟩]

/-- The nodes of the `dup` stores once both splits were made: node 3 has the
chain of links 2, 1, 0 with the constraints 1, 2, 1. -/
def dupNodes : List (Option ITreeNode) :=
  [some (famNode none (some 1) (some 2) 0 (some 0)),
   some (famNode (some 0) (some 3) (some 4) 1 (some 1)),
   some (famNode (some 0) none none 2 (some 0)),
   some (famNode (some 1) none none 3 (some 2)),
   some (famNode (some 1) none none 4 (some 1))]

/-- The store after node 1 of `dupMid` was split with states 3 and 4. -/
def dupTop : Heap :=
  { pcs := [some ⟨⟨1⟩, false, none⟩, some ⟨⟨2⟩, false, some 0⟩, some ⟨⟨1⟩, false, some 1⟩],
    nodes := dupNodes, states := dupStates }

/-- The store `dupTop` after `markPathCondition([1])` with the root active. -/
def dupMark : Heap :=
  { pcs := [some ⟨⟨1⟩, true, none⟩, some ⟨⟨2⟩, false, some 0⟩, some ⟨⟨1⟩, false, some 1⟩],
    nodes := dupNodes, states := dupStates }

/-- The store `dupMark` after `markPathCondition([1])` with node 3 active. -/
def dupHeap : Heap :=
  { pcs := [some ⟨⟨1⟩, true, none⟩, some ⟨⟨2⟩, false, some 0⟩, some ⟨⟨1⟩, true, some 1⟩],
    nodes := dupNodes, states := dupStates }

/-- The store `dupHeap` after `remove` of node 3. -/
def dupAfter : Heap :=
  { pcs := [some ⟨⟨1⟩, true, none⟩, some ⟨⟨2⟩, false, some 0⟩, none],
    nodes := [some (famNode none (some 1) (some 2) 0 (some 0)),
              some (famNode (some 0) none (some 4) 1 (some 1)),
              some (famNode (some 0) none none 2 (some 0)),
              none,
              some (famNode (some 1) none none 4 (some 1))],
    states := dupStates }

/-- A tree object with root 0, active node `c` and table `tb`. -/
def treeAt (c : Option Nat) (tb : List SubsumptionTableEntry) : ITree :=
  { currentINode := c, root := some 0, subsumptionTable := tb }

/-! ## Lemmas on the marker map and the query loop -/

theorem mayInclude_of_mem {k : Expr} {m : MarkerMap} (hk : k ∈ m.keys) :
    ∃ m1, MarkerMap.mayInclude k m = some m1 ∧ m1.keys = m.keys ∧ m1.gated = m.gated := by
  induction m with
  | nil => simp [MarkerMap.keys] at hk
  | cons kv rest ih =>
    obtain ⟨k1, v1⟩ := kv
    unfold MarkerMap.mayInclude
    by_cases hkk : k = k1
    · simp [hkk, MarkerMap.keys, MarkerMap.gated]
    · have hr : k ∈ MarkerMap.keys rest := by
        simpa [MarkerMap.keys, hkk] using hk
      obtain ⟨m1, h1, h2, h3⟩ := ih hr
      refine ⟨(k1, v1) :: m1, ?_, ?_, ?_⟩
      · simp [hkk, h1]
      · simpa [MarkerMap.keys] using h2
      · simpa [MarkerMap.gated] using h3

theorem markCore_of_subset {core : List Expr} {m : MarkerMap}
    (hc : ∀ c ∈ core, c ∈ m.keys) :
    ∃ m1, markCore core m = some m1 ∧ m1.keys = m.keys ∧ m1.gated = m.gated := by
  induction core generalizing m with
  | nil => exact ⟨m, rfl, rfl, rfl⟩
  | cons c rest ih =>
    obtain ⟨m1, h1, h2, h3⟩ := mayInclude_of_mem (hc c (by simp))
    have hc1 : ∀ c ∈ rest, c ∈ m1.keys := by
      intro c1 hc1; rw [h2]; exact hc c1 (by simp [hc1])
    obtain ⟨m2, g1, g2, g3⟩ := ih hc1
    refine ⟨m2, ?_, g2.trans h2, g3.trans h3⟩
    simp [markCore, h1, g1]

theorem insert_keys (k : Expr) (v : PathConditionMarker) (m : MarkerMap) (c : Expr) :
    c ∈ (MarkerMap.insert k v m).keys ↔ c = k ∨ c ∈ m.keys := by
  induction m with
  | nil => simp [MarkerMap.insert, MarkerMap.keys]
  | cons kv rest ih =>
    obtain ⟨k1, v1⟩ := kv
    unfold MarkerMap.insert
    split
    · simp [MarkerMap.keys]
    · split
      · rename_i hk; subst hk; simp [MarkerMap.keys]
      · simp only [MarkerMap.keys, List.map_cons, List.mem_cons] at ih ⊢
        rw [ih]; tauto

theorem insert_gated (k : Expr) (v : PathConditionMarker) (m : MarkerMap) (a : Nat)
    (ha : a ∈ (MarkerMap.insert k v m).gated) : a = v.pathCondition ∨ a ∈ m.gated := by
  induction m with
  | nil => simpa [MarkerMap.insert, MarkerMap.gated] using ha
  | cons kv rest ih =>
    obtain ⟨k1, v1⟩ := kv
    unfold MarkerMap.insert at ha
    split at ha
    · simpa [MarkerMap.gated] using ha
    · split at ha
      · right; exact ha
      · simp only [MarkerMap.gated, List.map_cons, List.mem_cons] at ih ha ⊢
        rcases ha with ha | ha
        · right; left; exact ha
        · rcases ih ha with h1 | h1
          · left; exact h1
          · right; right; exact h1

theorem makeMarkerMapLoop_ok (h : Heap) :
    ∀ (fuel : Nat) (p : Option Nat) (m0 : MarkerMap) (ls : List (Nat × PathCondition)),
      chainLinks h fuel p = some ls →
      ∃ m, makeMarkerMapLoop h fuel p m0 = .ok m ∧
        (∀ c, c ∈ m.keys ↔ c ∈ m0.keys ∨ c ∈ ls.map (fun x => x.2.constraint)) ∧
        (∀ a ∈ m.gated, a ∈ m0.gated ∨ (h.pcAt a).isSome) := by
  intro fuel
  induction fuel with
  | zero =>
    intro p m0 ls hl
    cases p with
    | none =>
      simp [chainLinks] at hl; subst hl
      exact ⟨m0, by simp [makeMarkerMapLoop], by simp, fun a ha => Or.inl ha⟩
    | some a => simp [chainLinks] at hl
  | succ fuel ih =>
    intro p m0 ls hl
    cases p with
    | none =>
      simp [chainLinks] at hl; subst hl
      exact ⟨m0, by simp [makeMarkerMapLoop], by simp, fun a ha => Or.inl ha⟩
    | some a =>
      unfold chainLinks at hl
      cases hpc : h.pcAt a with
      | none => simp [hpc] at hl
      | some l =>
        simp only [hpc, Option.map_eq_some'] at hl
        obtain ⟨r, hr, rfl⟩ := hl
        obtain ⟨m, hm, hk, hg⟩ := ih l.tail
          (MarkerMap.insert l.constraint ⟨false, a⟩ m0) r hr
        refine ⟨m, ?_, ?_, ?_⟩
        · simp [makeMarkerMapLoop, hpc, hm]
        · intro c
          rw [hk, insert_keys]
          simp only [List.map_cons, List.mem_cons]
          tauto
        · intro b hb
          rcases hg b hb with h1 | h1
          · rcases insert_gated _ _ _ _ h1 with h2 | h2
            · right; simp at h2; subst h2; simp [hpc]
            · left; exact h2
          · right; exact h1

theorem pcAt_setPc (h : Heap) (a b : Nat) (l : PathCondition) :
    (h.setPc a l).pcAt b = if a = b ∧ a < h.pcs.length then some l else h.pcAt b := by
  unfold Heap.setPc Heap.pcAt
  simp only [List.getElem?_set]
  by_cases hab : a = b
  · subst hab
    by_cases hlt : a < h.pcs.length
    · simp [hlt]
    · simp [hlt]
      have : h.pcs.length ≤ a := by omega
      simp [List.getElem?_eq_none this]
  · simp [hab]

theorem pcAt_lt {h : Heap} {a : Nat} {l : PathCondition} (hl : h.pcAt a = some l) :
    a < h.pcs.length := by
  unfold Heap.pcAt at hl
  by_contra hge
  have : h.pcs.length ≤ a := by omega
  simp [List.getElem?_eq_none this] at hl

theorem includeInInterpolant_ok {h : Heap} {a : Nat} (ha : (h.pcAt a).isSome) :
    ∃ h1, PathCondition.includeInInterpolant h a = .ok h1 ∧ h1.nodes = h.nodes ∧
      h1.states = h.states ∧ ∀ b, (h1.pcAt b).isSome = (h.pcAt b).isSome := by
  obtain ⟨l, hl⟩ := Option.isSome_iff_exists.mp ha
  refine ⟨h.setPc a { l with inInterpolant := true }, ?_, rfl, rfl, ?_⟩
  · simp [PathCondition.includeInInterpolant, hl]
  · intro b
    rw [pcAt_setPc]
    split
    · rename_i hab; rw [← hab.1, hl]; rfl
    · rfl

theorem commitMarkers_ok (m : MarkerMap) :
    ∀ h : Heap, (∀ a ∈ m.gated, (h.pcAt a).isSome) →
      ∃ h1, commitMarkers h m = .ok h1 ∧ h1.nodes = h.nodes ∧ h1.states = h.states := by
  induction m with
  | nil => intro h _; exact ⟨h, rfl, rfl, rfl⟩
  | cons kv rest ih =>
    intro h hg
    obtain ⟨k, v⟩ := kv
    by_cases hv : v.mayBeInInterpolant = true
    · obtain ⟨h1, e1, n1, s1, p1⟩ :=
        includeInInterpolant_ok (hg v.pathCondition (by simp [MarkerMap.gated]))
      have hg1 : ∀ a ∈ MarkerMap.gated rest, (h1.pcAt a).isSome := by
        intro a ha; rw [p1]; exact hg a (by simp [MarkerMap.gated] at ha ⊢; right; exact ha)
      obtain ⟨h2, e2, n2, s2⟩ := ih h1 hg1
      refine ⟨h2, ?_, n2.trans n1, s2.trans s1⟩
      simp [commitMarkers, PathConditionMarker.includeInInterpolant, hv, e1, e2]
    · have hg1 : ∀ a ∈ MarkerMap.gated rest, (h.pcAt a).isSome := by
        intro a ha; exact hg a (by simp [MarkerMap.gated] at ha ⊢; right; exact ha)
      obtain ⟨h2, e2, n2, s2⟩ := ih h hg1
      refine ⟨h2, ?_, n2, s2⟩
      simp [commitMarkers, PathConditionMarker.includeInInterpolant, hv, e2]

theorem passing_length_iff (script : List Answer) :
    ∀ n : Nat, (n ≤ (passing script).length ↔
      ∀ i, i < n → ∃ a, script[i]? = some a ∧ a.success = true ∧ a.validity = Validity.True) := by
  induction script with
  | nil =>
    intro n
    simp only [passing, List.takeWhile_nil, List.length_nil, Nat.le_zero_eq]
    constructor
    · intro hn i hi; omega
    · intro hall
      by_contra hn
      obtain ⟨a, ha, _⟩ := hall 0 (by omega)
      simp at ha
  | cons a rest ih =>
    intro n
    by_cases hv : a.valid = true
    · have hp : passing (a :: rest) = a :: passing rest := by
        simp [passing, List.takeWhile_cons, hv]
      rw [hp]
      cases n with
      | zero => simp
      | succ n =>
        simp only [List.length_cons, Nat.add_le_add_iff_right]
        rw [ih n]
        constructor
        · intro hall i hi
          cases i with
          | zero =>
            refine ⟨a, by simp, ?_⟩
            simpa [Answer.valid] using hv
          | succ i =>
            simpa using hall i (by omega)
        · intro hall i hi
          simpa using hall (i + 1) (by omega)
    · have hp : passing (a :: rest) = [] := by
        simp [passing, List.takeWhile_cons, hv]
      rw [hp]
      simp only [List.length_nil, Nat.le_zero_eq]
      constructor
      · intro hn i hi; omega
      · intro hall
        by_contra hn
        obtain ⟨b, hb, hs, hval⟩ := hall 0 (by omega)
        simp at hb; subst hb
        apply hv
        simp [Answer.valid, hs, hval]

theorem subsumedLoop_spec (state : ExecutionState) (timeout : Nat) (interp : List Expr) :
    ∀ (m : MarkerMap) (s : TimingSolver),
      (∀ a ∈ (passing s.script).take interp.length, ∀ c ∈ a.core, c ∈ m.keys) →
      ∃ r s1, subsumedLoop state timeout interp m s = .ok (r, s1) ∧
        (r.isSome = true ↔ interp.length ≤ (passing s.script).length) ∧
        (∀ m1, r = some m1 → m1.keys = m.keys ∧ m1.gated = m.gated) ∧
        ∃ l, s1.log = s.log ++ l ∧
          evalQueries l = interp.take ((passing s.script).length + 1) := by
  induction interp with
  | nil =>
    intro m s _
    refine ⟨some m, s, rfl, by simp, ?_, [], by simp, by simp [evalQueries]⟩
    intro m1 h1; cases h1; exact ⟨rfl, rfl⟩
  | cons q rest ih =>
    intro m s hc
    cases hscript : s.script with
    | nil =>
      refine ⟨none, ((s.setTimeout timeout).evaluate state q).2.2.setTimeout 0, ?_, ?_, ?_, ?_⟩
      rotate_left
      · simp [passing]
      · intro m1 h1; cases h1
      · refine ⟨[.setTimeout timeout, .evaluate state.constraints q, .setTimeout 0], ?_, ?_⟩
        rotate_left
        · simp [evalQueries, passing]
        · simp [TimingSolver.evaluate, TimingSolver.setTimeout, hscript]
      · simp [subsumedLoop, TimingSolver.evaluate, TimingSolver.setTimeout, hscript]
    | cons a script =>
      by_cases hv : a.valid = true
      · have hp : passing (a :: script) = a :: passing script := by
          simp [passing, List.takeWhile_cons, hv]
        rw [hscript, hp] at hc
        obtain ⟨m1, hm1, hk1, hg1⟩ := @markCore_of_subset a.core m (hc a (by simp))
        have hv2 : (a.success && a.validity == Validity.True) = true := hv
        let s4 : TimingSolver :=
          { script := script, core := a.core, timeout := 0,
            log := s.log ++ [.setTimeout timeout, .evaluate state.constraints q,
              .setTimeout 0, .getUnsatCore] }
        have hc4 : ∀ b ∈ (passing s4.script).take rest.length, ∀ c ∈ b.core, c ∈ m1.keys := by
          intro b hb c hcb
          rw [hk1]
          exact hc b (by simp [List.take_succ_cons]; right; exact hb) c hcb
        obtain ⟨r, s1, e1, i1, k1, l, hl, hq⟩ := ih m1 s4 hc4
        refine ⟨r, s1, ?_, ?_, ?_, ?_⟩
        · simp [subsumedLoop, TimingSolver.evaluate, TimingSolver.setTimeout,
            TimingSolver.getUnsatCore, hscript, hv2, hm1]
          exact e1
        · rw [i1, hp]; simp [s4]
        · intro m2 h2
          obtain ⟨x, y⟩ := k1 m2 h2
          exact ⟨x.trans hk1, y.trans hg1⟩
        · refine ⟨[.setTimeout timeout, .evaluate state.constraints q, .setTimeout 0,
            .getUnsatCore] ++ l, ?_, ?_⟩
          · rw [hl]; simp [s4]
          · rw [hp]
            simp only [evalQueries, List.filterMap_append] at hq ⊢
            simp [List.filterMap_cons, hq, s4]
      · have hp : passing (a :: script) = [] := by
          simp [passing, List.takeWhile_cons, hv]
        have hv2 : (a.success && a.validity == Validity.True) = false := by
          simpa [Answer.valid] using hv
        refine ⟨none, ((s.setTimeout timeout).evaluate state q).2.2.setTimeout 0, ?_, ?_, ?_, ?_⟩
        rotate_left
        · simp [hp]
        · intro m1 h1; cases h1
        · refine ⟨[.setTimeout timeout, .evaluate state.constraints q, .setTimeout 0], ?_, ?_⟩
          rotate_left
          · simp [evalQueries, hp]
          · simp [TimingSolver.evaluate, TimingSolver.setTimeout, hscript]
        · simp [subsumedLoop, TimingSolver.evaluate, TimingSolver.setTimeout, hscript, hv2]

theorem subsumed_spec (e : SubsumptionTableEntry) (h : Heap) (solver : TimingSolver)
    (state : ExecutionState) (timeout : Nat)
    (hnode : ∀ na, state.itreeNode = some na → ∃ n ls, h.nodeAt na = some n ∧
      chainLinks h (h.pcs.length + 1) n.pathCondition = some ls ∧
      ∀ a ∈ (passing solver.script).take e.interpolant.length, ∀ c ∈ a.core,
        c ∈ ls.map (fun x => x.2.constraint)) :
    ∃ b h1 s1, e.subsumed h solver state timeout = .ok (b, h1, s1) ∧
      (b = true ↔ e.samePoint h state ∧
        e.interpolant.length ≤ (passing solver.script).length) ∧
      (e.samePoint h state → ∃ l, s1.log = solver.log ++ l ∧
        evalQueries l = e.interpolant.take ((passing solver.script).length + 1)) ∧
      (¬ e.samePoint h state → s1 = solver) ∧
      h1.nodes = h.nodes ∧ h1.states = h.states := by
  cases hst : state.itreeNode with
  | none =>
    refine ⟨false, h, solver, ?_, ?_, ?_, ?_, rfl, rfl⟩
    · simp [SubsumptionTableEntry.subsumed, hst]
    · simp [SubsumptionTableEntry.samePoint, hst]
    · rintro ⟨na, n, h1, _⟩; simp [hst] at h1
    · intro _; rfl
  | some na =>
    obtain ⟨n, ls, hn, hls, hcore⟩ := hnode na hst
    by_cases hid : n.nodeId = e.nodeId
    · have hsame : e.samePoint h state := ⟨na, n, hst, hn, hid⟩
      obtain ⟨m, hm, hk, hg⟩ := makeMarkerMapLoop_ok h _ _ [] ls hls
      have hc : ∀ a ∈ (passing solver.script).take e.interpolant.length,
          ∀ c ∈ a.core, c ∈ m.keys := by
        intro a ha c hc
        rw [hk]; right; exact hcore a ha c hc
      obtain ⟨r, s1, hr, hi, hkeep, l, hl, hq⟩ :=
        subsumedLoop_spec state timeout e.interpolant m solver hc
      cases r with
      | none =>
        refine ⟨false, h, s1, ?_, ?_, ?_, ?_, rfl, rfl⟩
        · simp [SubsumptionTableEntry.subsumed, hst, hn, hid, ITreeNode.makeMarkerMap, hm, hr]
        · simp at hi; simp [hsame]; omega
        · intro _; exact ⟨l, hl, hq⟩
        · intro hns; exact absurd hsame hns
      | some m1 =>
        obtain ⟨_, hg1⟩ := hkeep m1 rfl
        have hlive : ∀ a ∈ m1.gated, (h.pcAt a).isSome := by
          intro a ha
          rw [hg1] at ha
          rcases hg a ha with h0 | h0
          · simp [MarkerMap.gated] at h0
          · exact h0
        obtain ⟨h1, hcm, hn1, hs1⟩ := commitMarkers_ok m1 h hlive
        refine ⟨true, h1, s1, ?_, ?_, ?_, ?_, hn1, hs1⟩
        · simp [SubsumptionTableEntry.subsumed, hst, hn, hid, ITreeNode.makeMarkerMap, hm, hr,
            hcm]
        · simp at hi; simp [hsame, hi]
        · intro _; exact ⟨l, hl, hq⟩
        · intro hns; exact absurd hsame hns
    · have hns : ¬ e.samePoint h state := by
        rintro ⟨na1, n1, h1, h2, h3⟩
        rw [hst] at h1; cases h1
        rw [hn] at h2; cases h2
        exact hid h3
      refine ⟨false, h, solver, ?_, ?_, ?_, ?_, rfl, rfl⟩
      · simp [SubsumptionTableEntry.subsumed, hst, hn, hid]
      · simp [hns]
      · intro hs; exact absurd hs hns
      · intro _; rfl

theorem subsumed_false_heap {e : SubsumptionTableEntry} {h : Heap} {s : TimingSolver}
    {st : ExecutionState} {tm : Nat} {h1 : Heap} {s1 : TimingSolver}
    (hr : e.subsumed h s st tm = .ok (false, h1, s1)) : h1 = h := by
  unfold SubsumptionTableEntry.subsumed at hr
  split at hr
  · simp at hr; exact hr.1.symm
  · split at hr
    · simp at hr
    · split at hr
      · split at hr
        · split at hr
          · split at hr <;> simp at hr
          all_goals simp at hr
          exact hr.1.symm
        all_goals simp at hr
      · simp at hr; exact hr.1.symm

theorem commitMarkers_nodes (m : MarkerMap) :
    ∀ h h1 : Heap, commitMarkers h m = .ok h1 → h1.nodes = h.nodes := by
  induction m with
  | nil => intro h h1 hr; simp [commitMarkers] at hr; rw [← hr]
  | cons kv rest ih =>
    intro h h1 hr
    obtain ⟨k, v⟩ := kv
    unfold commitMarkers at hr
    unfold PathConditionMarker.includeInInterpolant PathCondition.includeInInterpolant at hr
    split at hr
    · rename_i h2 heq
      have h3 := ih h2 h1 hr
      rw [h3]
      split at heq
      · split at heq
        · simp at heq
        · simp at heq; rw [← heq]; rfl
      · simp at heq; rw [heq]
    all_goals simp at hr

theorem subsumed_true_node {e : SubsumptionTableEntry} {h : Heap} {s : TimingSolver}
    {st : ExecutionState} {tm : Nat} {h1 : Heap} {s1 : TimingSolver}
    (hr : e.subsumed h s st tm = .ok (true, h1, s1)) :
    ∃ na n, st.itreeNode = some na ∧ h.nodeAt na = some n ∧ h1.nodeAt na = some n := by
  unfold SubsumptionTableEntry.subsumed at hr
  split at hr
  · simp at hr
  · rename_i na hna
    split at hr
    · simp at hr
    · rename_i n hn
      split at hr
      · split at hr
        · split at hr
          · split at hr
            · rename_i h2 hc
              simp at hr
              have := commitMarkers_nodes _ _ _ hc
              refine ⟨na, n, hna, hn, ?_⟩
              rw [← hr.1]
              unfold Heap.nodeAt at hn ⊢
              rw [this]; exact hn
            all_goals simp at hr
          all_goals simp at hr
        all_goals simp at hr
      · simp at hr

theorem checkLoop_append (t : ITree) (state : ExecutionState) (timeout : Nat) (h : Heap)
    (rest : List SubsumptionTableEntry) :
    ∀ (pre : List SubsumptionTableEntry) (s s0 : TimingSolver),
      failAll state timeout h pre s = some s0 →
      checkLoop t state timeout (pre ++ rest) h s = checkLoop t state timeout rest h s0 := by
  intro pre
  induction pre with
  | nil => intro s s0 hf; simp [failAll] at hf; subst hf; rfl
  | cons e pre ih =>
    intro s s0 hf
    unfold failAll at hf
    split at hf
    · rename_i h1 s1 heq
      have hh := subsumed_false_heap heq
      subst hh
      simp only [List.cons_append, checkLoop, heq]
      exact ih s1 s0 hf
    · simp at hf

theorem checkLoop_returns (t : ITree) (state : ExecutionState) (timeout : Nat) (h : Heap) :
    ∀ (es : List SubsumptionTableEntry) (s : TimingSolver) (b : Bool) (h1 : Heap)
      (s1 : TimingSolver),
      checkLoop t state timeout es h s = .ok (b, h1, s1) →
      (b = true → ∃ pre e post s0 h0 c n, es = pre ++ e :: post ∧
        failAll state timeout h pre s = some s0 ∧
        e.subsumed h s0 state timeout = .ok (true, h0, s1) ∧
        t.currentINode = some c ∧ h0.nodeAt c = some n ∧
        h1 = h0.setNode c { n with isSubsumed := true }) ∧
      (b = false → failAll state timeout h es s = some s1 ∧ h1 = h) := by
  intro es
  induction es with
  | nil =>
    intro s b h1 s1 hr
    simp [checkLoop] at hr
    obtain ⟨rfl, rfl, rfl⟩ := hr
    simp [failAll]
  | cons e es ih =>
    intro s b h1 s1 hr
    unfold checkLoop at hr
    split at hr
    · rename_i h2 s2 heq
      cases hc : t.currentINode with
      | none => simp [hc, deref, Res.bind] at hr
      | some c =>
        cases hn : h2.nodeAt c with
        | none => simp [hc, hn, deref, Res.bind] at hr
        | some n =>
          simp [hc, hn, deref, Res.bind] at hr
          obtain ⟨rfl, rfl, rfl⟩ := hr
          refine ⟨fun _ => ⟨[], e, es, s, h2, c, n, rfl, rfl, heq, rfl, hn, rfl⟩, ?_⟩
          intro hb; cases hb
    · rename_i h2 s2 heq
      have hh := subsumed_false_heap heq
      subst hh
      obtain ⟨i1, i2⟩ := ih s2 b h1 s1 hr
      constructor
      · intro hb
        obtain ⟨pre, e1, post, s0, h0, c, n, x1, x2, x3, x4, x5, x6⟩ := i1 hb
        refine ⟨e :: pre, e1, post, s0, h0, c, n, by simp [x1], ?_, x3, x4, x5, x6⟩
        simp [failAll, heq, x2]
      · intro hb
        obtain ⟨y1, y2⟩ := i2 hb
        refine ⟨?_, y2⟩
        simp [failAll, heq, y1]
    all_goals simp at hr

@[simp] theorem bind_ok {α β : Type} (a : α) (f : α → Res β) : (Res.ok a).bind f = f a := rfl

@[simp] theorem deref_some {α : Type} (a : α) : deref (some a) = .ok a := rfl

theorem nodeAt_lt {h : Heap} {a : Nat} {n : ITreeNode} (hn : h.nodeAt a = some n) :
    a < h.nodes.length := by
  unfold Heap.nodeAt at hn
  by_contra hge
  have : h.nodes.length ≤ a := by omega
  simp [List.getElem?_eq_none this] at hn

theorem nodeAt_set (h : Heap) (a b : Nat) (v : Option ITreeNode) :
    Heap.nodeAt { h with nodes := h.nodes.set a v } b
      = if a = b ∧ a < h.nodes.length then v else h.nodeAt b := by
  unfold Heap.nodeAt
  simp only [List.getElem?_set]
  by_cases hab : a = b
  · subst hab
    by_cases hlt : a < h.nodes.length
    · simp [hlt]
    · have : h.nodes.length ≤ a := by omega
      simp [hlt, List.getElem?_eq_none this]
  · simp [hab]

theorem pcAt_set (h : Heap) (a b : Nat) (v : Option PathCondition) :
    Heap.pcAt { h with pcs := h.pcs.set a v } b
      = if a = b ∧ a < h.pcs.length then v else h.pcAt b := by
  unfold Heap.pcAt
  simp only [List.getElem?_set]
  by_cases hab : a = b
  · subst hab
    by_cases hlt : a < h.pcs.length
    · simp [hlt]
    · have : h.pcs.length ≤ a := by omega
      simp [hlt, List.getElem?_eq_none this]
  · simp [hab]

theorem wf_node {h : Heap} (hwf : wellFormed h = true) {a : Nat} {n : ITreeNode}
    (hn : h.nodeAt a = some n) : nodeOK h a n = true := by
  unfold wellFormed at hwf
  simp only [Bool.and_eq_true, List.all_eq_true, List.mem_range] at hwf
  have := hwf.1 a (nodeAt_lt hn)
  simpa [hn] using this

theorem wf_link {h : Heap} (hwf : wellFormed h = true) {a : Nat} {l : PathCondition}
    (hl : h.pcAt a = some l) {t : Nat} (ht : l.tail = some t) : t < a := by
  unfold wellFormed at hwf
  simp only [Bool.and_eq_true, List.all_eq_true, List.mem_range] at hwf
  have := hwf.2 a (pcAt_lt hl)
  simpa [hl, linkOK, ht] using this

/-- What `nodeOK` says about a node with a parent. -/
theorem wf_parent {h : Heap} (hwf : wellFormed h = true) {a p : Nat} {n : ITreeNode}
    (hn : h.nodeAt a = some n) (hp : n.parent = some p) :
    p < a ∧ ∃ pn, h.nodeAt p = some pn ∧ (pn.left = some a ∨ pn.right = some a) ∧
      (n.pathCondition = pn.pathCondition ∨
        ∃ l lk, n.pathCondition = some l ∧ h.pcAt l = some lk ∧
          lk.tail = pn.pathCondition) := by
  have hok := wf_node hwf hn
  unfold nodeOK at hok
  simp only [hp, Bool.and_eq_true, decide_eq_true_eq] at hok
  obtain ⟨⟨⟨hlt, hrest⟩, _⟩, _⟩ := hok
  refine ⟨hlt, ?_⟩
  cases hpn : h.nodeAt p with
  | none => simp [hpn] at hrest
  | some pn =>
    simp only [hpn, Bool.and_eq_true, Bool.or_eq_true, beq_iff_eq] at hrest
    refine ⟨pn, rfl, hrest.1, ?_⟩
    rcases hrest.2 with h1 | h1
    · left; exact h1
    · right
      cases hpc : n.pathCondition with
      | none => simp [hpc] at h1
      | some l =>
        simp only [hpc] at h1
        cases hlk : h.pcAt l with
        | none => simp [hlk] at h1
        | some lk =>
          simp only [hlk, beq_iff_eq] at h1
          exact ⟨l, lk, rfl, hlk, h1⟩

theorem wf_children {h : Heap} (hwf : wellFormed h = true) {a c : Nat} {n : ITreeNode}
    (hn : h.nodeAt a = some n) (hl : n.left = some c) : n.right ≠ some c := by
  have hok := wf_node hwf hn
  unfold nodeOK at hok
  simp only [Bool.and_eq_true, Bool.or_eq_true] at hok
  obtain ⟨⟨_, hd⟩, _⟩ := hok
  intro hr
  rcases hd with h1 | h1
  · simp [hl] at h1
  · simp [hl, hr] at h1

theorem wf_chain {h : Heap} (hwf : wellFormed h = true) {a : Nat} {n : ITreeNode}
    (hn : h.nodeAt a = some n) :
    ∃ ls, chainLinks h (h.pcs.length + 1) n.pathCondition = some ls := by
  have hok := wf_node hwf hn
  unfold nodeOK at hok
  simp only [Bool.and_eq_true] at hok
  exact Option.isSome_iff_exists.mp hok.2

/-- The flagged constraints of a chain, head first. -/
theorem packInterpolantLoop_chain (h : Heap) :
    ∀ (fuel : Nat) (p : Option Nat) (res : List Expr) (ls : List (Nat × PathCondition)),
      chainLinks h fuel p = some ls →
      packInterpolantLoop h fuel p res
        = .ok (res ++ (ls.filter fun x => x.2.inInterpolant).map fun x => x.2.constraint) := by
  intro fuel
  induction fuel with
  | zero =>
    intro p res ls hl
    cases p with
    | none => simp [chainLinks] at hl; subst hl; simp [packInterpolantLoop]
    | some a => simp [chainLinks] at hl
  | succ fuel ih =>
    intro p res ls hl
    cases p with
    | none => simp [chainLinks] at hl; subst hl; simp [packInterpolantLoop]
    | some a =>
      unfold chainLinks at hl
      cases hpc : h.pcAt a with
      | none => simp [hpc] at hl
      | some l =>
        simp only [hpc, Option.map_eq_some'] at hl
        obtain ⟨r, hr, rfl⟩ := hl
        simp only [packInterpolantLoop, hpc]
        rw [ih _ _ r hr]
        by_cases hf : l.inInterpolant = true
        · simp [hf, List.filter_cons]
        · simp [hf, List.filter_cons]

/-- A walk only reads links at or below its starting address. -/
theorem packInterpolantLoop_agree (h0 h : Heap) (hwf : wellFormed h0 = true) :
    ∀ (fuel x : Nat) (res : List Expr), (∀ l, l ≤ x → h.pcAt l = h0.pcAt l) →
      packInterpolantLoop h fuel (some x) res = packInterpolantLoop h0 fuel (some x) res := by
  intro fuel
  induction fuel with
  | zero => intro x res _; simp [packInterpolantLoop]
  | succ fuel ih =>
    intro x res hag
    simp only [packInterpolantLoop, hag x (Nat.le_refl x)]
    cases hpc : h0.pcAt x with
    | none => rfl
    | some lk =>
      simp only
      cases ht : lk.tail with
      | none => simp [packInterpolantLoop]
      | some t =>
        have hlt := wf_link hwf hpc ht
        exact ih t _ (fun l hl => hag l (by omega))

theorem loop_tabled {h0 h : Heap} (hwf : wellFormed h0 = true) {a : Nat} {n0 : ITreeNode}
    (inv : LoopInv h0 h a n0) :
    (if !n0.isSubsumed then
        ITreeNode.introducesMarkedConstraint h { n0 with left := none, right := none }
      else Res.ok false) = .ok (qualifies h0 a) := by
  unfold qualifies
  rw [inv.here0]
  cases hsub : n0.isSubsumed with
  | true => simp [hsub]
  | false =>
    simp only [hsub, Bool.not_false, if_true, Bool.true_and]
    unfold ITreeNode.introducesMarkedConstraint
    cases hp : n0.parent with
    | none => simp [hp]
    | some p =>
      obtain ⟨hlt, pn, hpn, _, hpc⟩ := wf_parent hwf inv.here0 hp
      simp only [hp, inv.below p hlt, hpn, deref_some, bind_ok]
      by_cases heq : n0.pathCondition = pn.pathCondition
      · simp [heq]
      · rcases hpc with h1 | ⟨l, lk, h1, h2, _⟩
        · exact absurd h1 heq
        · have hl : h.pcAt l = some lk := by rw [inv.links l l h1 (Nat.le_refl l)]; exact h2
          rw [if_pos heq]
          simp only [h1, PathCondition.carInInterpolant, hl, h2]
          have : (some l != pn.pathCondition) = true := by
            rw [← h1]; simpa using heq
          simp [this, hp, hpn]

theorem loop_entry {h0 h : Heap} (hwf : wellFormed h0 = true) {a : Nat} {n0 : ITreeNode}
    (inv : LoopInv h0 h a n0) (hq : qualifies h0 a = true) :
    ∃ e, entryOf h0 a = some e ∧
      SubsumptionTableEntry.create h { n0 with left := none, right := none } = .ok e := by
  have hsome : ∃ l, n0.pathCondition = some l := by
    unfold qualifies at hq
    rw [inv.here0] at hq
    cases hpc : n0.pathCondition with
    | some l => exact ⟨l, rfl⟩
    | none =>
      exfalso
      cases hp : n0.parent with
      | none => simp [hp] at hq
      | some p =>
        cases hpn : h0.nodeAt p with
        | none => simp [hp, hpn] at hq
        | some pn => simp [hp, hpn, hpc] at hq
  obtain ⟨l, hl⟩ := hsome
  obtain ⟨ls, hls⟩ := wf_chain hwf inv.here0
  rw [hl] at hls
  have hpack := packInterpolantLoop_chain h0 _ _ [] ls hls
  have hag := packInterpolantLoop_agree h0 h hwf (h0.pcs.length + 1) l []
    (fun l1 hl1 => inv.links l l1 hl hl1)
  refine ⟨{ nodeId := n0.nodeId,
            interpolant := [] ++ (ls.filter fun x => x.2.inInterpolant).map
              fun x => x.2.constraint }, ?_, ?_⟩
  rotate_left
  · simp only [SubsumptionTableEntry.create, ITreeNode.getInterpolant, hl,
      PathCondition.packInterpolant, inv.pcsLen, hag, hpack, bind_ok, ITreeNode.getNodeId]
  · simp only [entryOf, inv.here0, hl, PathCondition.packInterpolant, hpack]

theorem loop_delete {h0 h : Heap} (hwf : wellFormed h0 = true) {a : Nat} {n0 : ITreeNode}
    (inv : LoopInv h0 h a n0) :
    ∃ h1, ITreeNode.delete h a = .ok h1 ∧ h1.nodes = h.nodes.set a none ∧
      h1.pcs.length = h.pcs.length ∧
      ∀ p pn, n0.parent = some p → h0.nodeAt p = some pn →
        ∀ y l, pn.pathCondition = some y → l ≤ y → h1.pcAt l = h0.pcAt l := by
  unfold ITreeNode.delete
  simp only [inv.here, deref_some, bind_ok]
  cases hp : n0.parent with
  | none =>
    refine ⟨{ h with nodes := h.nodes.set a none }, by simp [hp], rfl, rfl, ?_⟩
    intro p pn hpp; cases hpp
  | some p =>
    obtain ⟨hlt, pn, hpn, _, hpc⟩ := wf_parent hwf inv.here0 hp
    simp only [hp, inv.below p hlt, hpn, deref_some, bind_ok]
    by_cases heq : n0.pathCondition = pn.pathCondition
    · refine ⟨{ h with nodes := h.nodes.set a none }, by simp [heq], rfl, rfl, ?_⟩
      intro p1 pn1 hp1 hpn1 y l hy hl
      cases hp1
      rw [hpn] at hpn1; cases hpn1
      exact inv.links y l (heq.trans hy) hl
    · rcases hpc with h1 | ⟨x, lk, h1, h2, h3⟩
      · exact absurd h1 heq
      · have hx : h.pcAt x = some lk := by rw [inv.links x x h1 (Nat.le_refl x)]; exact h2
        refine ⟨{ h with pcs := h.pcs.set x none, nodes := h.nodes.set a none }, ?_, rfl,
          by simp, ?_⟩
        · rw [if_pos heq]
          simp only [h1, Heap.deletePc, hx, bind_ok]
        · intro p1 pn1 hp1 hpn1 y l hy hl
          cases hp1
          rw [hpn] at hpn1; cases hpn1
          have hyx : y < x := wf_link hwf h2 (h3.trans hy)
          have : Heap.pcAt { h with pcs := h.pcs.set x none, nodes := h.nodes.set a none } l
              = h.pcAt l := by
            have := pcAt_set h x l none
            unfold Heap.pcAt at this ⊢
            simp only at this ⊢
            rw [this, if_neg]
            omega
          rw [this]
          exact inv.links x l h1 (by omega)

theorem cascade_root {h : Heap} {fuel a : Nat} {n : ITreeNode}
    (hn : h.nodeAt a = some n) (hp : n.parent = none) :
    cascade h (fuel + 1) a = ([a], none) := by
  simp [cascade, hn, hp]

theorem cascade_step {h : Heap} {fuel a p : Nat} {n pn : ITreeNode}
    (hn : h.nodeAt a = some n) (hp : n.parent = some p) (hpn : h.nodeAt p = some pn) :
    cascade h (fuel + 1) a
      = if (clearSlot pn a).left = none ∧ (clearSlot pn a).right = none then
          ((a :: (cascade h fuel p).1), (cascade h fuel p).2)
        else ([a], some (p, a)) := by
  simp [cascade, hn, hp, hpn]

theorem cascade_bound {h : Heap} (hwf : wellFormed h = true) :
    ∀ (fuel a : Nat),
      (∀ x ∈ (cascade h fuel a).1, x ≤ a) ∧
      (∀ q c, (cascade h fuel a).2 = some (q, c) → q < a) := by
  intro fuel
  induction fuel with
  | zero => intro a; simp [cascade]
  | succ fuel ih =>
    intro a
    cases hn : h.nodeAt a with
    | none => simp [cascade, hn]
    | some n =>
      cases hp : n.parent with
      | none => rw [cascade_root hn hp]; simp
      | some p =>
        obtain ⟨hlt, pn, hpn, _, _⟩ := wf_parent hwf hn hp
        rw [cascade_step hn hp hpn]
        split
        · obtain ⟨i1, i2⟩ := ih p
          constructor
          · intro x hx
            simp only [List.mem_cons] at hx
            rcases hx with hx | hx
            · omega
            · have := i1 x hx; omega
          · intro q c hqc
            have := i2 q c hqc; omega
        · constructor
          · intro x hx; simp at hx; omega
          · intro q c hqc
            simp at hqc; omega

theorem cascade_head {h : Heap} {fuel a : Nat} {n : ITreeNode}
    (hn : h.nodeAt a = some n) : a ∈ (cascade h (fuel + 1) a).1 := by
  cases hp : n.parent with
  | none => rw [cascade_root hn hp]; simp
  | some p =>
    cases hpn : h.nodeAt p with
    | none => simp [cascade, hn, hp, hpn]
    | some pn =>
      rw [cascade_step hn hp hpn]
      split <;> simp

theorem clearSlot_childless {pn : ITreeNode} {a : Nat}
    (hc : (clearSlot pn a).left = none ∧ (clearSlot pn a).right = none) :
    clearSlot pn a = { pn with left := none, right := none } := by
  unfold clearSlot at hc ⊢
  split
  · rename_i hl
    simp only [hl, if_true] at hc
    cases pn; simp_all
  · rename_i hl
    simp only [hl, if_false] at hc
    cases pn; simp_all

theorem removeLoop_spec (h0 : Heap) (hwf : wellFormed h0 = true) :
    ∀ (fuel a : Nat) (t : ITree) (h : Heap) (n0 : ITreeNode), a < fuel →
      LoopInv h0 h a n0 →
      ∃ t1 h1 es, removeLoop fuel t h a = .ok (t1, h1) ∧
        t1.subsumptionTable = t.subsumptionTable ++ es ∧
        t1.currentINode = t.currentINode ∧ t1.root = t.root ∧
        es.map some = ((cascade h0 fuel a).1.filter (qualifies h0)).map (entryOf h0) ∧
        (∀ x ∈ (cascade h0 fuel a).1, h1.nodeAt x = none) ∧
        (∀ x, x ∉ (cascade h0 fuel a).1 → (∀ c, (cascade h0 fuel a).2 ≠ some (x, c)) →
          h1.nodeAt x = h.nodeAt x) ∧
        (∀ q c, (cascade h0 fuel a).2 = some (q, c) → ∃ qn, h0.nodeAt q = some qn ∧
          h1.nodeAt q = some (clearSlot qn c) ∧
          ((clearSlot qn c).left ≠ none ∨ (clearSlot qn c).right ≠ none)) := by
  intro fuel
  induction fuel with
  | zero => intro a t h n0 hlt; omega
  | succ fuel ih =>
    intro a t h n0 hlt inv
    have halt : a < h.nodes.length := nodeAt_lt inv.here
    obtain ⟨h1, hdel, hn1, hl1, hlinks⟩ := loop_delete hwf inv
    have hnode1 : ∀ x, h1.nodeAt x = if a = x then none else h.nodeAt x := by
      intro x
      have := nodeAt_set h a x none
      unfold Heap.nodeAt at this ⊢
      rw [hn1]
      simp only at this
      rw [this]
      by_cases hax : a = x
      · subst hax; simp [halt]
      · simp [hax]
    -- the tabling step
    obtain ⟨t1, es1, ht1, htab1, hcur1, hroot1, hes1⟩ :
        ∃ t1 es1,
          (if qualifies h0 a then
              (SubsumptionTableEntry.create h { n0 with left := none, right := none }).bind
                fun entry => Res.ok (t.store entry)
            else Res.ok t) = .ok t1 ∧
          t1.subsumptionTable = t.subsumptionTable ++ es1 ∧
          t1.currentINode = t.currentINode ∧ t1.root = t.root ∧
          es1.map some = ([a].filter (qualifies h0)).map (entryOf h0) := by
      by_cases hq : qualifies h0 a = true
      · obtain ⟨e, he, hcr⟩ := loop_entry hwf inv hq
        refine ⟨t.store e, [e], ?_, rfl, rfl, rfl, ?_⟩
        · simp [hq, hcr]
        · simp [List.filter_cons, hq, he]
      · refine ⟨t, [], ?_, by simp, rfl, rfl, ?_⟩
        · simp [hq]
        · simp [List.filter_cons, hq]
    have hbody : removeLoop (fuel + 1) t h a =
        match n0.parent with
        | none => .ok (t1, h1)
        | some p =>
          (deref (h1.nodeAt p)).bind fun pn =>
            (if pn.left = some a then Res.ok { pn with left := none }
              else if pn.right = some a then Res.ok { pn with right := none }
              else Res.abort).bind
            fun pn1 =>
              if pn1.left = none ∧ pn1.right = none then
                removeLoop fuel t1 (h1.setNode p pn1) p
              else .ok (t1, h1.setNode p pn1) := by
      rw [removeLoop]
      simp only [inv.here, deref_some, bind_ok, loop_tabled hwf inv, ht1, hdel]
    rw [hbody]
    cases hp : n0.parent with
    | none =>
      rw [cascade_root inv.here0 hp]
      refine ⟨t1, h1, es1, rfl, htab1, hcur1, hroot1, hes1, ?_, ?_, ?_⟩
      · intro x hx
        simp only [List.mem_singleton] at hx
        rw [hnode1, if_pos hx.symm]
      · intro x hx _
        simp only [List.mem_singleton] at hx
        rw [hnode1, if_neg (fun e => hx e.symm)]
      · intro q c hqc; simp at hqc
    | some p =>
      obtain ⟨hpa, pn, hpn, hslot, _⟩ := wf_parent hwf inv.here0 hp
      have hpn1 : h1.nodeAt p = some pn := by
        rw [hnode1, if_neg (by omega), inv.below p hpa, hpn]
      have hclear : (if pn.left = some a then Res.ok { pn with left := none }
              else if pn.right = some a then Res.ok { pn with right := none }
              else Res.abort) = Res.ok (clearSlot pn a) := by
        unfold clearSlot
        by_cases hl : pn.left = some a
        · simp [hl]
        · rcases hslot with h2 | h2
          · exact absurd h2 hl
          · simp [hl, h2]
      simp only [hpn1, deref_some, bind_ok, hclear]
      rw [cascade_step inv.here0 hp hpn]
      have hplt : p < h1.nodes.length := nodeAt_lt hpn1
      have hnode2 : ∀ x, (h1.setNode p (clearSlot pn a)).nodeAt x
          = if p = x then some (clearSlot pn a) else h1.nodeAt x := by
        intro x
        have := nodeAt_set h1 p x (some (clearSlot pn a))
        unfold Heap.setNode
        rw [this]
        by_cases hpx : p = x
        · subst hpx; simp [hplt]
        · simp [hpx]
      by_cases hch : (clearSlot pn a).left = none ∧ (clearSlot pn a).right = none
      · rw [if_pos hch, if_pos hch]
        have inv1 : LoopInv h0 (h1.setNode p (clearSlot pn a)) p pn := by
          refine ⟨?_, ?_, ?_, hpn, ?_, ?_⟩
          · simp [Heap.setNode, hn1, inv.nodesLen]
          · simp only [Heap.setNode]; rw [hl1, inv.pcsLen]
          · intro x hx
            rw [hnode2, if_neg (by omega), hnode1, if_neg (by omega)]
            exact inv.below x (by omega)
          · rw [hnode2, if_pos rfl, clearSlot_childless hch]
          · intro y l hy hl
            have : (h1.setNode p (clearSlot pn a)).pcAt l = h1.pcAt l := rfl
            rw [this]
            exact hlinks p pn hp hpn y l hy hl
        obtain ⟨t2, h2, es2, hr, htab2, hcur2, hroot2, hes2, hdead, hframe, hstop⟩ :=
          ih p t1 (h1.setNode p (clearSlot pn a)) pn (by omega) inv1
        obtain ⟨hb1, hb2⟩ := cascade_bound hwf fuel p
        have hpin : p ∈ (cascade h0 fuel p).1 := by
          cases fuel with
          | zero => omega
          | succ f => exact cascade_head hpn
        refine ⟨t2, h2, es1 ++ es2, hr, ?_, hcur2.trans hcur1, hroot2.trans hroot1, ?_, ?_, ?_,
          hstop⟩
        · rw [htab2, htab1, List.append_assoc]
        · simp only [List.map_append, hes1, hes2, List.filter_cons, List.filter_nil]
          by_cases hq : qualifies h0 a = true
          · simp [hq]
          · simp [hq]
        · intro x hx
          simp only [List.mem_cons] at hx
          rcases hx with hx | hx
          · subst hx
            have hnot : x ∉ (cascade h0 fuel p).1 := fun hin => by
              have := hb1 x hin; omega
            have hns : ∀ c, (cascade h0 fuel p).2 ≠ some (x, c) := fun c hc => by
              have := hb2 x c hc; omega
            rw [hframe x hnot hns, hnode2, if_neg (by omega), hnode1, if_pos rfl]
          · exact hdead x hx
        · intro x hx hns
          simp only [List.mem_cons, not_or] at hx
          rw [hframe x hx.2 hns, hnode2, if_neg (fun e : p = x => hx.2 (e ▸ hpin)), hnode1,
            if_neg (fun e => hx.1 e.symm)]
      · rw [if_neg hch, if_neg hch]
        refine ⟨t1, h1.setNode p (clearSlot pn a), es1, rfl, htab1, hcur1, hroot1, hes1,
          ?_, ?_, ?_⟩
        · intro x hx
          simp only [List.mem_singleton] at hx
          subst hx
          rw [hnode2, if_neg (by omega), hnode1, if_pos rfl]
        · intro x hx hns
          simp only [List.mem_singleton] at hx
          have hxp : p ≠ x := fun e => hns a (by rw [e])
          rw [hnode2, if_neg hxp, hnode1, if_neg (fun e => hx e.symm)]
        · intro q c hqc
          simp only [Option.some.injEq, Prod.mk.injEq] at hqc
          obtain ⟨rfl, rfl⟩ := hqc
          refine ⟨pn, hpn, ?_, ?_⟩
          · rw [hnode2, if_pos rfl]
          · by_contra hno
            apply hch
            simp only [not_or, not_not] at hno
            exact hno

theorem remove_spec (t : ITree) (h : Heap) (a : Nat) (n : ITreeNode)
    (hwf : wellFormed h = true) (hn : h.nodeAt a = some n)
    (hleaf : n.left = none ∧ n.right = none) :
    ∃ t1 h1 es, t.remove h (some a) = .ok (t1, h1) ∧
      t1.subsumptionTable = t.subsumptionTable ++ es ∧
      t1.currentINode = t.currentINode ∧ t1.root = t.root ∧
      es.map some
        = ((cascade h (h.nodes.length + 1) a).1.filter (qualifies h)).map (entryOf h) ∧
      (∀ x ∈ (cascade h (h.nodes.length + 1) a).1, h1.nodeAt x = none) ∧
      (∀ x, x ∉ (cascade h (h.nodes.length + 1) a).1 →
        (∀ c, (cascade h (h.nodes.length + 1) a).2 ≠ some (x, c)) →
        h1.nodeAt x = h.nodeAt x) ∧
      (∀ q c, (cascade h (h.nodes.length + 1) a).2 = some (q, c) → ∃ qn,
        h.nodeAt q = some qn ∧ h1.nodeAt q = some (clearSlot qn c) ∧
        ((clearSlot qn c).left ≠ none ∨ (clearSlot qn c).right ≠ none)) := by
  have hself : ({ n with left := none, right := none } : ITreeNode) = n := by
    cases n; simp_all
  have inv : LoopInv h h a n :=
    ⟨rfl, rfl, fun _ _ => rfl, hn, by rw [hself]; exact hn, fun _ _ _ _ => rfl⟩
  have hlt : a < h.nodes.length + 1 := by
    have := nodeAt_lt hn; omega
  have hrun : t.remove h (some a) = removeLoop (h.nodes.length + 1) t h a := by
    simp [ITree.remove, hn, hleaf]
  rw [hrun]
  exact removeLoop_spec h hwf _ a t h n hlt inv

theorem qualifies_iff (h : Heap) (x : Nat) :
    qualifies h x = true ↔ ∃ n, h.nodeAt x = some n ∧ n.isSubsumed = false ∧
      n.introducesMarkedConstraint h = .ok true := by
  unfold qualifies
  cases hn : h.nodeAt x with
  | none => simp
  | some n =>
    simp only [Option.some.injEq, exists_eq_left', Bool.and_eq_true, Bool.not_eq_true']
    apply and_congr_right
    intro _
    unfold ITreeNode.introducesMarkedConstraint
    cases hp : n.parent with
    | none => simp [hp]
    | some p =>
      cases hpn : h.nodeAt p with
      | none => simp [hp, hpn, deref, Res.bind]
      | some pn =>
        simp only [hp, hpn, deref_some, bind_ok]
        by_cases heq : n.pathCondition = pn.pathCondition
        · simp [heq]
        · have hne : (n.pathCondition != pn.pathCondition) = true := by simpa using heq
          rw [if_pos heq, hne]
          simp only [Bool.true_and]
          cases hpc : n.pathCondition with
          | none => simp [PathCondition.carInInterpolant]
          | some l =>
            cases hl : h.pcAt l with
            | none => simp [PathCondition.carInInterpolant, hl]
            | some lk => simp [PathCondition.carInInterpolant, hl]

theorem entryOf_iff (h : Heap) (x : Nat) (e : SubsumptionTableEntry) :
    entryOf h x = some e ↔ ∃ n, h.nodeAt x = some n ∧
      SubsumptionTableEntry.create h n = .ok e := by
  unfold entryOf
  cases hn : h.nodeAt x with
  | none => simp
  | some n =>
    simp only [Option.some.injEq, exists_eq_left']
    unfold SubsumptionTableEntry.create ITreeNode.getInterpolant ITreeNode.getNodeId
    cases hp : PathCondition.packInterpolant h n.pathCondition with
    | ok i => simp
    | abort => simp [Res.bind]
    | fault => simp [Res.bind]
    | diverge => simp [Res.bind]

theorem qualifies_root (h : Heap) (x : Nat) (n : ITreeNode) (hn : h.nodeAt x = some n)
    (hp : n.parent = none) : qualifies h x = false := by
  simp [qualifies, hn, hp]

theorem compare_eq_zero (a b : Expr) : a.compare b = 0 ↔ a = b := by
  unfold Expr.compare
  cases a with
  | mk x =>
    cases b with
    | mk y =>
      simp only [Expr.mk.injEq]
      by_cases h1 : x < y
      · simp [h1]; omega
      · by_cases h2 : x = y
        · simp [h2]
        · simp [h1, h2]

theorem create_child (h : Heap) (parent : Option Nat) (pc : Option Nat) (sd : Nat)
    (st : ExecutionState)
    (hpar : (match parent with
      | none => Res.ok none
      | some pa => (deref (h.nodeAt pa)).bind (fun pn => .ok pn.pathCondition)) = .ok pc)
    (hst : h.stateAt sd = some st)
    (hhd : ∀ hd, pc = some hd → ∃ l, h.pcAt hd = some l) :
    ITreeNode.create h parent sd = .ok (h.nodes.length,
      match newLink h pc st.constraints with
      | none => { h with nodes := h.nodes ++ [some (freshNode parent sd pc)] }
      | some lk =>
        { h with pcs := h.pcs ++ [some lk],
                 nodes := h.nodes ++ [some (freshNode parent sd (some h.pcs.length))] }) := by
  unfold ITreeNode.create
  simp only [hst, hpar, bind_ok]
  unfold newLink
  cases hc : st.constraints.getLast? with
  | none => simp [Heap.allocNode, freshNode]
  | some c =>
    cases hpc : pc with
    | none => simp [Heap.allocNode, Heap.allocPc, freshNode]
    | some hd =>
      obtain ⟨l, hl⟩ := hhd hd hpc
      simp only [hl, deref_some, bind_ok]
      by_cases heq : l.constraint = c
      · subst heq
        have : l.constraint.compare l.constraint = 0 := (compare_eq_zero _ _).mpr rfl
        simp [this, Heap.allocNode, freshNode]
      · have : l.constraint.compare c ≠ 0 := fun e => heq ((compare_eq_zero _ _).mp e)
        simp [heq, this, Heap.allocNode, Heap.allocPc, freshNode]

theorem pcAt_append_old (h : Heap) (extra : List (Option PathCondition)) (a : Nat)
    (ha : a < h.pcs.length) :
    (h.pcs ++ extra)[a]?.join = h.pcAt a := by
  unfold Heap.pcAt
  rw [List.getElem?_append_left ha]

theorem newLink_congr (h h1 : Heap) (pc : Option Nat) (cs : List Expr)
    (hag : ∀ hd, pc = some hd → h1.pcAt hd = h.pcAt hd) :
    newLink h1 pc cs = newLink h pc cs := by
  unfold newLink
  cases cs.getLast? with
  | none => rfl
  | some c =>
    cases hpc : pc with
    | none => rfl
    | some hd => simp only [hag hd hpc]

/-- The constructor run for a child of the live node `p`. -/
theorem create_under (h : Heap) (p l : Nat) (pn : ITreeNode) (sl : ExecutionState)
    (hpn : h.nodeAt p = some pn) (hsl : h.stateAt l = some sl)
    (hhd : ∀ hd, pn.pathCondition = some hd → ∃ lk, h.pcAt hd = some lk) :
    ∃ hA, ITreeNode.create h (some p) l = .ok (h.nodes.length, hA) ∧
      hA.states = h.states ∧
      hA.nodes = h.nodes ++ [some (freshNode (some p) l
        (match newLink h pn.pathCondition sl.constraints with
          | none => pn.pathCondition
          | some _ => some h.pcs.length))] ∧
      hA.pcs = h.pcs ++ ((newLink h pn.pathCondition sl.constraints).toList.map some) := by
  have hpar : (match (some p : Option Nat) with
      | none => Res.ok none
      | some pa => (deref (h.nodeAt pa)).bind (fun pn => .ok pn.pathCondition))
      = .ok pn.pathCondition := by
    simp [hpn]
  rw [create_child h (some p) pn.pathCondition l sl hpar hsl hhd]
  cases newLink h pn.pathCondition sl.constraints with
  | none => exact ⟨_, rfl, rfl, rfl, by simp⟩
  | some lk => exact ⟨_, rfl, rfl, rfl, by simp⟩

theorem stateAt_setState (h : Heap) (a b : Nat) (s : ExecutionState) :
    (h.setState a s).stateAt b = if a = b ∧ a < h.states.length then some s else h.stateAt b := by
  unfold Heap.setState Heap.stateAt
  simp only [List.getElem?_set]
  by_cases hab : a = b
  · subst hab
    by_cases hlt : a < h.states.length
    · simp [hlt]
    · have : h.states.length ≤ a := by omega
      simp [hlt, List.getElem?_eq_none this]
  · simp [hab]

theorem stateAt_lt {h : Heap} {a : Nat} {s : ExecutionState} (hs : h.stateAt a = some s) :
    a < h.states.length := by
  unfold Heap.stateAt at hs
  by_contra hge
  have : h.states.length ≤ a := by omega
  simp [List.getElem?_eq_none this] at hs

theorem split_spec (h : Heap) (p l r : Nat) (pn : ITreeNode) (sl sr : ExecutionState)
    (hpn : h.nodeAt p = some pn) (hleaf : pn.left = none ∧ pn.right = none)
    (hsl : h.stateAt l = some sl) (hsr : h.stateAt r = some sr)
    (hhd : ∀ hd, pn.pathCondition = some hd → ∃ lk, h.pcAt hd = some lk) :
    ∃ h2, ITreeNode.split h p l r = .ok h2 ∧
      h2.nodeAt p = some { pn with left := some h.nodes.length,
                                   right := some (h.nodes.length + 1) } ∧
      h2.nodeAt h.nodes.length = some (freshNode (some p) l
        (match newLink h pn.pathCondition sl.constraints with
          | none => pn.pathCondition
          | some _ => some h.pcs.length)) ∧
      h2.nodeAt (h.nodes.length + 1) = some (freshNode (some p) r
        (match newLink h pn.pathCondition sr.constraints with
          | none => pn.pathCondition
          | some _ =>
            some (h.pcs.length + (newLink h pn.pathCondition sl.constraints).toList.length))) ∧
      h2.pcs = h.pcs ++ ((newLink h pn.pathCondition sl.constraints).toList ++
        (newLink h pn.pathCondition sr.constraints).toList).map some ∧
      (∀ x, x < h.nodes.length → x ≠ p → h2.nodeAt x = h.nodeAt x) ∧
      h2.nodes.length = h.nodes.length + 2 ∧
      h2.stateAt r = some { sr with itreeNode := some (h.nodes.length + 1) } ∧
      (l ≠ r → h2.stateAt l = some { sl with itreeNode := some h.nodes.length }) ∧
      (∀ x, x ≠ l → x ≠ r → h2.stateAt x = h.stateAt x) := by
  have hp : p < h.nodes.length := nodeAt_lt hpn
  have hl : l < h.states.length := stateAt_lt hsl
  have hr : r < h.states.length := stateAt_lt hsr
  obtain ⟨hA, hcA, hAs, hAn, hAp⟩ := create_under h p l pn sl hpn hsl hhd
  -- the store after the left half
  let h1 : Heap := (hA.setNode p { pn with left := some h.nodes.length }).setState l
    { sl with itreeNode := some h.nodes.length }
  have h1n : h1.nodes = (hA.nodes).set p (some { pn with left := some h.nodes.length }) := rfl
  have h1p : h1.pcs = hA.pcs := rfl
  have h1s : h1.states = h.states.set l { sl with itreeNode := some h.nodes.length } := by
    show (hA.states).set l _ = _
    rw [hAs]
  have h1len : h1.nodes.length = h.nodes.length + 1 := by
    rw [h1n, List.length_set, hAn]; simp
  have h1pn : h1.nodeAt p = some { pn with left := some h.nodes.length } := by
    unfold Heap.nodeAt
    rw [h1n, List.getElem?_set]
    have : p < hA.nodes.length := by rw [hAn]; simp; omega
    simp [this]
  obtain ⟨sr1, h1sr, hsr1⟩ : ∃ sr1, h1.stateAt r = some sr1 ∧
      sr1.constraints = sr.constraints ∧
      ({ sr1 with itreeNode := some (h.nodes.length + 1) } : ExecutionState)
        = { sr with itreeNode := some (h.nodes.length + 1) } := by
    unfold Heap.stateAt
    rw [h1s, List.getElem?_set]
    by_cases hlr : l = r
    · subst hlr
      rw [hsl] at hsr; cases hsr
      exact ⟨{ sl with itreeNode := some h.nodes.length }, by simp [hl], rfl, rfl⟩
    · refine ⟨sr, ?_, rfl, rfl⟩
      simp only [hlr, if_false]
      exact hsr
  have h1pc : ∀ hd, hd < h.pcs.length → h1.pcAt hd = h.pcAt hd := by
    intro hd hlt
    unfold Heap.pcAt
    rw [h1p, hAp, List.getElem?_append_left hlt]
  have hhd1 : ∀ hd, ({ pn with left := some h.nodes.length } : ITreeNode).pathCondition
      = some hd → ∃ lk, h1.pcAt hd = some lk := by
    intro hd hpc
    obtain ⟨lk, hlk⟩ := hhd hd hpc
    exact ⟨lk, (h1pc hd (pcAt_lt hlk)).trans hlk⟩
  obtain ⟨hB, hcB, hBs, hBn, hBp⟩ := create_under h1 p r _ sr1 h1pn h1sr hhd1
  have hnl : newLink h1 pn.pathCondition sr1.constraints
      = newLink h pn.pathCondition sr.constraints := by
    rw [hsr1.1]
    apply newLink_congr
    intro hd hpc
    obtain ⟨lk, hlk⟩ := hhd hd hpc
    exact h1pc hd (pcAt_lt hlk)
  simp only [hnl] at hBn hBp
  have hBpn : hB.nodeAt p = some { pn with left := some h.nodes.length } := by
    unfold Heap.nodeAt at h1pn ⊢
    rw [hBn, List.getElem?_append_left (by rw [h1len]; omega)]
    exact h1pn
  have hBsr : hB.stateAt r = some sr1 := by
    unfold Heap.stateAt at h1sr ⊢
    rw [hBs]; exact h1sr
  have hex : ∃ h2 : Heap, h2 = (hB.setNode p
      { pn with left := some h.nodes.length, right := some (h.nodes.length + 1) }).setState r
      { sr with itreeNode := some (h.nodes.length + 1) } := ⟨_, rfl⟩
  obtain ⟨h2, hh2⟩ := hex
  refine ⟨h2, ?_, ?_, ?_, ?_, ?_, ?_, ?_, ?_, ?_, ?_⟩ <;> subst hh2
  · have hAsl : hA.stateAt l = some sl := by
      unfold Heap.stateAt at hsl ⊢
      rw [hAs]; exact hsl
    unfold ITreeNode.split
    rw [hpn]
    simp only [deref_some, bind_ok]
    rw [if_pos hleaf, hcA]
    simp only [bind_ok, hAsl, deref_some]
    show (ITreeNode.create h1 (some p) r).bind _ = _
    rw [hcB]
    simp only [bind_ok, hBpn, hBsr, deref_some, h1len, hsr1.2]
  · show (hB.setNode p _).nodeAt p = _
    unfold Heap.setNode
    rw [nodeAt_set, if_pos ⟨rfl, by rw [hBn]; simp; omega⟩]
  · show (hB.setNode p _).nodeAt _ = _
    unfold Heap.setNode
    rw [nodeAt_set, if_neg (by omega)]
    unfold Heap.nodeAt
    rw [hBn, List.getElem?_append_left (by rw [h1len]; omega), h1n, List.getElem?_set,
      if_neg (by omega), hAn]
    simp
  · show (hB.setNode p _).nodeAt _ = _
    unfold Heap.setNode
    rw [nodeAt_set, if_neg (by omega)]
    unfold Heap.nodeAt
    rw [hBn, ← h1len, List.getElem?_concat_length]
    simp [Option.join, h1p, hAp]
  · show hB.pcs = _
    rw [hBp, h1p, hAp]; simp
  · intro x hx hxp
    show (hB.setNode p _).nodeAt x = _
    unfold Heap.setNode
    rw [nodeAt_set, if_neg (fun e => hxp e.1.symm)]
    unfold Heap.nodeAt
    rw [hBn, List.getElem?_append_left (by rw [h1len]; omega), h1n, List.getElem?_set,
      if_neg (fun e => hxp e.symm), hAn, List.getElem?_append_left hx]
  · show ((hB.nodes).set p _).length = _
    rw [List.length_set, hBn]; simp [h1len]
  · have hrB : r < hB.states.length := by rw [hBs, h1s, List.length_set]; exact hr
    rw [stateAt_setState, if_pos ⟨rfl, hrB⟩]
  · intro hlr
    rw [stateAt_setState, if_neg (fun e => hlr e.1.symm)]
    show hB.states[l]? = _
    rw [hBs, h1s, List.getElem?_set]
    simp [hl]
  · intro x hxl hxr
    rw [stateAt_setState, if_neg (fun e => hxr e.1.symm)]
    show hB.states[x]? = _
    rw [hBs, h1s, List.getElem?_set, if_neg (fun e => hxl e.symm)]
    rfl

theorem newLink_none_iff (h : Heap) (pc : Option Nat) (cs : List Expr)
    (hhd : ∀ hd, pc = some hd → ∃ lk, h.pcAt hd = some lk) :
    newLink h pc cs = none ↔ ¬ growsChain h pc cs := by
  unfold newLink growsChain
  cases hc : cs.getLast? with
  | none => simp
  | some c =>
    cases hpc : pc with
    | none => simp
    | some hd =>
      obtain ⟨lk, hlk⟩ := hhd hd hpc
      simp [hlk]

theorem newLink_some (h : Heap) (pc : Option Nat) (cs : List Expr) (lk : PathCondition)
    (hn : newLink h pc cs = some lk) :
    ∃ c, cs.getLast? = some c ∧ lk = { constraint := c, inInterpolant := false, tail := pc } := by
  unfold newLink at hn
  cases hc : cs.getLast? with
  | none => simp [hc] at hn
  | some c =>
    refine ⟨c, rfl, ?_⟩
    simp only [hc] at hn
    cases hpc : pc with
    | none => simp [hpc] at hn; exact hn.symm
    | some hd =>
      simp only [hpc] at hn
      cases hl : h.pcAt hd with
      | none => simp [hl] at hn
      | some l =>
        simp only [hl] at hn
        split at hn
        · simp at hn
        · simp at hn; exact hn.symm

theorem getElem_append_at {α : Type} (xs ys : List α) (k : Nat) :
    (xs ++ ys)[xs.length + k]? = ys[k]? := by
  rw [List.getElem?_append_right (by omega)]
  simp

theorem chainLinks_none (h : Heap) (fuel : Nat) : chainLinks h fuel none = some [] := by
  cases fuel <;> simp [chainLinks]

theorem chainLinks_mono (h h2 : Heap)
    (hag : ∀ a, a < h.pcs.length → h2.pcAt a = h.pcAt a) :
    ∀ (f : Nat) (p : Option Nat) (ls : List (Nat × PathCondition)),
      chainLinks h f p = some ls → ∀ f2, f ≤ f2 → chainLinks h2 f2 p = some ls := by
  intro f
  induction f with
  | zero =>
    intro p ls hl f2 _
    cases p with
    | none => rw [chainLinks_none] at hl ⊢; exact hl
    | some a => simp [chainLinks] at hl
  | succ f ih =>
    intro p ls hl f2 hf
    cases p with
    | none => rw [chainLinks_none] at hl ⊢; exact hl
    | some a =>
      cases f2 with
      | zero => omega
      | succ f2 =>
        unfold chainLinks at hl ⊢
        cases hpc : h.pcAt a with
        | none => simp [hpc] at hl
        | some l =>
          simp only [hpc, Option.map_eq_some'] at hl
          obtain ⟨rest, hr, rfl⟩ := hl
          rw [hag a (pcAt_lt hpc), hpc]
          simp only [ih l.tail rest hr f2 (by omega), Option.map_some']

theorem chainLinks_head {h : Heap} {f : Nat} {hd : Nat} {ls : List (Nat × PathCondition)}
    (hl : chainLinks h f (some hd) = some ls) : ∃ lk, h.pcAt hd = some lk := by
  cases f with
  | zero => simp [chainLinks] at hl
  | succ f =>
    unfold chainLinks at hl
    cases hpc : h.pcAt hd with
    | none => simp [hpc] at hl
    | some lk => exact ⟨lk, rfl⟩

/-- The chain head and the chain of a child after a split, from the closed
form of its node. -/
theorem child_head (h h2 : Heap) (pn : ITreeNode) (s : ExecutionState) (off : Nat)
    (ls : List (Nat × PathCondition)) (extra : List (Option PathCondition))
    (hchain : chainLinks h (h.pcs.length + 1) pn.pathCondition = some ls)
    (hpcs : h2.pcs = h.pcs ++ extra)
    (hnew : ∀ lk, newLink h pn.pathCondition s.constraints = some lk →
      h2.pcAt (h.pcs.length + off) = some lk)
    (cn : ITreeNode)
    (hcn : cn.pathCondition = match newLink h pn.pathCondition s.constraints with
      | none => pn.pathCondition
      | some _ => some (h.pcs.length + off)) :
    ChildHead h h2 pn s cn ∧
    ∃ lsC, chainLinks h2 (h2.pcs.length + 1) cn.pathCondition = some lsC ∧
      (lsC = ls ∨ ∃ x, lsC = x :: ls) := by
  have hhd : ∀ hd, pn.pathCondition = some hd → ∃ lk, h.pcAt hd = some lk := by
    intro hd hpc; rw [hpc] at hchain; exact chainLinks_head hchain
  have hold : ∀ a, a < h.pcs.length → h2.pcAt a = h.pcAt a := by
    intro a ha
    unfold Heap.pcAt
    rw [hpcs, List.getElem?_append_left ha]
  have hlen : h.pcs.length ≤ h2.pcs.length := by rw [hpcs]; simp
  cases hnl : newLink h pn.pathCondition s.constraints with
  | none =>
    rw [hnl] at hcn
    refine ⟨Or.inl ⟨(newLink_none_iff h _ _ hhd).mp hnl, hcn⟩, ls, ?_, Or.inl rfl⟩
    rw [hcn]
    exact chainLinks_mono h h2 hold _ _ _ hchain _ (by omega)
  | some lk =>
    rw [hnl] at hcn
    have hlk := hnew lk hnl
    obtain ⟨c, hc, hlkeq⟩ := newLink_some h _ _ lk hnl
    have hgrow : growsChain h pn.pathCondition s.constraints := by
      by_contra hno
      rw [(newLink_none_iff h _ _ hhd).mpr hno] at hnl
      cases hnl
    have hdead : h.pcAt (h.pcs.length + off) = none := by
      unfold Heap.pcAt
      rw [List.getElem?_eq_none (by omega)]; rfl
    refine ⟨Or.inr ⟨hgrow, h.pcs.length + off, c, hcn, hdead, by omega, hc, ?_⟩, ?_⟩
    · rw [hlk, hlkeq]
    · have hlt := pcAt_lt hlk
      have hrest := chainLinks_mono h h2 hold _ _ _ hchain h2.pcs.length (by omega)
      refine ⟨(h.pcs.length + off, lk) :: ls, ?_, Or.inr ⟨_, rfl⟩⟩
      rw [hcn]
      unfold chainLinks
      simp only [hlk]
      have : lk.tail = pn.pathCondition := by rw [hlkeq]
      rw [this, hrest]; rfl

/-- What a successful run of the constructor leaves: the new node is
`freshNode` with some chain head, and whenever the state had a last
constraint, that head is a live link carrying it. -/
theorem create_head (h : Heap) (parent : Option Nat) (sd p : Nat) (st : ExecutionState)
    (h1 : Heap) (hst : h.stateAt sd = some st)
    (hc : ITreeNode.create h parent sd = .ok (p, h1)) :
    ∃ pc, h1.nodeAt p = some (freshNode parent sd pc) ∧
      ∀ c, st.constraints.getLast? = some c →
        ∃ a lk, pc = some a ∧ h1.pcAt a = some lk ∧ lk.constraint = c := by
  unfold ITreeNode.create at hc
  simp only [hst] at hc
  cases hinh : (match parent with
      | none => Res.ok none
      | some pa => (deref (h.nodeAt pa)).bind (fun pn => .ok pn.pathCondition)) with
  | abort => rw [hinh] at hc; simp [Res.bind] at hc
  | fault => rw [hinh] at hc; simp [Res.bind] at hc
  | diverge => rw [hinh] at hc; simp [Res.bind] at hc
  | ok inherited =>
    rw [hinh] at hc
    simp only [bind_ok] at hc
    have hnode : ∀ (hh : Heap) (n : ITreeNode),
        Heap.nodeAt (hh.allocNode n).2 (hh.allocNode n).1 = some n := by
      intro hh n
      simp [Heap.allocNode, Heap.nodeAt, Option.join]
    have hlink : ∀ (l : PathCondition),
        Heap.pcAt ((h.allocPc l).2.allocNode
          (freshNode parent sd (some (h.allocPc l).1))).2 (h.allocPc l).1 = some l := by
      intro l
      simp [Heap.allocNode, Heap.allocPc, Heap.pcAt, Option.join]
    have key : ∀ (x : Nat × Heap), x = (p, h1) → p = x.1 ∧ h1 = x.2 := by
      intro x hx; rw [hx]; exact ⟨rfl, rfl⟩
    cases hlast : st.constraints.getLast? with
    | none =>
      simp only [hlast, bind_ok, Res.ok.injEq] at hc
      refine ⟨inherited, ?_, fun c hcc => by cases hcc⟩
      obtain ⟨e1, e2⟩ := key _ hc
      rw [e2, e1]
      exact hnode h _
    | some c =>
      simp only [hlast] at hc
      cases hi : inherited with
      | none =>
        simp only [hi, bind_ok, Res.ok.injEq] at hc
        obtain ⟨e1, e2⟩ := key _ hc
        refine ⟨some h.pcs.length, ?_, ?_⟩
        · rw [e2, e1]; exact hnode _ _
        · intro c1 hc1
          cases hc1
          refine ⟨h.pcs.length, { constraint := c, inInterpolant := false, tail := none },
            rfl, ?_, rfl⟩
          rw [e2]
          exact hlink _
      | some hd =>
        simp only [hi] at hc
        cases hl : h.pcAt hd with
        | none => simp [hl, deref, Res.bind] at hc
        | some l =>
          simp only [hl, deref_some, bind_ok] at hc
          by_cases hcmp : l.constraint.compare c = 0
          · simp only [hcmp, ne_eq, not_true_eq_false, if_false, bind_ok, Res.ok.injEq] at hc
            obtain ⟨e1, e2⟩ := key _ hc
            refine ⟨some hd, ?_, ?_⟩
            · rw [e2, e1]; exact hnode _ _
            · intro c1 hc1
              cases hc1
              refine ⟨hd, l, rfl, ?_, (compare_eq_zero _ _).mp hcmp⟩
              rw [e2]
              exact hl
          · simp only [hcmp, ne_eq, not_false_eq_true, if_true, bind_ok, Res.ok.injEq] at hc
            obtain ⟨e1, e2⟩ := key _ hc
            refine ⟨some h.pcs.length, ?_, ?_⟩
            · rw [e2, e1]; exact hnode _ _
            · intro c1 hc1
              cases hc1
              refine ⟨h.pcs.length,
                { constraint := c, inInterpolant := false, tail := some hd }, rfl, ?_, rfl⟩
              rw [e2]
              exact hlink _

theorem newLink_same (h : Heap) (pc : Option Nat) (cs : List Expr)
    (hsame : ∀ c, cs.getLast? = some c →
      ∃ a lk, pc = some a ∧ h.pcAt a = some lk ∧ lk.constraint = c) :
    newLink h pc cs = none := by
  unfold newLink
  cases hc : cs.getLast? with
  | none => rfl
  | some c =>
    obtain ⟨a, lk, hpc, hlk, hcc⟩ := hsame c hc
    simp [hpc, hlk, hcc]

theorem chainLinks_cons {h : Heap} {f a : Nat} {ls : List (Nat × PathCondition)}
    (hl : chainLinks h f (some a) = some ls) :
    ∃ lk rest g, f = g + 1 ∧ h.pcAt a = some lk ∧ chainLinks h g lk.tail = some rest ∧
      ls = (a, lk) :: rest := by
  cases f with
  | zero => simp [chainLinks] at hl
  | succ g =>
    unfold chainLinks at hl
    cases hpc : h.pcAt a with
    | none => simp [hpc] at hl
    | some lk =>
      simp only [hpc, Option.map_eq_some'] at hl
      obtain ⟨rest, hr, rfl⟩ := hl
      exact ⟨lk, rest, g, rfl, rfl, hr, rfl⟩

theorem qualifies_head {h : Heap} {x : Nat} (hq : qualifies h x = true) :
    ∃ m l lk, h.nodeAt x = some m ∧ m.pathCondition = some l ∧ h.pcAt l = some lk ∧
      lk.inInterpolant = true := by
  unfold qualifies at hq
  cases hn : h.nodeAt x with
  | none => simp [hn] at hq
  | some m =>
    simp only [hn, Bool.and_eq_true] at hq
    cases hp : m.parent with
    | none => simp [hp] at hq
    | some p =>
      simp only [hp] at hq
      cases hpn : h.nodeAt p with
      | none => simp [hpn] at hq
      | some pn =>
        simp only [hpn, Bool.and_eq_true] at hq
        cases hpc : m.pathCondition with
        | none => simp [hpc] at hq
        | some l =>
          simp only [hpc] at hq
          cases hl : h.pcAt l with
          | none => simp [hl] at hq
          | some lk =>
            simp only [hl] at hq
            exact ⟨m, l, lk, rfl, hpc, hl, hq.2.2⟩

theorem entry_head {h : Heap} (hwf : wellFormed h = true) {x : Nat}
    {e : SubsumptionTableEntry} (hq : qualifies h x = true) (he : entryOf h x = some e) :
    ∃ m l lk rest, h.nodeAt x = some m ∧ m.pathCondition = some l ∧ h.pcAt l = some lk ∧
      e.nodeId = m.nodeId ∧ e.interpolant = lk.constraint :: rest := by
  obtain ⟨m, l, lk, hm, hpc, hl, hflag⟩ := qualifies_head hq
  obtain ⟨ls, hls⟩ := wf_chain hwf hm
  rw [hpc] at hls
  obtain ⟨lk1, rest, g, _, hl1, _, hcons⟩ := chainLinks_cons hls
  rw [hl] at hl1; cases hl1
  have hpack : PathCondition.packInterpolant h (some l)
      = .ok ((ls.filter fun x => x.2.inInterpolant).map fun x => x.2.constraint) := by
    show packInterpolantLoop h (h.pcs.length + 1) (some l) [] = _
    rw [packInterpolantLoop_chain h _ _ [] ls hls]
    simp
  unfold entryOf at he
  simp only [hm, hpc, hpack, Option.some.injEq] at he
  refine ⟨m, l, lk, (rest.filter fun x => x.2.inInterpolant).map fun x => x.2.constraint,
    hm, hpc, hl, ?_, ?_⟩
  · rw [← he]
  · rw [← he, hcons]
    simp [List.filter_cons, hflag]

theorem mayInclude_none_iff (k : Expr) (m : MarkerMap) :
    MarkerMap.mayInclude k m = none ↔ k ∉ m.keys := by
  induction m with
  | nil => simp [MarkerMap.mayInclude, MarkerMap.keys]
  | cons kv rest ih =>
    obtain ⟨k1, v1⟩ := kv
    unfold MarkerMap.mayInclude
    by_cases hk : k = k1
    · simp [hk, MarkerMap.keys]
    · simp only [hk, if_false, Option.map_eq_none', ih]
      simp [MarkerMap.keys, hk]

theorem bind_ne_abort {α β : Type} {x : Res α} {f : α → Res β}
    (hx : x ≠ .abort) (hf : ∀ a, f a ≠ .abort) : x.bind f ≠ .abort := by
  cases x with
  | ok a => exact hf a
  | abort => exact absurd rfl hx
  | fault => simp [Res.bind]
  | diverge => simp [Res.bind]

theorem deref_ne_abort {α : Type} (o : Option α) : deref o ≠ .abort := by
  cases o <;> simp [deref]

theorem create_ne_abort (h : Heap) (parent : Option Nat) (sd : Nat) :
    ITreeNode.create h parent sd ≠ .abort := by
  unfold ITreeNode.create
  cases h.stateAt sd with
  | none => simp
  | some st =>
    simp only
    apply bind_ne_abort
    · cases parent with
      | none => simp
      | some pa =>
        exact bind_ne_abort (deref_ne_abort _) (fun _ => by simp)
    · intro inherited
      apply bind_ne_abort
      · cases st.constraints.getLast? with
        | none => simp
        | some c =>
          cases inherited with
          | none => simp
          | some hd =>
            apply bind_ne_abort (deref_ne_abort _)
            intro l
            split <;> simp
      · intro r; simp

theorem split_ne_abort (h : Heap) (p l r : Nat) (pn : ITreeNode)
    (hpn : h.nodeAt p = some pn) (hleaf : pn.left = none ∧ pn.right = none) :
    ITreeNode.split h p l r ≠ .abort := by
  unfold ITreeNode.split
  rw [hpn]
  simp only [deref_some, bind_ok]
  rw [if_pos hleaf]
  apply bind_ne_abort (create_ne_abort _ _ _)
  intro x
  apply bind_ne_abort (deref_ne_abort _)
  intro ls
  apply bind_ne_abort (create_ne_abort _ _ _)
  intro y
  apply bind_ne_abort (deref_ne_abort _)
  intro n1
  apply bind_ne_abort (deref_ne_abort _)
  intro rs
  simp

theorem split_abort_iff (h : Heap) (p l r : Nat) :
    ITreeNode.split h p l r = .abort
      ↔ ∃ pn, h.nodeAt p = some pn ∧ (pn.left ≠ none ∨ pn.right ≠ none) := by
  constructor
  · intro hab
    cases hpn : h.nodeAt p with
    | none => simp [ITreeNode.split, hpn, deref, Res.bind] at hab
    | some pn =>
      refine ⟨pn, rfl, ?_⟩
      by_contra hno
      have hleaf : pn.left = none ∧ pn.right = none := by
        constructor
        · by_contra h1; exact hno (Or.inl h1)
        · by_contra h1; exact hno (Or.inr h1)
      exact split_ne_abort h p l r pn hpn hleaf hab
  · rintro ⟨pn, hpn, hch⟩
    unfold ITreeNode.split
    rw [hpn]
    simp only [deref_some, bind_ok]
    rw [if_neg]
    rintro ⟨h1, h2⟩
    rcases hch with h3 | h3
    · exact h3 h1
    · exact h3 h2

theorem tree_split_abort_iff (h : Heap) (p l r : Nat) :
    ITree.split h p l r = .abort ↔ ITreeNode.split h p l r = .abort := by
  unfold ITree.split
  cases hs : ITreeNode.split h p l r with
  | ok h1 =>
    simp only [bind_ok]
    constructor
    · intro hab
      exact absurd hab (bind_ne_abort (deref_ne_abort _) (fun _ => by simp))
    · intro hab; cases hab
  | abort => simp [Res.bind]
  | fault => simp [Res.bind]
  | diverge => simp [Res.bind]

theorem makeMarkerMapLoop_ne_abort (h : Heap) :
    ∀ (fuel : Nat) (p : Option Nat) (m : MarkerMap), makeMarkerMapLoop h fuel p m ≠ .abort := by
  intro fuel
  induction fuel with
  | zero => intro p m; cases p <;> simp [makeMarkerMapLoop]
  | succ f ih =>
    intro p m
    cases p with
    | none => simp [makeMarkerMapLoop]
    | some a =>
      unfold makeMarkerMapLoop
      cases h.pcAt a with
      | none => simp
      | some l => exact ih _ _

theorem subsumedLoop_ne_abort (state : ExecutionState) (timeout : Nat) :
    ∀ (interp : List Expr) (m : MarkerMap) (s : TimingSolver),
      subsumedLoop state timeout interp m s ≠ .abort := by
  intro interp
  induction interp with
  | nil => intro m s; simp [subsumedLoop]
  | cons q rest ih =>
    intro m s
    unfold subsumedLoop
    simp only
    split
    · split
      · simp
      · exact ih _ _
    · simp

theorem commitMarkers_ne_abort (m : MarkerMap) :
    ∀ h : Heap, commitMarkers h m ≠ .abort := by
  induction m with
  | nil => intro h; simp [commitMarkers]
  | cons kv rest ih =>
    intro h
    obtain ⟨k, v⟩ := kv
    unfold commitMarkers
    cases hv : PathConditionMarker.includeInInterpolant h v with
    | ok h1 => exact ih h1
    | abort =>
      exfalso
      unfold PathConditionMarker.includeInInterpolant PathCondition.includeInInterpolant at hv
      split at hv
      · split at hv <;> simp at hv
      · simp at hv
    | fault => simp
    | diverge => simp

theorem subsumed_ne_abort (e : SubsumptionTableEntry) (h : Heap) (s : TimingSolver)
    (state : ExecutionState) (timeout : Nat) : e.subsumed h s state timeout ≠ .abort := by
  unfold SubsumptionTableEntry.subsumed
  cases state.itreeNode with
  | none => simp
  | some na =>
    simp only
    cases h.nodeAt na with
    | none => simp
    | some n =>
      simp only
      split
      · cases hm : ITreeNode.makeMarkerMap h n with
        | ok m =>
          simp only
          cases hl : subsumedLoop state timeout e.interpolant m s with
          | ok r =>
            obtain ⟨r1, r2⟩ := r
            cases r1 with
            | none => simp
            | some m1 =>
              simp only
              cases hc : commitMarkers h m1 with
              | ok h1 => simp
              | abort => exact absurd hc (commitMarkers_ne_abort _ _)
              | fault => simp
              | diverge => simp
          | abort => exact absurd hl (subsumedLoop_ne_abort _ _ _ _ _)
          | fault => simp
          | diverge => simp
        | abort => exact absurd hm (makeMarkerMapLoop_ne_abort _ _ _ _)
        | fault => simp
        | diverge => simp
      · simp

theorem checkLoop_ne_abort (t : ITree) (state : ExecutionState) (timeout : Nat) :
    ∀ (es : List SubsumptionTableEntry) (h : Heap) (s : TimingSolver),
      checkLoop t state timeout es h s ≠ .abort := by
  intro es
  induction es with
  | nil => intro h s; simp [checkLoop]
  | cons e es ih =>
    intro h s
    unfold checkLoop
    cases hr : e.subsumed h s state timeout with
    | ok r =>
      obtain ⟨b, h1, s1⟩ := r
      cases b with
      | true =>
        simp only
        apply bind_ne_abort (deref_ne_abort _)
        intro c
        apply bind_ne_abort (deref_ne_abort _)
        intro n
        simp
      | false => exact ih h1 s1
    | abort => exact absurd hr (subsumed_ne_abort _ _ _ _ _)
    | fault => simp
    | diverge => simp

theorem check_abort_iff (t : ITree) (h : Heap) (solver : TimingSolver)
    (state : ExecutionState) (timeout : Nat) :
    t.checkCurrentStateSubsumption h solver state timeout = .abort
      ↔ state.itreeNode ≠ t.currentINode := by
  unfold ITree.checkCurrentStateSubsumption
  by_cases hc : state.itreeNode = t.currentINode
  · rw [if_pos hc]
    simp only [hc, ne_eq, not_true_eq_false, iff_false]
    exact checkLoop_ne_abort _ _ _ _ _ _
  · rw [if_neg hc]
    simp [hc]

theorem remove_abort_of_child (t : ITree) (h : Heap) (a : Nat) (n : ITreeNode)
    (hn : h.nodeAt a = some n) (hch : n.left ≠ none ∨ n.right ≠ none) :
    t.remove h (some a) = .abort := by
  unfold ITree.remove
  simp only [deref_some, bind_ok, hn]
  rw [if_neg]
  rintro ⟨h1, h2⟩
  rcases hch with h3 | h3
  · exact h3 h1
  · exact h3 h2

theorem greedyLinks_nil (ls : List (Nat × PathCondition)) : greedyLinks ls [] = [] := by
  cases ls <;> simp [greedyLinks]

theorem greedyLinks_sublist :
    ∀ (ls : List (Nat × PathCondition)) (rc : List Expr), (greedyLinks ls rc).Sublist ls := by
  intro ls
  induction ls with
  | nil => intro rc; simp [greedyLinks]
  | cons x rest ih =>
    intro rc
    cases rc with
    | nil => simp [greedyLinks]
    | cons c cs =>
      unfold greedyLinks
      split
      · exact (ih cs).cons₂ x
      · exact (ih (c :: cs)).cons x

theorem greedyLinks_take :
    ∀ (ls : List (Nat × PathCondition)) (rc : List Expr),
      (greedyLinks ls rc).map (fun x => x.2.constraint)
        = rc.take (greedyLinks ls rc).length := by
  intro ls
  induction ls with
  | nil => intro rc; simp [greedyLinks]
  | cons x rest ih =>
    intro rc
    cases rc with
    | nil => simp [greedyLinks]
    | cons c cs =>
      unfold greedyLinks
      split
      · rename_i heq
        simp only [List.map_cons, List.length_cons, List.take_succ_cons, heq, ih cs]
      · exact ih (c :: cs)

theorem greedyLinks_full :
    ∀ (ls : List (Nat × PathCondition)) (rc : List Expr),
      rc.Sublist (ls.map fun x => x.2.constraint) →
      (greedyLinks ls rc).map (fun x => x.2.constraint) = rc := by
  intro ls
  induction ls with
  | nil =>
    intro rc hs
    simp only [List.map_nil, List.sublist_nil] at hs
    subst hs; simp [greedyLinks]
  | cons x rest ih =>
    intro rc hs
    cases rc with
    | nil => simp [greedyLinks]
    | cons c cs =>
      unfold greedyLinks
      by_cases heq : x.2.constraint = c
      · rw [if_pos heq]
        simp only [List.map_cons, heq, List.cons.injEq, true_and]
        apply ih
        rw [List.map_cons, heq] at hs
        exact List.Sublist.of_cons_cons hs
      · rw [if_neg heq]
        apply ih
        rw [List.map_cons] at hs
        cases hs with
        | cons _ h1 => exact h1
        | cons₂ _ h1 => exact absurd rfl heq

theorem greedyLinks_miss :
    ∀ (ls : List (Nat × PathCondition)) (c : Expr) (cs : List Expr),
      c ∉ ls.map (fun x => x.2.constraint) → greedyLinks ls (c :: cs) = [] := by
  intro ls
  induction ls with
  | nil => intro c cs _; simp [greedyLinks]
  | cons x rest ih =>
    intro c cs hc
    simp only [List.map_cons, List.mem_cons, not_or] at hc
    unfold greedyLinks
    rw [if_neg (fun e => hc.1 e.symm)]
    exact ih c cs hc.2

theorem greedyLinks_cons (x : Nat × PathCondition) (rest : List (Nat × PathCondition))
    (c : Expr) (cs : List Expr) :
    greedyLinks (x :: rest) (c :: cs)
      = if x.2.constraint = c then x :: greedyLinks rest cs else greedyLinks rest (c :: cs) := by
  simp [greedyLinks]

theorem afterGreedy_cons (x : Nat × PathCondition) (rest : List (Nat × PathCondition))
    (c : Expr) (cs : List Expr) :
    afterGreedy (x :: rest) (c :: cs)
      = if x.2.constraint = c then afterGreedy rest cs else afterGreedy rest (c :: cs) := by
  simp [afterGreedy]

theorem greedyLinks_append :
    ∀ (ls : List (Nat × PathCondition)) (d e : List Expr),
      greedyLinks ls (d ++ e) = greedyLinks ls d ++ greedyLinks (afterGreedy ls d) e := by
  intro ls
  induction ls with
  | nil =>
    intro d e
    cases d <;> simp [greedyLinks, afterGreedy]
  | cons x rest ih =>
    intro d e
    cases d with
    | nil => simp [greedyLinks, afterGreedy]
    | cons c cs =>
      simp only [List.cons_append]
      rw [greedyLinks_cons, greedyLinks_cons, afterGreedy_cons]
      by_cases heq : x.2.constraint = c
      · simp only [heq, if_true, ih cs e, List.cons_append]
      · simp only [heq, if_false]
        exact ih (c :: cs) e

theorem chainLinks_det {h : Heap} {f1 f2 : Nat} {p : Option Nat}
    {l1 l2 : List (Nat × PathCondition)}
    (h1 : chainLinks h f1 p = some l1) (h2 : chainLinks h f2 p = some l2) : l1 = l2 := by
  have a1 := chainLinks_mono h h (fun _ _ => rfl) f1 p l1 h1 (max f1 f2) (Nat.le_max_left _ _)
  have a2 := chainLinks_mono h h (fun _ _ => rfl) f2 p l2 h2 (max f1 f2) (Nat.le_max_right _ _)
  rw [a1] at a2
  exact Option.some.inj a2

theorem chainLinks_suffix (h : Heap) :
    ∀ (f : Nat) (p : Option Nat) (pre : List (Nat × PathCondition)) (x : Nat × PathCondition)
      (post : List (Nat × PathCondition)),
      chainLinks h f p = some (pre ++ x :: post) →
      h.pcAt x.1 = some x.2 ∧ ∃ g, g ≤ f ∧ chainLinks h g (some x.1) = some (x :: post) ∧
        chainLinks h g x.2.tail = some post := by
  intro f
  induction f with
  | zero =>
    intro p pre x post hl
    cases p with
    | none => rw [chainLinks_none] at hl; simp at hl
    | some a => simp [chainLinks] at hl
  | succ f ih =>
    intro p pre x post hl
    cases p with
    | none => rw [chainLinks_none] at hl; simp at hl
    | some a =>
      obtain ⟨lk, rest, g, hg, hlk, hrest, hcons⟩ := chainLinks_cons hl
      have hgf : g = f := by omega
      subst hgf
      cases pre with
      | nil =>
        simp only [List.nil_append, List.cons.injEq] at hcons
        obtain ⟨rfl, rfl⟩ := hcons
        refine ⟨hlk, g + 1, Nat.le_refl _, hl, ?_⟩
        exact chainLinks_mono h h (fun _ _ => rfl) g _ _ hrest (g + 1) (by omega)
      | cons y pre1 =>
        simp only [List.cons_append, List.cons.injEq] at hcons
        obtain ⟨_, hre⟩ := hcons
        rw [← hre] at hrest
        obtain ⟨i1, g1, hg1, i2, i3⟩ := ih lk.tail pre1 x post hrest
        exact ⟨i1, g1, by omega, i2, i3⟩

theorem chainLinks_mem {h : Heap} {f : Nat} {p : Option Nat}
    {ls : List (Nat × PathCondition)} (hl : chainLinks h f p = some ls)
    {x : Nat × PathCondition} (hx : x ∈ ls) : h.pcAt x.1 = some x.2 := by
  obtain ⟨pre, post, rfl⟩ := List.append_of_mem hx
  exact (chainLinks_suffix h f p pre x post hl).1

theorem chainLinks_nodup (h : Heap) :
    ∀ (ls : List (Nat × PathCondition)) (f : Nat) (p : Option Nat),
      chainLinks h f p = some ls → (ls.map Prod.fst).Nodup := by
  intro ls
  induction ls with
  | nil => intro f p _; simp
  | cons x rest ih =>
    intro f p hl
    cases p with
    | none => rw [chainLinks_none] at hl; simp at hl
    | some a =>
      obtain ⟨lk, rest1, g, hg, hlk, hrest, hcons⟩ := chainLinks_cons hl
      simp only [List.cons.injEq] at hcons
      obtain ⟨rfl, rfl⟩ := hcons
      simp only [List.map_cons, List.nodup_cons]
      refine ⟨?_, ih g lk.tail hrest⟩
      intro hin
      obtain ⟨y, hy, hya⟩ := List.mem_map.mp hin
      obtain ⟨pre, post, hsplit⟩ := List.append_of_mem hy
      rw [hsplit] at hrest
      obtain ⟨_, g1, _, hsuf, _⟩ := chainLinks_suffix h g lk.tail pre y post hrest
      rw [hya] at hsuf
      have := chainLinks_det hsuf hl
      rw [hsplit] at this
      have hlen := congrArg List.length this
      simp at hlen
      omega

theorem chainLinks_congr (h h1 : Heap) :
    ∀ (f : Nat) (p : Option Nat) (ls : List (Nat × PathCondition)),
      chainLinks h f p = some ls → (∀ y ∈ ls, h1.pcAt y.1 = h.pcAt y.1) →
      chainLinks h1 f p = some ls := by
  intro f
  induction f with
  | zero =>
    intro p ls hl _
    cases p with
    | none => rw [chainLinks_none] at hl ⊢; exact hl
    | some a => simp [chainLinks] at hl
  | succ f ih =>
    intro p ls hl hag
    cases p with
    | none => rw [chainLinks_none] at hl ⊢; exact hl
    | some a =>
      obtain ⟨lk, rest, g, hg, hlk, hrest, hcons⟩ := chainLinks_cons hl
      have hgf : g = f := by omega
      subst hgf
      subst hcons
      have h1a : h1.pcAt a = some lk := by
        rw [hag (a, lk) (by simp)]; exact hlk
      have hr1 := ih lk.tail rest hrest (fun y hy => hag y (by simp [hy]))
      unfold chainLinks
      simp only [h1a, hr1, Option.map_some']

theorem first_match (c : Expr) :
    ∀ ls : List (Nat × PathCondition), (∃ x ∈ ls, x.2.constraint = c) →
      ∃ pre x post, ls = pre ++ x :: post ∧ (∀ y ∈ pre, y.2.constraint ≠ c) ∧
        x.2.constraint = c := by
  intro ls
  induction ls with
  | nil => rintro ⟨x, hx, _⟩; simp at hx
  | cons z rest ih =>
    rintro ⟨x, hx, hxc⟩
    by_cases hz : z.2.constraint = c
    · exact ⟨[], z, rest, rfl, by simp, hz⟩
    · simp only [List.mem_cons] at hx
      rcases hx with hx | hx
      · subst hx; exact absurd hxc hz
      · obtain ⟨pre, y, post, h1, h2, h3⟩ := ih ⟨x, hx, hxc⟩
        refine ⟨z :: pre, y, post, by simp [h1], ?_, h3⟩
        intro w hw
        simp only [List.mem_cons] at hw
        rcases hw with hw | hw
        · subst hw; exact hz
        · exact h2 w hw

theorem greedyLinks_first (c : Expr) (cs : List Expr) :
    ∀ (pre : List (Nat × PathCondition)) (x : Nat × PathCondition)
      (post : List (Nat × PathCondition)),
      (∀ y ∈ pre, y.2.constraint ≠ c) → x.2.constraint = c →
      greedyLinks (pre ++ x :: post) (c :: cs) = x :: greedyLinks post cs := by
  intro pre
  induction pre with
  | nil => intro x post _ hx; simp [greedyLinks_cons, hx]
  | cons z pre ih =>
    intro x post hpre hx
    have hz : z.2.constraint ≠ c := hpre z (by simp)
    simp only [List.cons_append, greedyLinks_cons, hz, if_false]
    exact ih x post (fun y hy => hpre y (by simp [hy])) hx

theorem markWhile_spec (c : Expr) :
    ∀ (f : Nat) (h : Heap) (p : Option Nat) (ls : List (Nat × PathCondition)),
      chainLinks h f p = some ls →
      ((∀ x ∈ ls, x.2.constraint ≠ c) → markWhile c f h p = .ok (h, none)) ∧
      (∀ pre x post, ls = pre ++ x :: post → (∀ y ∈ pre, y.2.constraint ≠ c) →
        x.2.constraint = c →
        markWhile c f h p
          = .ok (h.setPc x.1 { x.2 with inInterpolant := true }, x.2.tail)) := by
  intro f
  induction f with
  | zero =>
    intro h p ls hl
    cases p with
    | none =>
      rw [chainLinks_none] at hl
      simp only [Option.some.injEq] at hl
      subst hl
      refine ⟨fun _ => by simp [markWhile], ?_⟩
      intro pre x post he; simp at he
    | some a => simp [chainLinks] at hl
  | succ f ih =>
    intro h p ls hl
    cases p with
    | none =>
      rw [chainLinks_none] at hl
      simp only [Option.some.injEq] at hl
      subst hl
      refine ⟨fun _ => by simp [markWhile], ?_⟩
      intro pre x post he; simp at he
    | some a =>
      obtain ⟨lk, rest, g, hg, hlk, hrest, hcons⟩ := chainLinks_cons hl
      have hgf : g = f := by omega
      subst hgf
      subst hcons
      obtain ⟨i1, i2⟩ := ih h lk.tail rest hrest
      by_cases hc : lk.constraint = c
      · have hcmp : lk.constraint.compare c = 0 := (compare_eq_zero _ _).mpr hc
        constructor
        · intro hall
          exact absurd hc (hall (a, lk) (by simp))
        · intro pre x post he hpre hx
          cases pre with
          | nil =>
            simp only [List.nil_append, List.cons.injEq] at he
            obtain ⟨rfl, _⟩ := he
            simp [markWhile, hlk, hcmp, PathCondition.includeInInterpolant]
          | cons y pre1 =>
            simp only [List.cons_append, List.cons.injEq] at he
            obtain ⟨rfl, _⟩ := he
            exact absurd hc (hpre (a, lk) (by simp))
      · have hcmp : lk.constraint.compare c ≠ 0 := fun e => hc ((compare_eq_zero _ _).mp e)
        have hstep : markWhile c (g + 1) h (some a) = markWhile c g h lk.tail := by
          simp [markWhile, hlk, hcmp]
        rw [hstep]
        constructor
        · intro hall
          exact i1 (fun x hx => hall x (by simp [hx]))
        · intro pre x post he hpre hx
          cases pre with
          | nil =>
            simp only [List.nil_append, List.cons.injEq] at he
            obtain ⟨rfl, _⟩ := he
            exact absurd hx hc
          | cons y pre1 =>
            simp only [List.cons_append, List.cons.injEq] at he
            obtain ⟨_, hre⟩ := he
            exact i2 pre1 x post hre (fun w hw => hpre w (by simp [hw])) hx

theorem flagIf_nil (y : Nat) (l : PathCondition) : flagIf [] y l = l := by
  simp [flagIf]

theorem markFor_spec :
    ∀ (rc : List Expr) (h : Heap) (p : Option Nat) (ls : List (Nat × PathCondition)),
      chainLinks h (h.pcs.length + 1) p = some ls →
      ∃ h1, markFor rc h p = .ok h1 ∧ h1.nodes = h.nodes ∧ h1.states = h.states ∧
        h1.pcs.length = h.pcs.length ∧
        ∀ y, h1.pcAt y
          = (h.pcAt y).map (flagIf ((greedyLinks ls rc).map Prod.fst) y) := by
  intro rc
  induction rc with
  | nil =>
    intro h p ls _
    refine ⟨h, by simp [markFor], rfl, rfl, rfl, ?_⟩
    intro y
    rw [greedyLinks_nil]
    cases h.pcAt y <;> simp [flagIf_nil]
  | cons c cs ih =>
    intro h p ls hl
    obtain ⟨w1, w2⟩ := markWhile_spec c _ h p ls hl
    by_cases hex : ∃ x ∈ ls, x.2.constraint = c
    · obtain ⟨pre, x, post, hsplit, hpre, hx⟩ := first_match c ls hex
      have hrun := w2 pre x post hsplit hpre hx
      have hgreedy : greedyLinks ls (c :: cs) = x :: greedyLinks post cs := by
        rw [hsplit]; exact greedyLinks_first c cs pre x post hpre hx
      rw [hsplit] at hl
      obtain ⟨hxlive, g, hgle, _, hpost⟩ := chainLinks_suffix h _ p pre x post hl
      have hnd := chainLinks_nodup h _ _ _ hl
      have hxpost : ∀ y ∈ post, y.1 ≠ x.1 := by
        intro y hy heq
        rw [List.map_append, List.map_cons] at hnd
        have h2 := (List.nodup_append.mp hnd).2.1
        rw [List.nodup_cons] at h2
        exact h2.1 (List.mem_map.mpr ⟨y, hy, heq⟩)
      have hxlt : x.1 < h.pcs.length := pcAt_lt hxlive
      -- the store after the link was flagged
      obtain ⟨H1, hH1⟩ : ∃ H1 : Heap, H1 = h.setPc x.1 { x.2 with inInterpolant := true } :=
        ⟨_, rfl⟩
      rw [← hH1] at hrun
      have hpc1 : ∀ y, H1.pcAt y
          = if x.1 = y then some { x.2 with inInterpolant := true } else h.pcAt y := by
        intro y
        rw [hH1, pcAt_setPc]
        by_cases hxy : x.1 = y
        · subst hxy; simp [hxlt]
        · simp [hxy]
      have hlen1 : H1.pcs.length = h.pcs.length := by
        rw [hH1]; simp [Heap.setPc]
      have hnodes1 : H1.nodes = h.nodes := by rw [hH1]; rfl
      have hstates1 : H1.states = h.states := by rw [hH1]; rfl
      have hpoint : ∀ (G : List Nat), x.1 ∉ G → ∀ y,
          (H1.pcAt y).map (flagIf G y) = (h.pcAt y).map (flagIf (x.1 :: G) y) := by
        intro G hG y
        rw [hpc1]
        by_cases hxy : x.1 = y
        · subst hxy
          rw [if_pos rfl, hxlive]
          simp [flagIf, hG]
        · rw [if_neg hxy]
          cases h.pcAt y with
          | none => rfl
          | some l =>
            simp only [Option.map_some', flagIf, List.mem_cons]
            have : ¬ (y = x.1) := fun e => hxy e.symm
            simp [this]
      have hGnot : x.1 ∉ (greedyLinks post cs).map Prod.fst := by
        intro hin
        obtain ⟨y, hy, hyx⟩ := List.mem_map.mp hin
        exact hxpost y ((greedyLinks_sublist post cs).subset hy) hyx
      have hfor : markFor (c :: cs) h p
          = match x.2.tail with
            | none => .ok H1
            | some a => markFor cs H1 (some a) := by
        rw [markFor, hrun]; rfl
      rw [hfor]
      cases ht : x.2.tail with
      | none =>
        rw [ht] at hpost
        rw [chainLinks_none] at hpost
        simp only [Option.some.injEq] at hpost
        refine ⟨H1, rfl, hnodes1, hstates1, hlen1, ?_⟩
        intro y
        rw [hgreedy, ← hpost]
        have := hpoint [] (by simp) y
        simp only [greedyLinks, List.map_nil, List.map_cons] at this ⊢
        rw [← this]
        cases H1.pcAt y <;> simp [flagIf_nil]
      | some t =>
        rw [ht] at hpost
        have hpost1 : chainLinks H1 (H1.pcs.length + 1) (some t) = some post := by
          rw [hlen1]
          apply chainLinks_mono _ _ (fun _ _ => rfl) g _ _ _ _ (by omega)
          apply chainLinks_congr h _ g _ _ hpost
          intro y hy
          rw [hpc1, if_neg (fun e => hxpost y hy e.symm)]
        obtain ⟨h2, hr2, hn2, hs2, hl2, hp2⟩ := ih _ (some t) post hpost1
        refine ⟨h2, hr2, hn2.trans hnodes1, hs2.trans hstates1, hl2.trans hlen1, ?_⟩
        intro y
        rw [hp2, hgreedy, List.map_cons]
        exact hpoint _ hGnot y
    · have hall : ∀ x ∈ ls, x.2.constraint ≠ c := by
        intro x hx heq; exact hex ⟨x, hx, heq⟩
      have hrun := w1 hall
      refine ⟨h, by simp [markFor, hrun], rfl, rfl, rfl, ?_⟩
      intro y
      rw [greedyLinks_miss ls c cs]
      · cases h.pcAt y <;> simp [flagIf_nil]
      · intro hin
        obtain ⟨x, hx, hxc⟩ := List.mem_map.mp hin
        exact hall x hx hxc

theorem markPathCondition_spec (t : ITree) (h : Heap) (core : List Expr) (c : Nat)
    (n : ITreeNode) (ls : List (Nat × PathCondition))
    (hc : t.currentINode = some c) (hn : h.nodeAt c = some n)
    (hchain : chainLinks h (h.pcs.length + 1) n.pathCondition = some ls) :
    ∃ h1, t.markPathCondition h core = .ok h1 ∧ h1.nodes = h.nodes ∧
      h1.states = h.states ∧ h1.pcs.length = h.pcs.length ∧
      ∀ y, h1.pcAt y
        = (h.pcAt y).map (flagIf ((greedyLinks ls core.reverse).map Prod.fst) y) := by
  have hid : ∀ (G : List (Nat × PathCondition)), G = [] → ∀ y,
      h.pcAt y = (h.pcAt y).map (flagIf (G.map Prod.fst) y) := by
    intro G hG y
    subst hG
    cases h.pcAt y <;> simp [flagIf_nil]
  unfold ITree.markPathCondition
  by_cases hlen : core.length = 0
  · rw [if_pos hlen]
    have : core = [] := List.length_eq_zero.mp hlen
    subst this
    exact ⟨h, rfl, rfl, rfl, rfl, hid _ (by simp [greedyLinks_nil])⟩
  · rw [if_neg hlen]
    simp only [hc, hn, deref_some, bind_ok]
    cases hpc : n.pathCondition with
    | none =>
      rw [hpc, chainLinks_none] at hchain
      simp only [Option.some.injEq] at hchain
      subst hchain
      exact ⟨h, rfl, rfl, rfl, rfl, hid _ (by simp [greedyLinks])⟩
    | some a =>
      rw [hpc] at hchain
      exact markFor_spec core.reverse h (some a) ls hchain

theorem sorted_keys_nodup {m : MarkerMap} (hs : m.sorted) : m.keys.Nodup := by
  unfold MarkerMap.sorted at hs
  unfold MarkerMap.keys
  rw [List.Nodup, List.pairwise_map]
  refine hs.imp ?_
  intro a b hab heq
  rw [heq] at hab
  exact Nat.lt_irrefl _ hab

theorem insert_sorted (k : Expr) (v : PathConditionMarker) :
    ∀ m : MarkerMap, m.sorted → (MarkerMap.insert k v m).sorted := by
  intro m
  induction m with
  | nil => intro _; simp [MarkerMap.insert, MarkerMap.sorted]
  | cons kv rest ih =>
    intro hs
    obtain ⟨k1, v1⟩ := kv
    unfold MarkerMap.sorted at hs ih ⊢
    rw [List.pairwise_cons] at hs
    unfold MarkerMap.insert
    by_cases h1 : k.code < k1.code
    · rw [if_pos h1]
      rw [List.pairwise_cons, List.pairwise_cons]
      refine ⟨?_, hs.1, hs.2⟩
      intro b hb
      simp only [List.mem_cons] at hb
      rcases hb with hb | hb
      · subst hb; exact h1
      · exact Nat.lt_trans h1 (hs.1 b hb)
    · rw [if_neg h1]
      by_cases h2 : k = k1
      · rw [if_pos h2]
        rw [List.pairwise_cons]
        exact hs
      · rw [if_neg h2, List.pairwise_cons]
        refine ⟨?_, ih hs.2⟩
        intro b hb
        show k1.code < b.1.code
        have hkeys : b.1 ∈ (MarkerMap.insert k v rest).keys := List.mem_map.mpr ⟨b, hb, rfl⟩
        rw [insert_keys] at hkeys
        rcases hkeys with hk | hk
        · rw [hk]
          have : k.code ≠ k1.code := by
            intro e
            apply h2
            cases k; cases k1; simp_all
          omega
        · obtain ⟨b1, hb1, hb1e⟩ := List.mem_map.mp hk
          rw [← hb1e]
          exact hs.1 b1 hb1

theorem insert_mem (k : Expr) (v : PathConditionMarker) :
    ∀ m : MarkerMap, m.sorted → ∀ kv,
      (kv ∈ MarkerMap.insert k v m ↔ kv ∈ m ∨ (k ∉ m.keys ∧ kv = (k, v))) := by
  intro m
  induction m with
  | nil => intro _ kv; simp [MarkerMap.insert, MarkerMap.keys]
  | cons kv1 rest ih =>
    intro hs kv
    obtain ⟨k1, v1⟩ := kv1
    unfold MarkerMap.sorted at hs ih
    rw [List.pairwise_cons] at hs
    unfold MarkerMap.insert
    by_cases h1 : k.code < k1.code
    · rw [if_pos h1]
      have hnot : k ∉ MarkerMap.keys ((k1, v1) :: rest) := by
        intro hin
        simp only [MarkerMap.keys, List.map_cons, List.mem_cons] at hin
        rcases hin with hin | hin
        · rw [hin] at h1; exact Nat.lt_irrefl _ h1
        · obtain ⟨b, hb, hbe⟩ := List.mem_map.mp hin
          have h5 : k1.code < b.1.code := hs.1 b hb
          rw [hbe] at h5
          omega
      simp only [List.mem_cons, hnot, not_false_eq_true, true_and]
      tauto
    · rw [if_neg h1]
      by_cases h2 : k = k1
      · rw [if_pos h2]
        have hin : k ∈ MarkerMap.keys ((k1, v1) :: rest) := by
          simp [MarkerMap.keys, h2]
        simp [hin]
      · rw [if_neg h2]
        simp only [List.mem_cons, ih hs.2 kv, MarkerMap.keys, List.map_cons]
        have : ¬ (k = k1) := h2
        constructor
        · rintro (h3 | h3 | ⟨h3, h4⟩)
          · left; left; exact h3
          · left; right; exact h3
          · right
            refine ⟨?_, h4⟩
            rintro (h5 | h5)
            · exact h2 h5
            · exact h3 h5
        · rintro ((h3 | h3) | ⟨h3, h4⟩)
          · left; exact h3
          · right; left; exact h3
          · right; right
            exact ⟨fun h5 => h3 (Or.inr h5), h4⟩

theorem headMost_cons (x : Nat × PathCondition) (rest : List (Nat × PathCondition))
    (c : Expr) :
    headMost (x :: rest) c = if x.2.constraint = c then some x.1 else headMost rest c := by
  unfold headMost
  by_cases h : x.2.constraint = c
  · simp [List.find?_cons, h]
  · simp [List.find?_cons, h]

theorem headMost_isSome (ls : List (Nat × PathCondition)) (c : Expr) :
    (∃ a, headMost ls c = some a) ↔ c ∈ ls.map (fun x => x.2.constraint) := by
  induction ls with
  | nil => simp [headMost]
  | cons x rest ih =>
    rw [headMost_cons]
    by_cases h : x.2.constraint = c
    · simp [h]
    · simp only [h, if_false, ih, List.map_cons, List.mem_cons]
      constructor
      · intro h1; right; exact h1
      · rintro (h1 | h1)
        · exact absurd h1.symm h
        · exact h1

theorem makeMarkerMapLoop_spec (h : Heap) :
    ∀ (fuel : Nat) (p : Option Nat) (m0 : MarkerMap) (ls : List (Nat × PathCondition)),
      chainLinks h fuel p = some ls → m0.sorted →
      ∃ m, makeMarkerMapLoop h fuel p m0 = .ok m ∧ m.sorted ∧
        ∀ kv, (kv ∈ m ↔ kv ∈ m0 ∨ (kv.1 ∉ m0.keys ∧
          headMost ls kv.1 = some kv.2.pathCondition ∧ kv.2.mayBeInInterpolant = false)) := by
  intro fuel
  induction fuel with
  | zero =>
    intro p m0 ls hl hs
    cases p with
    | none =>
      rw [chainLinks_none] at hl
      simp only [Option.some.injEq] at hl
      subst hl
      exact ⟨m0, by simp [makeMarkerMapLoop], hs, by simp [headMost]⟩
    | some a => simp [chainLinks] at hl
  | succ fuel ih =>
    intro p m0 ls hl hs
    cases p with
    | none =>
      rw [chainLinks_none] at hl
      simp only [Option.some.injEq] at hl
      subst hl
      exact ⟨m0, by simp [makeMarkerMapLoop], hs, by simp [headMost]⟩
    | some a =>
      obtain ⟨lk, rest, g, hg, hlk, hrest, hcons⟩ := chainLinks_cons hl
      have hgf : g = fuel := by omega
      subst hgf
      subst hcons
      obtain ⟨m, hm, hsm, hmem⟩ := ih lk.tail
        (MarkerMap.insert lk.constraint ⟨false, a⟩ m0) rest hrest (insert_sorted _ _ m0 hs)
      refine ⟨m, by simp [makeMarkerMapLoop, hlk, hm], hsm, ?_⟩
      intro kv
      rw [hmem, insert_mem _ _ m0 hs, insert_keys, headMost_cons]
      obtain ⟨k, v⟩ := kv
      simp only
      by_cases hk : lk.constraint = k
      · subst hk
        simp only [if_true, true_or, not_true_eq_false, false_and, or_false, Option.some.injEq]
        constructor
        · rintro (h1 | ⟨h1, h2⟩)
          · left; exact h1
          · right
            simp only [Prod.mk.injEq] at h2
            refine ⟨h1, ?_, ?_⟩
            · rw [h2.2]
            · rw [h2.2]
        · rintro (h1 | ⟨h1, h2, h3⟩)
          · left; exact h1
          · right
            refine ⟨h1, ?_⟩
            cases v
            simp_all
      · have hk' : ¬ (k = lk.constraint) := fun e => hk e.symm
        simp only [hk, if_false, hk', false_or]
        constructor
        · rintro ((h1 | ⟨_, h2⟩) | h3)
          · left; exact h1
          · simp only [Prod.mk.injEq] at h2
            exact absurd h2.1 hk'
          · right; exact h3
        · rintro (h1 | h3)
          · left; left; exact h1
          · right; exact h3

theorem gate_nil (kv : Expr × PathConditionMarker) : gate [] kv = kv := by
  simp [gate]

theorem map_gate_nil (m : MarkerMap) : m.map (gate []) = m := by
  have : gate [] = id := funext gate_nil
  rw [this, List.map_id]

theorem gate_gate (c1 c2 : List Expr) (kv : Expr × PathConditionMarker) :
    gate c2 (gate c1 kv) = gate (c1 ++ c2) kv := by
  unfold gate
  by_cases h1 : kv.1 ∈ c1
  · by_cases h2 : kv.1 ∈ c2 <;> simp [h1, h2]
  · by_cases h2 : kv.1 ∈ c2 <;> simp [h1, h2]

theorem gate_fst (cs : List Expr) (kv : Expr × PathConditionMarker) : (gate cs kv).1 = kv.1 := by
  unfold gate
  split <;> rfl

theorem map_gate_keys (cs : List Expr) (m : MarkerMap) :
    MarkerMap.keys (m.map (gate cs)) = m.keys := by
  unfold MarkerMap.keys
  rw [List.map_map]
  apply List.map_congr_left
  intro kv _
  exact gate_fst cs kv

theorem map_gate_sorted (cs : List Expr) (m : MarkerMap) (hs : m.sorted) :
    MarkerMap.sorted (m.map (gate cs)) := by
  unfold MarkerMap.sorted at hs ⊢
  rw [List.pairwise_map]
  refine hs.imp ?_
  intro a b hab
  rw [gate_fst, gate_fst]
  exact hab

theorem map_gate_miss (k : Expr) (m : MarkerMap) (hk : k ∉ m.keys) :
    m.map (gate [k]) = m := by
  induction m with
  | nil => rfl
  | cons kv rest ih =>
    simp only [MarkerMap.keys, List.map_cons, List.mem_cons, not_or] at hk
    rw [List.map_cons, ih (by simpa [MarkerMap.keys] using hk.2)]
    have hne : ¬ kv.1 = k := fun e => hk.1 e.symm
    simp [gate, hne]

theorem mayInclude_gate (k : Expr) :
    ∀ (m m1 : MarkerMap), m.keys.Nodup → MarkerMap.mayInclude k m = some m1 →
      m1 = m.map (gate [k]) := by
  intro m
  induction m with
  | nil => intro m1 _ hm; simp [MarkerMap.mayInclude] at hm
  | cons kv rest ih =>
    intro m1 hnd hm
    obtain ⟨k1, v1⟩ := kv
    simp only [MarkerMap.keys, List.map_cons, List.nodup_cons] at hnd
    unfold MarkerMap.mayInclude at hm
    by_cases hk : k = k1
    · subst hk
      simp only [if_true, Option.some.injEq] at hm
      rw [← hm, List.map_cons, map_gate_miss k rest hnd.1]
      simp [gate]
    · simp only [hk, if_false, Option.map_eq_some'] at hm
      obtain ⟨r, hr, hre⟩ := hm
      rw [← hre, List.map_cons, ← ih r hnd.2 hr]
      have hne : ¬ k1 = k := fun e => hk e.symm
      simp [gate, hne]

theorem markCore_gate :
    ∀ (core : List Expr) (m m1 : MarkerMap), m.sorted → markCore core m = some m1 →
      m1 = m.map (gate core) := by
  intro core
  induction core with
  | nil =>
    intro m m1 _ hm
    simp only [markCore, Option.some.injEq] at hm
    rw [← hm, map_gate_nil]
  | cons c rest ih =>
    intro m m1 hs hm
    unfold markCore at hm
    cases hc : MarkerMap.mayInclude c m with
    | none => simp [hc] at hm
    | some m2 =>
      simp only [hc] at hm
      have h2 := mayInclude_gate c m m2 (sorted_keys_nodup hs) hc
      have hs2 : m2.sorted := by rw [h2]; exact map_gate_sorted _ _ hs
      have h3 := ih m2 m1 hs2 hm
      rw [h3, h2, List.map_map]
      apply List.map_congr_left
      intro kv _
      simp only [Function.comp]
      rw [gate_gate]
      rfl

theorem subsumedLoop_gate (state : ExecutionState) (timeout : Nat) :
    ∀ (interp : List Expr) (m : MarkerMap) (s : TimingSolver) (m1 : MarkerMap)
      (s1 : TimingSolver), m.sorted →
      subsumedLoop state timeout interp m s = .ok (some m1, s1) →
      m1 = m.map (gate ((s.script.take interp.length).flatMap fun a => a.core)) := by
  intro interp
  induction interp with
  | nil =>
    intro m s m1 s1 _ hr
    simp only [subsumedLoop, Res.ok.injEq, Prod.mk.injEq, Option.some.injEq] at hr
    rw [← hr.1]
    simp [map_gate_nil]
  | cons q rest ih =>
    intro m s m1 s1 hs hr
    unfold subsumedLoop at hr
    cases hscript : s.script with
    | nil =>
      simp [TimingSolver.evaluate, TimingSolver.setTimeout, hscript] at hr
    | cons a script =>
      simp only [TimingSolver.evaluate, TimingSolver.setTimeout, hscript,
        TimingSolver.getUnsatCore] at hr
      split at hr
      · cases hc : markCore a.core m with
        | none => simp [hc] at hr
        | some m2 =>
          simp only [hc] at hr
          have h2 := markCore_gate a.core m m2 hs hc
          have hs2 : m2.sorted := by rw [h2]; exact map_gate_sorted _ _ hs
          have h3 := ih m2 _ m1 s1 hs2 hr
          simp only at h3
          rw [h3, h2, List.map_map, List.length_cons, List.take_succ_cons, List.flatMap_cons]
          apply List.map_congr_left
          intro kv _
          simp only [Function.comp]
          rw [gate_gate]
      · simp at hr

theorem commitMarkers_point (m : MarkerMap) :
    ∀ (h h1 : Heap), commitMarkers h m = .ok h1 →
      ∀ y, h1.pcAt y = (h.pcAt y).map (flagIf m.gatedOn y) := by
  induction m with
  | nil =>
    intro h h1 hr y
    simp only [commitMarkers, Res.ok.injEq] at hr
    rw [← hr]
    cases h.pcAt y <;> simp [MarkerMap.gatedOn, flagIf_nil]
  | cons kv rest ih =>
    intro h h1 hr y
    obtain ⟨k, v⟩ := kv
    unfold commitMarkers at hr
    by_cases hv : v.mayBeInInterpolant = true
    · unfold PathConditionMarker.includeInInterpolant PathCondition.includeInInterpolant at hr
      rw [if_pos hv] at hr
      cases hl : h.pcAt v.pathCondition with
      | none => simp [hl] at hr
      | some l =>
        simp only [hl] at hr
        rw [ih _ h1 hr y, pcAt_setPc]
        have hG : MarkerMap.gatedOn ((k, v) :: rest) = v.pathCondition :: MarkerMap.gatedOn rest := by
          simp [MarkerMap.gatedOn, List.filter_cons, hv]
        rw [hG]
        have hlt := pcAt_lt hl
        by_cases hy : v.pathCondition = y
        · subst hy
          rw [if_pos ⟨rfl, hlt⟩, hl]
          simp only [Option.map_some', flagIf, List.mem_cons, true_or, if_true]
          split <;> rfl
        · rw [if_neg (fun e => hy e.1)]
          cases h.pcAt y with
          | none => rfl
          | some l1 =>
            simp only [Option.map_some', flagIf, List.mem_cons]
            have : ¬ (y = v.pathCondition) := fun e => hy e.symm
            simp [this]
    · unfold PathConditionMarker.includeInInterpolant at hr
      rw [if_neg hv] at hr
      simp only at hr
      rw [ih h h1 hr y]
      have hG : MarkerMap.gatedOn ((k, v) :: rest) = MarkerMap.gatedOn rest := by
        simp [MarkerMap.gatedOn, List.filter_cons, hv]
      rw [hG]

theorem makeMarkerMap_spec (h : Heap) (n : ITreeNode) (ls : List (Nat × PathCondition))
    (hchain : chainLinks h (h.pcs.length + 1) n.pathCondition = some ls) :
    ∃ m, n.makeMarkerMap h = .ok m ∧ m.sorted ∧
      ∀ kv, (kv ∈ m ↔
        headMost ls kv.1 = some kv.2.pathCondition ∧ kv.2.mayBeInInterpolant = false) := by
  obtain ⟨m, hm, hs, hmem⟩ := makeMarkerMapLoop_spec h _ _ [] ls hchain
    (by simp [MarkerMap.sorted])
  refine ⟨m, hm, hs, ?_⟩
  intro kv
  rw [hmem]
  simp [MarkerMap.keys]

theorem gatedOn_gate (m : MarkerMap) (ls : List (Nat × PathCondition)) (cores : List Expr)
    (hmem : ∀ kv, (kv ∈ m ↔
      headMost ls kv.1 = some kv.2.pathCondition ∧ kv.2.mayBeInInterpolant = false))
    (y : Nat) :
    y ∈ MarkerMap.gatedOn (m.map (gate cores)) ↔ ∃ c ∈ cores, headMost ls c = some y := by
  unfold MarkerMap.gatedOn
  simp only [List.mem_map, List.mem_filter]
  constructor
  · rintro ⟨kv1, ⟨⟨kv, hkv, rfl⟩, hmay⟩, rfl⟩
    obtain ⟨hh, hf⟩ := (hmem kv).mp hkv
    unfold gate at hmay ⊢
    by_cases hc : kv.1 ∈ cores
    · refine ⟨kv.1, hc, ?_⟩
      simp [hc, hh]
    · simp [hc, hf] at hmay
  · rintro ⟨c, hc, hh⟩
    have hkv : (c, (⟨false, y⟩ : PathConditionMarker)) ∈ m := (hmem _).mpr ⟨hh, rfl⟩
    refine ⟨gate cores (c, ⟨false, y⟩), ⟨⟨_, hkv, rfl⟩, ?_⟩, ?_⟩
    · simp [gate, hc]
    · simp [gate, hc]

theorem subsumed_true_flags (e : SubsumptionTableEntry) (h : Heap) (solver : TimingSolver)
    (state : ExecutionState) (timeout : Nat) (na : Nat) (n : ITreeNode)
    (ls : List (Nat × PathCondition)) (h1 : Heap) (s1 : TimingSolver)
    (hs : state.itreeNode = some na) (hn : h.nodeAt na = some n)
    (hchain : chainLinks h (h.pcs.length + 1) n.pathCondition = some ls)
    (hr : e.subsumed h solver state timeout = .ok (true, h1, s1)) :
    ∃ G : List Nat,
      (∀ y, y ∈ G ↔ ∃ c ∈ (solver.script.take e.interpolant.length).flatMap (fun a => a.core),
        headMost ls c = some y) ∧
      ∀ y, h1.pcAt y = (h.pcAt y).map (flagIf G y) := by
  obtain ⟨m, hm, hsorted, hmem⟩ := makeMarkerMap_spec h n ls hchain
  unfold SubsumptionTableEntry.subsumed at hr
  simp only [hs, hn, hm] at hr
  split at hr
  · cases hl : subsumedLoop state timeout e.interpolant m solver with
    | ok r =>
      obtain ⟨r1, r2⟩ := r
      cases r1 with
      | none => simp [hl] at hr
      | some m1 =>
        simp only [hl] at hr
        cases hc : commitMarkers h m1 with
        | ok h2 =>
          simp only [hc, Res.ok.injEq, Prod.mk.injEq, true_and] at hr
          obtain ⟨rfl, _⟩ := hr
          have hgate := subsumedLoop_gate state timeout e.interpolant m solver m1 r2 hsorted hl
          refine ⟨m1.gatedOn, ?_, commitMarkers_point m1 h h2 hc⟩
          intro y
          rw [hgate]
          exact gatedOn_gate m ls _ hmem y
        | abort => simp [hc] at hr
        | fault => simp [hc] at hr
        | diverge => simp [hc] at hr
    | abort => simp [hl] at hr
    | fault => simp [hl] at hr
    | diverge => simp [hl] at hr
  · simp at hr

theorem headMost_mem {ls : List (Nat × PathCondition)} {c : Expr} {y : Nat}
    (hh : headMost ls c = some y) : y ∈ ls.map Prod.fst := by
  unfold headMost at hh
  simp only [Option.map_eq_some'] at hh
  obtain ⟨x, hx, hxy⟩ := hh
  exact List.mem_map.mpr ⟨x, List.mem_of_find?_eq_some hx, hxy⟩

theorem nodeOK_intro (h : Heap) (a : Nat) (n : ITreeNode)
    (hpar : ∀ p, n.parent = some p → p < a ∧ ∃ pn, h.nodeAt p = some pn ∧
      (pn.left = some a ∨ pn.right = some a) ∧
      (n.pathCondition = pn.pathCondition ∨
        ∃ l lk, n.pathCondition = some l ∧ h.pcAt l = some lk ∧ lk.tail = pn.pathCondition))
    (hch : ∀ c, n.left = some c → n.right ≠ some c)
    (hchain : ∃ ls, chainLinks h (h.pcs.length + 1) n.pathCondition = some ls) :
    nodeOK h a n = true := by
  unfold nodeOK
  simp only [Bool.and_eq_true]
  refine ⟨⟨?_, ?_⟩, ?_⟩
  · cases hp : n.parent with
    | none => rfl
    | some p =>
      obtain ⟨hlt, pn, hpn, hslot, hpc⟩ := hpar p hp
      simp only [hpn, Bool.and_eq_true, decide_eq_true_eq, Bool.or_eq_true, beq_iff_eq]
      refine ⟨hlt, hslot, ?_⟩
      rcases hpc with h1 | ⟨l, lk, h1, h2, h3⟩
      · left; exact h1
      · right; simp [h1, h2, h3]
  · cases hl : n.left with
    | none => simp
    | some c =>
      have := hch c hl
      simp only [Option.isNone_some, Bool.false_or, bne_iff_ne, ne_eq]
      intro hh; exact this hh.symm
  · obtain ⟨ls, hls⟩ := hchain
    simp [hls]

theorem wf_intro (h : Heap) (hn : ∀ a n, h.nodeAt a = some n → nodeOK h a n = true)
    (hl : ∀ a l t, h.pcAt a = some l → l.tail = some t → t < a) : wellFormed h = true := by
  unfold wellFormed
  simp only [Bool.and_eq_true, List.all_eq_true, List.mem_range]
  constructor
  · intro a _
    cases hx : h.nodeAt a with
    | none => rfl
    | some n => exact hn a n hx
  · intro a _
    cases hx : h.pcAt a with
    | none => rfl
    | some l =>
      show linkOK a l = true
      unfold linkOK
      cases ht : l.tail with
      | none => rfl
      | some t => simp [hl a l t hx ht]

theorem map_some_of {α β : Type} (f : α → β) {x y : Option α} (hxy : x.map f = y.map f)
    {a : α} (hy : y = some a) : ∃ b, x = some b ∧ f b = f a := by
  subst hy
  cases x with
  | none => simp at hxy
  | some b => exact ⟨b, rfl, by simpa using hxy⟩

theorem sameShape_symm {h h1 : Heap} (hs : SameShape h h1) : SameShape h1 h :=
  ⟨hs.1.symm, hs.2.1.symm, fun a => (hs.2.2.1 a).symm, fun y => (hs.2.2.2 y).symm⟩

theorem sameShape_node {h h1 : Heap} (hs : SameShape h h1) {a : Nat} {n : ITreeNode}
    (hn : h.nodeAt a = some n) :
    ∃ n1, h1.nodeAt a = some n1 ∧ n1.parent = n.parent ∧ n1.left = n.left ∧
      n1.right = n.right ∧ n1.pathCondition = n.pathCondition := by
  obtain ⟨n1, h1n, hsh⟩ := map_some_of ITreeNode.shape (hs.2.2.1 a) hn
  simp only [ITreeNode.shape, Prod.mk.injEq] at hsh
  exact ⟨n1, h1n, hsh.1, hsh.2.1, hsh.2.2.1, hsh.2.2.2⟩

theorem sameShape_link {h h1 : Heap} (hs : SameShape h h1) {y : Nat} {l : PathCondition}
    (hl : h.pcAt y = some l) :
    ∃ l1, h1.pcAt y = some l1 ∧ l1.constraint = l.constraint ∧ l1.tail = l.tail := by
  obtain ⟨l1, h1l, hsh⟩ := map_some_of PathCondition.shape (hs.2.2.2 y) hl
  simp only [PathCondition.shape, Prod.mk.injEq] at hsh
  exact ⟨l1, h1l, hsh.1, hsh.2⟩

/-- A chain keeps its addresses, constraints and tails in a store of the same
layout. -/
theorem sameShape_chain {h h1 : Heap} (hs : SameShape h h1) :
    ∀ (f : Nat) (p : Option Nat) (ls : List (Nat × PathCondition)),
      chainLinks h f p = some ls →
      ∃ ls1, chainLinks h1 f p = some ls1 ∧
        ls1.map (fun x => (x.1, x.2.constraint)) = ls.map (fun x => (x.1, x.2.constraint)) := by
  intro f
  induction f with
  | zero =>
    intro p ls hl
    cases p with
    | none =>
      rw [chainLinks_none] at hl
      cases hl
      exact ⟨[], chainLinks_none _ _, rfl⟩
    | some a => simp [chainLinks] at hl
  | succ f ih =>
    intro p ls hl
    cases p with
    | none =>
      rw [chainLinks_none] at hl
      cases hl
      exact ⟨[], chainLinks_none _ _, rfl⟩
    | some a =>
      obtain ⟨lk, rest, g, hg, hlk, hrest, rfl⟩ := chainLinks_cons hl
      have hgf : g = f := by omega
      subst hgf
      obtain ⟨l1, h1l, hc, ht⟩ := sameShape_link hs hlk
      obtain ⟨rest1, hr1, hm⟩ := ih lk.tail rest hrest
      refine ⟨(a, l1) :: rest1, ?_, ?_⟩
      · unfold chainLinks
        simp only [h1l]
        rw [ht, hr1]; rfl
      · simp [hc, hm]

theorem sameShape_wf {h h1 : Heap} (hwf : wellFormed h = true) (hs : SameShape h h1) :
    wellFormed h1 = true := by
  have hs1 := sameShape_symm hs
  apply wf_intro
  · intro a n1 hn1
    obtain ⟨n, hn, e1, e2, e3, e4⟩ := sameShape_node hs1 hn1
    apply nodeOK_intro
    · intro p hp
      obtain ⟨hlt, pn, hpn, hslot, hhead⟩ := wf_parent hwf hn (e1.trans hp)
      obtain ⟨pn1, hpn1, f1, f2, f3, f4⟩ := sameShape_node hs hpn
      refine ⟨hlt, pn1, hpn1, ?_, ?_⟩
      · rw [f2, f3]; exact hslot
      · rcases hhead with hh | ⟨l, lk, hh1, hh2, hh3⟩
        · left; rw [f4, ← hh, e4]
        · right
          obtain ⟨l1, hl1, _, ht⟩ := sameShape_link hs hh2
          exact ⟨l, l1, by rw [← e4, hh1], hl1, by rw [ht, hh3, f4]⟩
    · intro c hc
      have := wf_children hwf hn (e2.trans hc)
      rw [← e3]; exact this
    · obtain ⟨ls, hls⟩ := wf_chain hwf hn
      obtain ⟨ls1, hls1, _⟩ := sameShape_chain hs _ _ _ hls
      refine ⟨ls1, ?_⟩
      rw [hs.2.1, ← e4]; exact hls1
  · intro a l1 t hl1 ht
    obtain ⟨l, hl, _, htl⟩ := sameShape_link hs1 hl1
    exact wf_link hwf hl (htl.trans ht)

theorem sameShape_refl (h : Heap) : SameShape h h :=
  ⟨rfl, rfl, fun _ => rfl, fun _ => rfl⟩

theorem sameShape_trans {h h1 h2 : Heap} (a : SameShape h h1) (b : SameShape h1 h2) :
    SameShape h h2 :=
  ⟨b.1.trans a.1, b.2.1.trans a.2.1, fun x => (b.2.2.1 x).trans (a.2.2.1 x),
    fun y => (b.2.2.2 y).trans (a.2.2.2 y)⟩

theorem sameShape_setPc {h : Heap} {a : Nat} {l l1 : PathCondition} (hl : h.pcAt a = some l)
    (hsh : l1.shape = l.shape) : SameShape h (h.setPc a l1) := by
  refine ⟨rfl, by simp [Heap.setPc], fun _ => rfl, ?_⟩
  intro y
  rw [pcAt_setPc]
  split
  · rename_i hab; rw [← hab.1, hl]; simp [hsh]
  · rfl

theorem sameShape_setNode {h : Heap} {a : Nat} {n n1 : ITreeNode} (hn : h.nodeAt a = some n)
    (hsh : n1.shape = n.shape) : SameShape h (h.setNode a n1) := by
  refine ⟨by simp [Heap.setNode], rfl, ?_, fun _ => rfl⟩
  intro b
  show (Heap.nodeAt { h with nodes := h.nodes.set a (some n1) } b).map ITreeNode.shape = _
  rw [nodeAt_set]
  split
  · rename_i hab; rw [← hab.1, hn]; simp [hsh]
  · rfl

theorem sameShape_flags {h h1 : Heap} (G : List Nat) (hn : h1.nodes = h.nodes)
    (hlen : h1.pcs.length = h.pcs.length)
    (hpc : ∀ y, h1.pcAt y = (h.pcAt y).map (flagIf G y)) : SameShape h h1 := by
  refine ⟨by rw [hn], hlen, ?_, ?_⟩
  · intro a; unfold Heap.nodeAt; rw [hn]
  · intro y
    rw [hpc]
    cases h.pcAt y with
    | none => rfl
    | some l =>
      simp only [Option.map_some', flagIf, PathCondition.shape]
      split <;> rfl

theorem commitMarkers_shape (m : MarkerMap) :
    ∀ h h1 : Heap, commitMarkers h m = .ok h1 → SameShape h h1 := by
  induction m with
  | nil => intro h h1 hr; simp [commitMarkers] at hr; subst hr; exact sameShape_refl _
  | cons kv rest ih =>
    intro h h1 hr
    obtain ⟨k, v⟩ := kv
    unfold commitMarkers at hr
    split at hr
    · rename_i h2 heq
      refine sameShape_trans ?_ (ih h2 h1 hr)
      unfold PathConditionMarker.includeInInterpolant PathCondition.includeInInterpolant at heq
      split at heq
      · split at heq
        · simp at heq
        · rename_i l hl
          simp at heq; subst heq
          exact sameShape_setPc hl rfl
      · simp at heq; subst heq; exact sameShape_refl _
    all_goals simp at hr

theorem subsumed_shape {e : SubsumptionTableEntry} {h : Heap} {s : TimingSolver}
    {st : ExecutionState} {tm : Nat} {b : Bool} {h1 : Heap} {s1 : TimingSolver}
    (hr : e.subsumed h s st tm = .ok (b, h1, s1)) : SameShape h h1 := by
  cases b with
  | false => rw [subsumed_false_heap hr]; exact sameShape_refl _
  | true =>
    unfold SubsumptionTableEntry.subsumed at hr
    split at hr
    · simp at hr
    · split at hr
      · simp at hr
      · split at hr
        · split at hr
          · split at hr
            · split at hr
              · rename_i h2 hc
                simp at hr
                rw [← hr.1]
                exact commitMarkers_shape _ _ _ hc
              all_goals simp at hr
            all_goals simp at hr
          all_goals simp at hr
        · simp at hr

theorem check_shape {t : ITree} {h : Heap} {solver : TimingSolver} {state : ExecutionState}
    {timeout : Nat} {b : Bool} {h1 : Heap} {s1 : TimingSolver}
    (hr : t.checkCurrentStateSubsumption h solver state timeout = .ok (b, h1, s1)) :
    SameShape h h1 := by
  unfold ITree.checkCurrentStateSubsumption at hr
  split at hr
  · have hret := checkLoop_returns t state timeout h _ _ _ _ _ hr
    cases b with
    | false => rw [(hret.2 rfl).2]; exact sameShape_refl _
    | true =>
      obtain ⟨pre, e, post, s0, h0, c, n, _, _, hsub, _, hn, heq⟩ := hret.1 rfl
      rw [heq]
      exact sameShape_trans (subsumed_shape hsub) (sameShape_setNode hn rfl)
  · simp at hr

theorem mark_shape {t : ITree} {h : Heap} {core : List Expr} {h1 : Heap}
    (hwf : wellFormed h = true) (hr : t.markPathCondition h core = .ok h1) :
    SameShape h h1 := by
  by_cases h0 : core.length = 0
  · simp [ITree.markPathCondition, h0] at hr
    subst hr; exact sameShape_refl _
  · cases hc : t.currentINode with
    | none => simp [ITree.markPathCondition, h0, hc, deref, Res.bind] at hr
    | some c =>
      cases hn : h.nodeAt c with
      | none => simp [ITree.markPathCondition, h0, hc, hn, deref, Res.bind] at hr
      | some n =>
        obtain ⟨ls, hls⟩ := wf_chain hwf hn
        obtain ⟨h2, hrun, hnodes, _, hlen, hpc⟩ :=
          markPathCondition_spec t h core c n ls hc hn hls
        rw [hrun] at hr
        cases hr
        exact sameShape_flags _ hnodes hlen hpc

theorem locate_shape {h : Heap} {a pp : Nat} {h1 : Heap}
    (hr : ITreeNode.setNodeLocation h a pp = .ok h1) : SameShape h h1 := by
  unfold ITreeNode.setNodeLocation at hr
  cases hn : h.nodeAt a with
  | none => simp [hn, deref, Res.bind] at hr
  | some n =>
    simp only [hn, deref, Res.bind] at hr
    split at hr
    · simp at hr; subst hr
      exact sameShape_setNode hn rfl
    · simp at hr; subst hr; exact sameShape_refl _

theorem edit_shape (h : Heap) (states : List ExecutionState) :
    SameShape h { h with states := states } :=
  ⟨rfl, rfl, fun _ => rfl, fun _ => rfl⟩

theorem bind_eq_ok {α β : Type} {x : Res α} {f : α → Res β} {b : β}
    (hb : x.bind f = .ok b) : ∃ a, x = .ok a ∧ f a = .ok b := by
  cases x with
  | ok a => exact ⟨a, rfl, by simpa [Res.bind] using hb⟩
  | abort => simp [Res.bind] at hb
  | fault => simp [Res.bind] at hb
  | diverge => simp [Res.bind] at hb

theorem create_ok_state {h : Heap} {par : Option Nat} {sd : Nat} {r : Nat × Heap}
    (hc : ITreeNode.create h par sd = .ok r) : ∃ st, h.stateAt sd = some st := by
  cases hst : h.stateAt sd with
  | none => simp [ITreeNode.create, hst] at hc
  | some st => exact ⟨st, rfl⟩

theorem wf_head {h : Heap} (hwf : wellFormed h = true) {a : Nat} {n : ITreeNode}
    (hn : h.nodeAt a = some n) :
    ∀ hd, n.pathCondition = some hd → ∃ lk, h.pcAt hd = some lk := by
  intro hd hpc
  obtain ⟨ls, hls⟩ := wf_chain hwf hn
  rw [hpc] at hls
  exact chainLinks_head hls

/-- A call of `split` that returns was made on a live childless node with two
existing states. -/
theorem split_inv {h : Heap} {p l r : Nat} {h2 : Heap} (hwf : wellFormed h = true)
    (hr : ITreeNode.split h p l r = .ok h2) :
    ∃ pn sl sr, h.nodeAt p = some pn ∧ (pn.left = none ∧ pn.right = none) ∧
      h.stateAt l = some sl ∧ h.stateAt r = some sr := by
  cases hpn : h.nodeAt p with
  | none => simp [ITreeNode.split, hpn, deref, Res.bind] at hr
  | some pn =>
    by_cases hleaf : pn.left = none ∧ pn.right = none
    · unfold ITreeNode.split at hr
      rw [hpn] at hr
      simp only [deref_some, bind_ok] at hr
      rw [if_pos hleaf] at hr
      obtain ⟨lres, hcl, hr⟩ := bind_eq_ok hr
      obtain ⟨sl, hsl⟩ := create_ok_state hcl
      obtain ⟨ls, hls, hr⟩ := bind_eq_ok hr
      obtain ⟨rres, hcr, hr⟩ := bind_eq_ok hr
      obtain ⟨sr1, hsr1⟩ := create_ok_state hcr
      obtain ⟨hA, hcA, hstA, _, _⟩ := create_under h p l pn sl hpn hsl (wf_head hwf hpn)
      rw [hcA] at hcl
      cases hcl
      have hlt : r < h.states.length := by
        have := stateAt_lt hsr1
        simpa [Heap.setState, Heap.setNode, hstA] using this
      refine ⟨pn, sl, h.states[r], rfl, hleaf, hsl, ?_⟩
      unfold Heap.stateAt
      simp [hlt]
    · simp [ITreeNode.split, hpn, deref, Res.bind, hleaf] at hr

/-- The chain of a node made by the constructor under the chain head `pc`,
in a store that kept the old links and holds the new link, if one was made,
at address `pcs.length + off`. -/
theorem child_chain (h h2 : Heap) (pc : Option Nat) (cs : List Expr) (off : Nat)
    (ls : List (Nat × PathCondition))
    (hchain : chainLinks h (h.pcs.length + 1) pc = some ls)
    (hold : ∀ a, a < h.pcs.length → h2.pcAt a = h.pcAt a)
    (hlen : h.pcs.length ≤ h2.pcs.length)
    (hnew : ∀ lk, newLink h pc cs = some lk → h2.pcAt (h.pcs.length + off) = some lk) :
    chainLinks h2 (h2.pcs.length + 1)
      (match newLink h pc cs with
        | none => pc
        | some _ => some (h.pcs.length + off))
      = some (match newLink h pc cs with
        | none => ls
        | some lk => (h.pcs.length + off, lk) :: ls) := by
  cases hnl : newLink h pc cs with
  | none =>
    simp only
    exact chainLinks_mono h h2 hold _ _ _ hchain _ (by omega)
  | some lk =>
    simp only
    have hlk := hnew lk hnl
    obtain ⟨c, hc, hlkeq⟩ := newLink_some h _ _ lk hnl
    have hlt := pcAt_lt hlk
    have hrest := chainLinks_mono h h2 hold _ _ _ hchain h2.pcs.length (by omega)
    unfold chainLinks
    simp only [hlk]
    have : lk.tail = pc := by rw [hlkeq]
    rw [this, hrest]; rfl

/-- A node of a well-formed store stays in order in a store that kept the
links, and kept every node with its parent, chain head and children. -/
theorem grow_old {h h2 : Heap} (hwf : wellFormed h = true)
    (hold : ∀ y, y < h.pcs.length → h2.pcAt y = h.pcAt y)
    (hlen : h.pcs.length ≤ h2.pcs.length)
    (hp : ∀ q qn, h.nodeAt q = some qn → ∃ qn2, h2.nodeAt q = some qn2 ∧
      qn2.parent = qn.parent ∧ qn2.pathCondition = qn.pathCondition ∧
      (∀ c, qn.left = some c → qn2.left = some c) ∧
      (∀ c, qn.right = some c → qn2.right = some c) ∧
      (∀ c, qn2.left = some c → qn2.right ≠ some c))
    {a : Nat} {n0 n : ITreeNode} (hn0 : h.nodeAt a = some n0) (hn : h2.nodeAt a = some n) :
    nodeOK h2 a n = true := by
  obtain ⟨n2, hn2, e1, e2, e3, e4, e5⟩ := hp a n0 hn0
  rw [hn] at hn2
  cases hn2
  apply nodeOK_intro
  · intro q hq
    obtain ⟨hlt, qn, hqn, hslot, hhead⟩ := wf_parent hwf hn0 (e1 ▸ hq)
    obtain ⟨qn2, hqn2, _, f2, f3, f4, _⟩ := hp q qn hqn
    refine ⟨hlt, qn2, hqn2, ?_, ?_⟩
    · rcases hslot with hs | hs
      · left; exact f3 _ hs
      · right; exact f4 _ hs
    · rcases hhead with hh | ⟨y, lk, hh1, hh2, hh3⟩
      · left; rw [e2, f2, hh]
      · right
        refine ⟨y, lk, by rw [e2, hh1], ?_, by rw [f2, hh3]⟩
        rw [hold y (pcAt_lt hh2)]; exact hh2
  · exact e5
  · obtain ⟨ls, hls⟩ := wf_chain hwf hn0
    refine ⟨ls, ?_⟩
    rw [e2]
    exact chainLinks_mono h h2 hold _ _ _ hls _ (by omega)

theorem grow_link {h h2 : Heap} (hwf : wellFormed h = true)
    (extra : List PathCondition) (hpcs : h2.pcs = h.pcs ++ extra.map some)
    (htail : ∀ lk ∈ extra, ∀ t, lk.tail = some t → t < h.pcs.length)
    {a : Nat} {l : PathCondition} {t : Nat} (hl : h2.pcAt a = some l) (ht : l.tail = some t) :
    t < a := by
  by_cases ha : a < h.pcs.length
  · have : h2.pcAt a = h.pcAt a := by
      unfold Heap.pcAt; rw [hpcs, List.getElem?_append_left ha]
    rw [this] at hl
    exact wf_link hwf hl ht
  · have hge : h.pcs.length ≤ a := by omega
    unfold Heap.pcAt at hl
    rw [hpcs, List.getElem?_append_right hge, List.getElem?_map] at hl
    cases hx : extra[a - h.pcs.length]? with
    | none => simp [hx] at hl
    | some lk =>
      simp [hx] at hl
      subst hl
      have hmem : lk ∈ extra := List.getElem?_mem hx
      have := htail lk hmem t ht
      omega

theorem grow_pcAt_old {h h2 : Heap} (extra : List (Option PathCondition))
    (hpcs : h2.pcs = h.pcs ++ extra) :
    (∀ y, y < h.pcs.length → h2.pcAt y = h.pcAt y) ∧ h.pcs.length ≤ h2.pcs.length := by
  constructor
  · intro y hy
    unfold Heap.pcAt
    rw [hpcs, List.getElem?_append_left hy]
  · rw [hpcs]; simp

/-- A split of a well-formed store that returns leaves a well-formed store,
in which the chain of every node is its chain of before, or the chain of the
node split, or that chain with the new link of one of the two states on
top. -/
theorem split_grow {h : Heap} {p l r : Nat} {h2 : Heap} (hwf : wellFormed h = true)
    (hr : ITreeNode.split h p l r = .ok h2) :
    ∃ pn sl sr lsP, h.nodeAt p = some pn ∧ h.stateAt l = some sl ∧ h.stateAt r = some sr ∧
      chainLinks h (h.pcs.length + 1) pn.pathCondition = some lsP ∧
      wellFormed h2 = true ∧
      ∀ a n ls2, h2.nodeAt a = some n →
        chainLinks h2 (h2.pcs.length + 1) n.pathCondition = some ls2 →
        (∃ n0, h.nodeAt a = some n0 ∧
          chainLinks h (h.pcs.length + 1) n0.pathCondition = some ls2) ∨
        ls2 = lsP ∨
        ∃ s lk y, (s = sl ∨ s = sr) ∧ newLink h pn.pathCondition s.constraints = some lk ∧
          ls2 = (y, lk) :: lsP := by
  obtain ⟨pn, sl, sr, hpn, hleaf, hsl, hsr⟩ := split_inv hwf hr
  have hhd := wf_head hwf hpn
  obtain ⟨h2a, hrun, hp2, hl2, hr2, hpcs, hframe, hlen2, _, _, _⟩ :=
    split_spec h p l r pn sl sr hpn hleaf hsl hsr hhd
  rw [hrun] at hr
  cases hr
  obtain ⟨lsP, hlsP⟩ := wf_chain hwf hpn
  obtain ⟨hold, hlen⟩ := grow_pcAt_old _ hpcs
  have hplt := nodeAt_lt hpn
  have hnewL : ∀ lk, newLink h pn.pathCondition sl.constraints = some lk →
      h2.pcAt (h.pcs.length + 0) = some lk := by
    intro lk hlk
    unfold Heap.pcAt
    rw [hpcs, hlk, getElem_append_at]
    simp
  have hnewR : ∀ lk, newLink h pn.pathCondition sr.constraints = some lk →
      h2.pcAt (h.pcs.length + (newLink h pn.pathCondition sl.constraints).toList.length)
        = some lk := by
    intro lk hlk
    unfold Heap.pcAt
    rw [hpcs, hlk, getElem_append_at]
    cases newLink h pn.pathCondition sl.constraints <;> simp
  have hcL := child_chain h h2 pn.pathCondition sl.constraints 0 lsP hlsP hold hlen hnewL
  have hcR := child_chain h h2 pn.pathCondition sr.constraints
    (newLink h pn.pathCondition sl.constraints).toList.length lsP hlsP hold hlen hnewR
  have hp : ∀ q qn, h.nodeAt q = some qn → ∃ qn2, h2.nodeAt q = some qn2 ∧
      qn2.parent = qn.parent ∧ qn2.pathCondition = qn.pathCondition ∧
      (∀ c, qn.left = some c → qn2.left = some c) ∧
      (∀ c, qn.right = some c → qn2.right = some c) ∧
      (∀ c, qn2.left = some c → qn2.right ≠ some c) := by
    intro q qn hqn
    by_cases hqp : q = p
    · subst hqp
      rw [hpn] at hqn; cases hqn
      refine ⟨_, hp2, rfl, rfl, ?_, ?_, ?_⟩
      · intro c hc; rw [hleaf.1] at hc; cases hc
      · intro c hc; rw [hleaf.2] at hc; cases hc
      · intro c hc; simp at hc ⊢; omega
    · refine ⟨qn, ?_, rfl, rfl, fun _ hc => hc, fun _ hc => hc, ?_⟩
      · rw [hframe q (nodeAt_lt hqn) hqp]; exact hqn
      · intro c hc; exact wf_children hwf hqn hc
  have hnone : ∀ a, a < h.nodes.length → h.nodeAt a = none → h2.nodeAt a = none := by
    intro a ha hn0
    have hap : a ≠ p := by intro e; subst e; rw [hpn] at hn0; cases hn0
    rw [hframe a ha hap, hn0]
  have hheadL : ∀ (s : ExecutionState) (off : Nat),
      (∀ lk, newLink h pn.pathCondition s.constraints = some lk →
        h2.pcAt (h.pcs.length + off) = some lk) →
      ((match newLink h pn.pathCondition s.constraints with
        | none => pn.pathCondition
        | some _ => some (h.pcs.length + off)) = pn.pathCondition ∨
      ∃ y lk, (match newLink h pn.pathCondition s.constraints with
        | none => pn.pathCondition
        | some _ => some (h.pcs.length + off)) = some y ∧ h2.pcAt y = some lk ∧
          lk.tail = pn.pathCondition) := by
    intro s off hnew
    cases hnl : newLink h pn.pathCondition s.constraints with
    | none => left; rfl
    | some lk =>
      right
      obtain ⟨c, _, hlkeq⟩ := newLink_some h _ _ lk hnl
      exact ⟨_, lk, rfl, hnew lk hnl, by rw [hlkeq]⟩
  refine ⟨pn, sl, sr, lsP, hpn, hsl, hsr, hlsP, ?_, ?_⟩
  · apply wf_intro
    · intro a n hn
      have halt := nodeAt_lt hn
      by_cases ha : a < h.nodes.length
      · cases hn0 : h.nodeAt a with
        | none => rw [hnone a ha hn0] at hn; cases hn
        | some n0 => exact grow_old hwf hold hlen hp hn0 hn
      · have hcase : a = h.nodes.length ∨ a = h.nodes.length + 1 := by omega
        rcases hcase with e | e
        · subst e
          rw [hl2] at hn; cases hn
          apply nodeOK_intro
          · intro q hq
            simp only [freshNode, Option.some.injEq] at hq
            subst hq
            exact ⟨hplt, _, hp2, Or.inl rfl, hheadL sl 0 hnewL⟩
          · intro c hc; simp [freshNode] at hc
          · exact ⟨_, hcL⟩
        · subst e
          rw [hr2] at hn; cases hn
          apply nodeOK_intro
          · intro q hq
            simp only [freshNode, Option.some.injEq] at hq
            subst hq
            exact ⟨by omega, _, hp2, Or.inr rfl, hheadL sr _ hnewR⟩
          · intro c hc; simp [freshNode] at hc
          · exact ⟨_, hcR⟩
    · intro a lk t hl ht
      refine grow_link hwf _ hpcs ?_ hl ht
      intro lk1 hmem t1 ht1
      have : newLink h pn.pathCondition sl.constraints = some lk1 ∨
          newLink h pn.pathCondition sr.constraints = some lk1 := by
        simp only [List.mem_append, Option.mem_toList, Option.mem_def] at hmem
        exact hmem
      have htl : lk1.tail = pn.pathCondition := by
        rcases this with h1 | h1
        · obtain ⟨c, _, hlkeq⟩ := newLink_some h _ _ lk1 h1; rw [hlkeq]
        · obtain ⟨c, _, hlkeq⟩ := newLink_some h _ _ lk1 h1; rw [hlkeq]
      obtain ⟨l0, hl0⟩ := hhd t1 (htl ▸ ht1)
      exact pcAt_lt hl0
  · intro a n ls2 hn hch
    have halt := nodeAt_lt hn
    by_cases ha : a < h.nodes.length
    · cases hn0 : h.nodeAt a with
      | none => rw [hnone a ha hn0] at hn; cases hn
      | some n0 =>
        left
        refine ⟨n0, rfl, ?_⟩
        obtain ⟨n2, hn2, _, e2, _⟩ := hp a n0 hn0
        rw [hn] at hn2; cases hn2
        obtain ⟨ls, hls⟩ := wf_chain hwf hn0
        have := chainLinks_mono h h2 hold _ _ _ hls (h2.pcs.length + 1) (by omega)
        rw [← e2] at this
        rw [hls, chainLinks_det this hch]
    · right
      have hcase : a = h.nodes.length ∨ a = h.nodes.length + 1 := by omega
      rcases hcase with e | e
      · subst e
        rw [hl2] at hn; cases hn
        have := chainLinks_det hch hcL
        cases hnl : newLink h pn.pathCondition sl.constraints with
        | none => left; rw [this, hnl]
        | some lk => right; exact ⟨sl, lk, _, Or.inl rfl, hnl, by rw [this, hnl]⟩
      · subst e
        rw [hr2] at hn; cases hn
        have := chainLinks_det hch hcR
        cases hnl : newLink h pn.pathCondition sr.constraints with
        | none => left; rw [this, hnl]
        | some lk => right; exact ⟨sr, lk, _, Or.inr rfl, hnl, by rw [this, hnl]⟩

/-- The constructor of a tree, run on a well-formed store, leaves a
well-formed store, in which the chain of every node is its chain of before,
or has at most one link. -/
theorem root_grow {h : Heap} {sd : Nat} {t : ITree} {h1 : Heap} (hwf : wellFormed h = true)
    (hr : ITree.create h sd = .ok (t, h1)) :
    wellFormed h1 = true ∧
    ∀ a n ls1, h1.nodeAt a = some n →
      chainLinks h1 (h1.pcs.length + 1) n.pathCondition = some ls1 →
      (∃ n0, h.nodeAt a = some n0 ∧
        chainLinks h (h.pcs.length + 1) n0.pathCondition = some ls1) ∨ ls1.length ≤ 1 := by
  unfold ITree.create at hr
  obtain ⟨res, hc, hr⟩ := bind_eq_ok hr
  obtain ⟨st, hst⟩ := create_ok_state hc
  have hcc := create_child h none none sd st rfl hst (by intro hd hh; cases hh)
  rw [hcc] at hc
  cases hc
  simp only [Res.ok.injEq, Prod.mk.injEq] at hr
  obtain ⟨_, hh1⟩ := hr
  have hnodes : h1.nodes = h.nodes ++ [some (freshNode none sd
      (match newLink h none st.constraints with
        | none => none
        | some _ => some (h.pcs.length + 0)))] := by
    rw [← hh1]; cases newLink h none st.constraints <;> rfl
  have hpcs : h1.pcs = h.pcs ++ (newLink h none st.constraints).toList.map some := by
    rw [← hh1]; cases newLink h none st.constraints <;> simp
  obtain ⟨hold, hlen⟩ := grow_pcAt_old _ hpcs
  have hnold : ∀ a, a < h.nodes.length → h1.nodeAt a = h.nodeAt a := by
    intro a ha
    unfold Heap.nodeAt
    rw [hnodes, List.getElem?_append_left ha]
  have hnnew : h1.nodeAt h.nodes.length = some (freshNode none sd
      (match newLink h none st.constraints with
        | none => none
        | some _ => some (h.pcs.length + 0))) := by
    unfold Heap.nodeAt
    rw [hnodes]; simp
  have hnlen : h1.nodes.length = h.nodes.length + 1 := by rw [hnodes]; simp
  have hnew : ∀ lk, newLink h none st.constraints = some lk →
      h1.pcAt (h.pcs.length + 0) = some lk := by
    intro lk hlk
    unfold Heap.pcAt
    rw [hpcs, hlk, getElem_append_at]
    simp
  have hcR := child_chain h h1 none st.constraints 0 [] (chainLinks_none _ _) hold hlen hnew
  have hp : ∀ q qn, h.nodeAt q = some qn → ∃ qn2, h1.nodeAt q = some qn2 ∧
      qn2.parent = qn.parent ∧ qn2.pathCondition = qn.pathCondition ∧
      (∀ c, qn.left = some c → qn2.left = some c) ∧
      (∀ c, qn.right = some c → qn2.right = some c) ∧
      (∀ c, qn2.left = some c → qn2.right ≠ some c) := by
    intro q qn hqn
    refine ⟨qn, ?_, rfl, rfl, fun _ hc => hc, fun _ hc => hc, ?_⟩
    · rw [hnold q (nodeAt_lt hqn)]; exact hqn
    · intro c hc; exact wf_children hwf hqn hc
  constructor
  · apply wf_intro
    · intro a n hn
      have halt := nodeAt_lt hn
      by_cases ha : a < h.nodes.length
      · cases hn0 : h.nodeAt a with
        | none => rw [hnold a ha, hn0] at hn; cases hn
        | some n0 => exact grow_old hwf hold hlen hp hn0 hn
      · have e : a = h.nodes.length := by omega
        subst e
        rw [hnnew] at hn; cases hn
        apply nodeOK_intro
        · intro q hq; simp [freshNode] at hq
        · intro c hc; simp [freshNode] at hc
        · exact ⟨_, hcR⟩
    · intro a lk t hl ht
      refine grow_link hwf _ hpcs ?_ hl ht
      intro lk1 hmem t1 ht1
      simp only [Option.mem_toList, Option.mem_def] at hmem
      obtain ⟨c, _, hlkeq⟩ := newLink_some h _ _ lk1 hmem
      rw [hlkeq] at ht1
      cases ht1
  · intro a n ls1 hn hch
    have halt := nodeAt_lt hn
    by_cases ha : a < h.nodes.length
    · cases hn0 : h.nodeAt a with
      | none => rw [hnold a ha, hn0] at hn; cases hn
      | some n0 =>
        left
        refine ⟨n0, rfl, ?_⟩
        rw [hnold a ha, hn0] at hn; cases hn
        obtain ⟨ls, hls⟩ := wf_chain hwf hn0
        have := chainLinks_mono h h1 hold _ _ _ hls (h1.pcs.length + 1) (by omega)
        rw [hls, chainLinks_det this hch]
    · right
      have e : a = h.nodes.length := by omega
      subst e
      rw [hnnew] at hn; cases hn
      have := chainLinks_det hch hcR
      rw [this]
      cases newLink h none st.constraints <;> simp

theorem start_wf (states : List ExecutionState) :
    wellFormed { pcs := [], nodes := [], states := states } = true := by
  rfl

theorem tree_split_inv {h : Heap} {p l r : Nat} {res : Option Nat × Option Nat} {h1 : Heap}
    (hr : ITree.split h p l r = .ok (res, h1)) : ITreeNode.split h p l r = .ok h1 := by
  unfold ITree.split at hr
  obtain ⟨h2, hs, hr⟩ := bind_eq_ok hr
  obtain ⟨pn, _, hr⟩ := bind_eq_ok hr
  simp only [Res.ok.injEq, Prod.mk.injEq] at hr
  rw [hs, hr.2]

/-- The link brought by a childless node is on the chain of no other node. -/
theorem leaf_head_private {h : Heap} (hwf : wellFormed h = true) (ho : owned h)
    {d : Nat} {nd : ITreeNode} {y : Nat} (hd : h.nodeAt d = some nd)
    (hleaf : nd.left = none ∧ nd.right = none) (hy : nd.pathCondition = some y)
    (hintro : introduces h nd) :
    ∀ x n ls, x ≠ d → h.nodeAt x = some n →
      chainLinks h (h.pcs.length + 1) n.pathCondition = some ls → y ∉ ls.map Prod.fst := by
  intro x
  induction x using Nat.strong_induction_on with
  | _ x ih =>
    intro n ls hxd hn hls
    cases hp : n.parent with
    | none =>
      cases hpc : n.pathCondition with
      | none =>
        rw [hpc, chainLinks_none] at hls
        cases hls
        simp
      | some y0 =>
        rw [hpc] at hls
        obtain ⟨lk, rest, g, _, hlk, hrest, rfl⟩ := chainLinks_cons hls
        have ht := ho.2 x n y0 lk hn hp hpc hlk
        rw [ht, chainLinks_none] at hrest
        cases hrest
        intro hmem
        simp only [List.map_cons, List.map_nil, List.mem_singleton] at hmem
        subst hmem
        have hin : introduces h n := by
          intro p pn hp1; rw [hp] at hp1; cases hp1
        exact hxd (ho.1 d x nd n y hd hn hy hpc hintro hin).symm
    | some p =>
      obtain ⟨hlt, pn, hpn, hslot, hhead⟩ := wf_parent hwf hn hp
      have hpd : p ≠ d := by
        intro e
        subst e
        rw [hd] at hpn
        cases hpn
        rcases hslot with hs | hs
        · rw [hleaf.1] at hs; cases hs
        · rw [hleaf.2] at hs; cases hs
      obtain ⟨lsP, hlsP⟩ := wf_chain hwf hpn
      have ihp := ih p hlt pn lsP hpd hpn hlsP
      by_cases heq : n.pathCondition = pn.pathCondition
      · rw [heq] at hls
        rw [chainLinks_det hls hlsP]
        exact ihp
      · rcases hhead with e | ⟨l, lk, e1, e2, e3⟩
        · exact absurd e heq
        · rw [e1] at hls
          obtain ⟨lk1, rest, g, _, hlk1, hrest, rfl⟩ := chainLinks_cons hls
          rw [e2] at hlk1
          cases hlk1
          rw [e3] at hrest
          have := chainLinks_det hrest hlsP
          subst this
          intro hmem
          simp only [List.map_cons, List.mem_cons] at hmem
          rcases hmem with e | e
          · subst e
            have hin : introduces h n := by
              intro p1 pn1 hp1 hpn1
              rw [hp] at hp1
              cases hp1
              rw [hpn] at hpn1
              cases hpn1
              exact heq
            exact hxd (ho.1 d x nd n y hd hn hy e1 hintro hin).symm
          · exact ihp e

/-- The chain of a node that is left is the chain it had. -/
theorem subStore_chain {h h2 : Heap} (hwf : wellFormed h = true) (hs : SubStore h h2)
    {a : Nat} {n2 : ITreeNode} (hn2 : h2.nodeAt a = some n2) :
    ∃ n ls, h.nodeAt a = some n ∧ n2.parent = n.parent ∧
      n2.pathCondition = n.pathCondition ∧
      chainLinks h (h.pcs.length + 1) n.pathCondition = some ls ∧
      chainLinks h2 (h2.pcs.length + 1) n2.pathCondition = some ls := by
  obtain ⟨n, hn, e1, e2⟩ := hs.nodes a n2 hn2
  obtain ⟨ls, hls⟩ := wf_chain hwf hn
  refine ⟨n, ls, hn, e1, e2, hls, ?_⟩
  rw [hs.pcsLen, e2]
  apply chainLinks_congr h h2 _ _ _ hls
  intro y hy
  rw [chainLinks_mem hls hy]
  exact hs.chains a n2 ls hn2 (e2 ▸ hls) y hy

theorem subStore_wf {h h2 : Heap} (hwf : wellFormed h = true) (hs : SubStore h h2) :
    wellFormed h2 = true := by
  apply wf_intro
  · intro a n2 hn2
    obtain ⟨n, ls, hn, e1, e2, hls, hls2⟩ := subStore_chain hwf hs hn2
    apply nodeOK_intro
    · intro p hp
      obtain ⟨hlt, pn, hpn, _, hhead⟩ := wf_parent hwf hn (e1 ▸ hp)
      obtain ⟨pn2, hpn2, hslot⟩ := hs.held a n2 p hn2 hp
      obtain ⟨pn0, hpn0, _, f2⟩ := hs.nodes p pn2 hpn2
      rw [hpn] at hpn0
      cases hpn0
      refine ⟨hlt, pn2, hpn2, hslot, ?_⟩
      rcases hhead with e | ⟨l, lk, g1, g2, g3⟩
      · left; rw [e2, f2, e]
      · right
        refine ⟨l, lk, by rw [e2, g1], ?_, by rw [f2, g3]⟩
        rw [g1] at hls
        obtain ⟨lk1, rest, g, _, hlk1, _, rfl⟩ := chainLinks_cons hls
        rw [g2] at hlk1
        cases hlk1
        have := hs.chains a n2 _ hn2 (by rw [e2, g1]; exact hls) (l, lk) (by simp)
        exact this
    · intro c hc
      exact hs.kids a n2 c hn2 hc
    · exact ⟨ls, hls2⟩
  · intro a l t hl ht
    exact wf_link hwf (hs.links a l hl) ht

theorem subStore_introduces {h h2 : Heap} (hs : SubStore h h2) {a : Nat} {n n2 : ITreeNode}
    (hn : h.nodeAt a = some n) (hn2 : h2.nodeAt a = some n2)
    (hi : introduces h2 n2) : introduces h n := by
  obtain ⟨n0, hn0, e1, e2⟩ := hs.nodes a n2 hn2
  rw [hn] at hn0
  cases hn0
  intro p pn hp hpn
  obtain ⟨pn2, hpn2, _⟩ := hs.held a n2 p hn2 (e1.trans hp)
  obtain ⟨pn0, hpn0, _, f2⟩ := hs.nodes p pn2 hpn2
  rw [hpn] at hpn0
  cases hpn0
  have := hi p pn2 (e1.trans hp) hpn2
  rw [e2, f2] at this
  exact this

theorem subStore_owned {h h2 : Heap} (hs : SubStore h h2) (ho : owned h) : owned h2 := by
  constructor
  · intro d e nd ne y hd he hdy hey hid hie
    obtain ⟨nd0, hd0, _, d2⟩ := hs.nodes d nd hd
    obtain ⟨ne0, he0, _, e2⟩ := hs.nodes e ne he
    exact ho.1 d e nd0 ne0 y hd0 he0 (d2 ▸ hdy) (e2 ▸ hey)
      (subStore_introduces hs hd0 hd hid) (subStore_introduces hs he0 he hie)
  · intro a n2 y lk hn2 hp hy hlk
    obtain ⟨n, hn, e1, e2⟩ := hs.nodes a n2 hn2
    exact ho.2 a n y lk hn (e1 ▸ hp) (e2 ▸ hy) (hs.links y lk hlk)

theorem subStore_distinct {h h2 : Heap} (hwf : wellFormed h = true) (hs : SubStore h h2)
    (hd : distinctChains h) : distinctChains h2 := by
  intro a n2 ls2 hn2 hls2
  obtain ⟨n, ls, hn, _, _, hls, hls2a⟩ := subStore_chain hwf hs hn2
  rw [chainLinks_det hls2 hls2a]
  exact hd a n ls hn hls

theorem sameShape_introduces {h h1 : Heap} (hs : SameShape h h1) {n n1 : ITreeNode}
    (e1 : n1.parent = n.parent) (e4 : n1.pathCondition = n.pathCondition)
    (hi : introduces h1 n1) : introduces h n := by
  intro p pn hp hpn
  obtain ⟨pn1, hpn1, _, _, _, f4⟩ := sameShape_node hs hpn
  have := hi p pn1 (e1.trans hp) hpn1
  rw [e4, f4] at this
  exact this

theorem sameShape_owned {h h1 : Heap} (hs : SameShape h h1) (ho : owned h) : owned h1 := by
  have hs1 := sameShape_symm hs
  constructor
  · intro d e nd ne y hd he hdy hey hid hie
    obtain ⟨nd0, hd0, d1, _, _, d4⟩ := sameShape_node hs1 hd
    obtain ⟨ne0, he0, e1, _, _, e4⟩ := sameShape_node hs1 he
    exact ho.1 d e nd0 ne0 y hd0 he0 (d4.trans hdy) (e4.trans hey)
      (sameShape_introduces hs d1.symm d4.symm hid)
      (sameShape_introduces hs e1.symm e4.symm hie)
  · intro a n1 y lk1 hn1 hp hy hlk1
    obtain ⟨n, hn, e1, _, _, e4⟩ := sameShape_node hs1 hn1
    obtain ⟨lk, hlk, _, ht⟩ := sameShape_link hs1 hlk1
    rw [← ht]
    exact ho.2 a n y lk hn (e1.trans hp) (e4.trans hy) hlk

/-- A split keeps every chain head with the one node that brought it. -/
theorem split_owned {h : Heap} {p l r : Nat} {h2 : Heap} (hwf : wellFormed h = true)
    (ho : owned h) (hr : ITreeNode.split h p l r = .ok h2) : owned h2 := by
  obtain ⟨pn, sl, sr, hpn, hleaf, hsl, hsr⟩ := split_inv hwf hr
  have hhd := wf_head hwf hpn
  obtain ⟨h2a, hrun, hp2, hl2, hr2, hpcs, hframe, hlen2, _, _, _⟩ :=
    split_spec h p l r pn sl sr hpn hleaf hsl hsr hhd
  rw [hrun] at hr
  cases hr
  obtain ⟨hold, hlen⟩ := grow_pcAt_old _ hpcs
  have hplt := nodeAt_lt hpn
  -- the nodes of before, as they are now
  have hp : ∀ q qn, h.nodeAt q = some qn → ∃ qn2, h2.nodeAt q = some qn2 ∧
      qn2.parent = qn.parent ∧ qn2.pathCondition = qn.pathCondition := by
    intro q qn hqn
    by_cases hqp : q = p
    · subst hqp
      rw [hpn] at hqn; cases hqn
      exact ⟨_, hp2, rfl, rfl⟩
    · refine ⟨qn, ?_, rfl, rfl⟩
      rw [hframe q (nodeAt_lt hqn) hqp]; exact hqn
  have hnone : ∀ a, a < h.nodes.length → h.nodeAt a = none → h2.nodeAt a = none := by
    intro a ha hn0
    have hap : a ≠ p := by intro e; subst e; rw [hpn] at hn0; cases hn0
    rw [hframe a ha hap, hn0]
  -- every node is one of before, or one of the two children
  have hclass : ∀ a n2, h2.nodeAt a = some n2 →
      (a < h.nodes.length ∧ ∃ n0, h.nodeAt a = some n0 ∧ n2.parent = n0.parent ∧
        n2.pathCondition = n0.pathCondition) ∨
      (h.nodes.length ≤ a ∧ n2.parent = some p ∧ (n2.pathCondition = pn.pathCondition ∨
        ∃ k, n2.pathCondition = some (h.pcs.length + k) ∧
          (a = h.nodes.length →
            k = 0 ∧ (newLink h pn.pathCondition sl.constraints).toList.length = 1) ∧
          (a ≠ h.nodes.length →
            k = (newLink h pn.pathCondition sl.constraints).toList.length))) := by
    intro a n2 hn2
    have halt := nodeAt_lt hn2
    by_cases ha : a < h.nodes.length
    · left
      cases hn0 : h.nodeAt a with
      | none => rw [hnone a ha hn0] at hn2; cases hn2
      | some n0 =>
        obtain ⟨q2, hq2, e1, e2⟩ := hp a n0 hn0
        rw [hn2] at hq2; cases hq2
        exact ⟨ha, n0, rfl, e1, e2⟩
    · right
      refine ⟨by omega, ?_⟩
      have hcase : a = h.nodes.length ∨ a = h.nodes.length + 1 := by omega
      rcases hcase with e | e
      · subst e
        rw [hl2] at hn2; cases hn2
        refine ⟨rfl, ?_⟩
        cases hnl : newLink h pn.pathCondition sl.constraints with
        | none => left; rfl
        | some lk => right; exact ⟨0, rfl, fun _ => ⟨rfl, rfl⟩, fun hne => absurd rfl hne⟩
      · subst e
        rw [hr2] at hn2; cases hn2
        refine ⟨rfl, ?_⟩
        cases hnr : newLink h pn.pathCondition sr.constraints with
        | none => left; rfl
        | some lk =>
          right
          exact ⟨_, rfl, fun hne => absurd hne (by omega), fun _ => rfl⟩
  have hintro : ∀ a n2 n0, h2.nodeAt a = some n2 → h.nodeAt a = some n0 →
      n2.parent = n0.parent → n2.pathCondition = n0.pathCondition →
      introduces h2 n2 → introduces h n0 := by
    intro a n2 n0 hn2 hn0 e1 e2 hi q qn hq hqn
    obtain ⟨qn2, hqn2, _, f2⟩ := hp q qn hqn
    have := hi q qn2 (e1.trans hq) hqn2
    rw [e2, f2] at this
    exact this
  have hnewhead : ∀ a n2, h2.nodeAt a = some n2 → h.nodes.length ≤ a →
      n2.parent = some p → introduces h2 n2 → n2.pathCondition ≠ pn.pathCondition := by
    intro a n2 hn2 _ hpar hi
    exact hi p { pn with left := some h.nodes.length, right := some (h.nodes.length + 1) }
      hpar hp2
  constructor
  · intro d e nd ne y hd he hdy hey hid hie
    rcases hclass d nd hd with ⟨hdl, nd0, hd0, d1, d2⟩ | ⟨hdl, dpar, dhead⟩
    · have hylt : y < h.pcs.length := by
        obtain ⟨lk, hlk⟩ := wf_head hwf hd0 y (d2 ▸ hdy)
        exact pcAt_lt hlk
      rcases hclass e ne he with ⟨hel, ne0, he0, e1, e2⟩ | ⟨hel, epar, ehead⟩
      · exact ho.1 d e nd0 ne0 y hd0 he0 (d2 ▸ hdy) (e2 ▸ hey)
          (hintro d nd nd0 hd hd0 d1 d2 hid) (hintro e ne ne0 he he0 e1 e2 hie)
      · rcases ehead with e3 | ⟨k, e3, _⟩
        · exact absurd e3 (hnewhead e ne he hel epar hie)
        · rw [e3] at hey
          cases hey
          omega
    · rcases dhead with d3 | ⟨k, d3, dk1, dk2⟩
      · exact absurd d3 (hnewhead d nd hd hdl dpar hid)
      · rcases hclass e ne he with ⟨hel, ne0, he0, e1, e2⟩ | ⟨hel, epar, ehead⟩
        · have hylt : y < h.pcs.length := by
            obtain ⟨lk, hlk⟩ := wf_head hwf he0 y (e2 ▸ hey)
            exact pcAt_lt hlk
          rw [d3] at hdy
          cases hdy
          omega
        · rcases ehead with e3 | ⟨k2, e3, ek1, ek2⟩
          · exact absurd e3 (hnewhead e ne he hel epar hie)
          · rw [d3] at hdy
            rw [e3] at hey
            cases hdy
            simp only [Option.some.injEq, Nat.add_left_cancel_iff] at hey
            have hd2 := nodeAt_lt hd
            have he2 := nodeAt_lt he
            by_cases c1 : d = h.nodes.length
            · by_cases c2 : e = h.nodes.length
              · omega
              · have a1 := dk1 c1
                have a2 := ek2 c2
                omega
            · by_cases c2 : e = h.nodes.length
              · have a1 := dk2 c1
                have a2 := ek1 c2
                omega
              · omega
  · intro a n2 y lk hn2 hpar hy hlk
    rcases hclass a n2 hn2 with ⟨hal, n0, hn0, e1, e2⟩ | ⟨_, apar, _⟩
    · have hylt : y < h.pcs.length := by
        obtain ⟨lk0, hlk0⟩ := wf_head hwf hn0 y (e2 ▸ hy)
        exact pcAt_lt hlk0
      rw [hold y hylt] at hlk
      exact ho.2 a n0 y lk hn0 (e1 ▸ hpar) (e2 ▸ hy) hlk
    · rw [apar] at hpar
      cases hpar

/-- The constructor of a tree keeps every chain head with the one node that
brought it. -/
theorem root_owned {h : Heap} {sd : Nat} {t : ITree} {h1 : Heap} (hwf : wellFormed h = true)
    (ho : owned h) (hr : ITree.create h sd = .ok (t, h1)) : owned h1 := by
  unfold ITree.create at hr
  obtain ⟨res, hc, hr⟩ := bind_eq_ok hr
  obtain ⟨st, hst⟩ := create_ok_state hc
  have hcc := create_child h none none sd st rfl hst (by intro hd hh; cases hh)
  rw [hcc] at hc
  cases hc
  simp only [Res.ok.injEq, Prod.mk.injEq] at hr
  obtain ⟨_, hh1⟩ := hr
  have hnodes : h1.nodes = h.nodes ++ [some (freshNode none sd
      (match newLink h none st.constraints with
        | none => none
        | some _ => some (h.pcs.length + 0)))] := by
    rw [← hh1]; cases newLink h none st.constraints <;> rfl
  have hpcs : h1.pcs = h.pcs ++ (newLink h none st.constraints).toList.map some := by
    rw [← hh1]; cases newLink h none st.constraints <;> simp
  obtain ⟨hold, hlen⟩ := grow_pcAt_old _ hpcs
  have hnold : ∀ a, a < h.nodes.length → h1.nodeAt a = h.nodeAt a := by
    intro a ha
    unfold Heap.nodeAt
    rw [hnodes, List.getElem?_append_left ha]
  have hnnew : h1.nodeAt h.nodes.length = some (freshNode none sd
      (match newLink h none st.constraints with
        | none => none
        | some _ => some (h.pcs.length + 0))) := by
    unfold Heap.nodeAt
    rw [hnodes]; simp
  have hnlen : h1.nodes.length = h.nodes.length + 1 := by rw [hnodes]; simp
  have hnew : ∀ lk, newLink h none st.constraints = some lk →
      h1.pcAt (h.pcs.length + 0) = some lk := by
    intro lk hlk
    unfold Heap.pcAt
    rw [hpcs, hlk, getElem_append_at]
    simp
  have hclass : ∀ a n1, h1.nodeAt a = some n1 →
      (a < h.nodes.length ∧ h.nodeAt a = some n1) ∨
      (a = h.nodes.length ∧ n1 = freshNode none sd
        (match newLink h none st.constraints with
          | none => none
          | some _ => some (h.pcs.length + 0))) := by
    intro a n1 hn1
    have halt := nodeAt_lt hn1
    by_cases ha : a < h.nodes.length
    · left; rw [hnold a ha] at hn1; exact ⟨ha, hn1⟩
    · right
      have e : a = h.nodes.length := by omega
      subst e
      rw [hnnew] at hn1; cases hn1
      exact ⟨rfl, rfl⟩
  have hintro : ∀ a n, h.nodeAt a = some n → introduces h1 n → introduces h n := by
    intro a n hn hi q qn hq hqn
    exact hi q qn hq (by rw [hnold q (nodeAt_lt hqn)]; exact hqn)
  have hnewhead : ∀ y, (freshNode none sd
        (match newLink h none st.constraints with
          | none => none
          | some _ => some (h.pcs.length + 0))).pathCondition = some y →
      y = h.pcs.length ∧ ∃ lk, newLink h none st.constraints = some lk := by
    intro y hy
    cases hnl : newLink h none st.constraints with
    | none => simp [freshNode, hnl] at hy
    | some lk =>
      simp [freshNode, hnl] at hy
      exact ⟨hy.symm, lk, rfl⟩
  have holdhead : ∀ a n y, h.nodeAt a = some n → n.pathCondition = some y →
      y < h.pcs.length := by
    intro a n y hn hy
    obtain ⟨lk, hlk⟩ := wf_head hwf hn y hy
    exact pcAt_lt hlk
  constructor
  · intro d e nd ne y hd he hdy hey hid hie
    rcases hclass d nd hd with ⟨hdl, hd0⟩ | ⟨hdl, hdn⟩
    · rcases hclass e ne he with ⟨hel, he0⟩ | ⟨hel, hen⟩
      · exact ho.1 d e nd ne y hd0 he0 hdy hey (hintro d nd hd0 hid) (hintro e ne he0 hie)
      · have := holdhead d nd y hd0 hdy
        rw [hen] at hey
        have := (hnewhead y hey).1
        omega
    · rcases hclass e ne he with ⟨hel, he0⟩ | ⟨hel, hen⟩
      · have := holdhead e ne y he0 hey
        rw [hdn] at hdy
        have := (hnewhead y hdy).1
        omega
      · omega
  · intro a n1 y lk hn1 hpar hy hlk
    rcases hclass a n1 hn1 with ⟨hal, hn0⟩ | ⟨hal, hnn⟩
    · have hylt := holdhead a n1 y hn0 hy
      rw [hold y hylt] at hlk
      exact ho.2 a n1 y lk hn0 hpar hy hlk
    · rw [hnn] at hy
      obtain ⟨e, lk1, hlk1⟩ := hnewhead y hy
      subst e
      have := hnew lk1 hlk1
      rw [Nat.add_zero, hlk] at this
      cases this
      obtain ⟨c, _, hlkeq⟩ := newLink_some h _ _ lk hlk1
      rw [hlkeq]

theorem deref_eq_ok {α : Type} {o : Option α} {a : α} (hd : deref o = .ok a) : o = some a := by
  cases o with
  | none => simp [deref] at hd
  | some b => simp [deref] at hd; rw [hd]

/-- What the destructor of a childless node does to the links: nothing, or it
deletes the chain head the node brought. -/
theorem delete_pcs {h : Heap} (hwf : wellFormed h = true) {d : Nat} {nd : ITreeNode}
    (hd : h.nodeAt d = some nd) {h1 : Heap} (hr : ITreeNode.delete h d = .ok h1) :
    h1.nodes = h.nodes.set d none ∧
    (h1.pcs = h.pcs ∨
      ∃ y, nd.pathCondition = some y ∧ introduces h nd ∧ h1.pcs = h.pcs.set y none) := by
  unfold ITreeNode.delete at hr
  rw [hd] at hr
  simp only [deref_some, bind_ok] at hr
  obtain ⟨hX, hXe, hr⟩ := bind_eq_ok hr
  simp only [Res.ok.injEq] at hr
  subst hr
  cases hp : nd.parent with
  | none =>
    rw [hp] at hXe
    simp only [Res.ok.injEq] at hXe
    subst hXe
    exact ⟨rfl, Or.inl rfl⟩
  | some pa =>
    obtain ⟨_, pn, hpn, _, _⟩ := wf_parent hwf hd hp
    rw [hp] at hXe
    simp only [hpn, deref_some, bind_ok] at hXe
    by_cases hne : nd.pathCondition ≠ pn.pathCondition
    · rw [if_pos hne] at hXe
      cases hpc : nd.pathCondition with
      | none =>
        rw [hpc] at hXe
        simp only [Heap.deletePc, Res.ok.injEq] at hXe
        subst hXe
        exact ⟨rfl, Or.inl rfl⟩
      | some y =>
        rw [hpc] at hXe
        unfold Heap.deletePc at hXe
        cases hlk : h.pcAt y with
        | none => simp [hlk] at hXe
        | some lk =>
          simp only [hlk, Res.ok.injEq] at hXe
          subst hXe
          refine ⟨rfl, Or.inr ⟨y, rfl, ?_, rfl⟩⟩
          intro p1 pn1 hp1 hpn1
          rw [hp] at hp1
          cases hp1
          rw [hpn] at hpn1
          cases hpn1
          exact hne
    · rw [if_neg hne] at hXe
      simp only [Res.ok.injEq] at hXe
      subst hXe
      exact ⟨rfl, Or.inl rfl⟩

/-- The destructor of a childless node leaves a sub-store. -/
theorem delete_sub {h : Heap} (hwf : wellFormed h = true) (ho : owned h) {d : Nat}
    {nd : ITreeNode} (hd : h.nodeAt d = some nd) (hleaf : nd.left = none ∧ nd.right = none)
    {h1 : Heap} (hr : ITreeNode.delete h d = .ok h1) :
    SubStore h h1 ∧ h1.nodeAt d = none ∧ (∀ x, x ≠ d → h1.nodeAt x = h.nodeAt x) ∧
      h1.nodes.length = h.nodes.length := by
  obtain ⟨hnodes, hpcs⟩ := delete_pcs hwf hd hr
  have hdlt := nodeAt_lt hd
  have hnode : ∀ x, h1.nodeAt x = if d = x ∧ d < h.nodes.length then none else h.nodeAt x := by
    intro x
    have := nodeAt_set h d x none
    unfold Heap.nodeAt at this ⊢
    rw [hnodes]
    exact this
  have hdead : h1.nodeAt d = none := by rw [hnode]; simp [hdlt]
  have hsame : ∀ x, x ≠ d → h1.nodeAt x = h.nodeAt x := by
    intro x hx
    rw [hnode]
    have : ¬ (d = x ∧ d < h.nodes.length) := fun hh => hx hh.1.symm
    rw [if_neg this]
  have hlive : ∀ a n2, h1.nodeAt a = some n2 → a ≠ d ∧ h.nodeAt a = some n2 := by
    intro a n2 hn2
    have had : a ≠ d := by intro e; subst e; rw [hdead] at hn2; cases hn2
    exact ⟨had, by rw [← hsame a had]; exact hn2⟩
  have hlink : ∀ y l, h1.pcAt y = some l → h.pcAt y = some l := by
    intro y l hl
    rcases hpcs with e | ⟨y0, _, _, e⟩
    · unfold Heap.pcAt at hl ⊢; rw [← e]; exact hl
    · have := pcAt_set h y0 y none
      unfold Heap.pcAt at this hl ⊢
      rw [e, this] at hl
      split at hl
      · cases hl
      · exact hl
  have hkept : ∀ y l, h.pcAt y = some l →
      (∀ y0, nd.pathCondition = some y0 → introduces h nd → y ≠ y0) → h1.pcAt y = some l := by
    intro y l hl hne
    rcases hpcs with e | ⟨y0, hy0, hi0, e⟩
    · unfold Heap.pcAt at hl ⊢; rw [e]; exact hl
    · have := pcAt_set h y0 y none
      unfold Heap.pcAt at this hl ⊢
      rw [e, this]
      have hn : ¬ (y0 = y ∧ y0 < h.pcs.length) := fun hh => hne y0 hy0 hi0 hh.1.symm
      rw [if_neg hn]
      exact hl
  refine ⟨⟨?_, hlink, ?_, ?_, ?_, ?_⟩, hdead, hsame, by rw [hnodes]; simp⟩
  · rcases hpcs with e | ⟨y0, _, _, e⟩
    · rw [e]
    · rw [e]; simp
  · intro a n2 hn2
    exact ⟨n2, (hlive a n2 hn2).2, rfl, rfl⟩
  · intro a n2 c hn2 hc
    exact wf_children hwf (hlive a n2 hn2).2 hc
  · intro a n2 p hn2 hp
    obtain ⟨had, hn⟩ := hlive a n2 hn2
    obtain ⟨_, pn, hpn, hslot, _⟩ := wf_parent hwf hn hp
    have hpd : p ≠ d := by
      intro e
      subst e
      rw [hd] at hpn
      cases hpn
      rcases hslot with hs | hs
      · rw [hleaf.1] at hs; cases hs
      · rw [hleaf.2] at hs; cases hs
    exact ⟨pn, by rw [hsame p hpd]; exact hpn, hslot⟩
  · intro a n2 ls hn2 hls x hx
    obtain ⟨had, hn⟩ := hlive a n2 hn2
    apply hkept x.1 x.2 (chainLinks_mem hls hx)
    intro y0 hy0 hi0 e
    have hpriv := leaf_head_private hwf ho hd hleaf hy0 hi0 a n2 ls had hn hls
    apply hpriv
    rw [← e]
    exact List.mem_map.mpr ⟨x, hx, rfl⟩

/-- Clearing the slot that held a deleted child leaves a sub-store. -/
theorem clear_sub {h : Heap} (hwf : wellFormed h = true) {p d : Nat} {pn pn1 : ITreeNode}
    (hpn : h.nodeAt p = some pn) (hdead : h.nodeAt d = none)
    (hclr : (pn.left = some d ∧ pn1 = { pn with left := none }) ∨
      (pn.right = some d ∧ pn1 = { pn with right := none })) :
    SubStore h (h.setNode p pn1) ∧ (h.setNode p pn1).nodeAt p = some pn1 := by
  have hplt := nodeAt_lt hpn
  have hnode : ∀ x, (h.setNode p pn1).nodeAt x
      = if p = x ∧ p < h.nodes.length then some pn1 else h.nodeAt x := by
    intro x
    exact nodeAt_set h p x (some pn1)
  have hpar : pn1.parent = pn.parent ∧ pn1.pathCondition = pn.pathCondition := by
    rcases hclr with ⟨_, e⟩ | ⟨_, e⟩ <;> rw [e] <;> exact ⟨rfl, rfl⟩
  have hat : (h.setNode p pn1).nodeAt p = some pn1 := by
    rw [hnode]; simp [hplt]
  have hoff : ∀ x, x ≠ p → (h.setNode p pn1).nodeAt x = h.nodeAt x := by
    intro x hx
    rw [hnode]
    have : ¬ (p = x ∧ p < h.nodes.length) := fun hh => hx hh.1.symm
    rw [if_neg this]
  have hlive : ∀ a n2, (h.setNode p pn1).nodeAt a = some n2 →
      ∃ n, h.nodeAt a = some n ∧ n2.parent = n.parent ∧
        n2.pathCondition = n.pathCondition ∧ (a ≠ p → n2 = n) ∧ (a = p → n2 = pn1) := by
    intro a n2 hn2
    by_cases hap : a = p
    · subst hap
      rw [hat] at hn2
      cases hn2
      exact ⟨pn, hpn, hpar.1, hpar.2, fun hne => absurd rfl hne, fun _ => rfl⟩
    · rw [hoff a hap] at hn2
      exact ⟨n2, hn2, rfl, rfl, fun _ => rfl, fun e => absurd e hap⟩
  refine ⟨⟨rfl, fun y l hl => hl, ?_, ?_, ?_, ?_⟩, hat⟩
  · intro a n2 hn2
    obtain ⟨n, hn, e1, e2, _⟩ := hlive a n2 hn2
    exact ⟨n, hn, e1, e2⟩
  · intro a n2 c hn2 hc
    obtain ⟨n, hn, _, _, f1, f2⟩ := hlive a n2 hn2
    by_cases hap : a = p
    · have := f2 hap
      subst this
      rcases hclr with ⟨_, e⟩ | ⟨_, e⟩
      · rw [e] at hc; cases hc
      · rw [e]; simp
    · have := f1 hap
      subst this
      exact wf_children hwf hn hc
  · intro a n2 q hn2 hq
    obtain ⟨n, hn, e1, _, _, _⟩ := hlive a n2 hn2
    obtain ⟨_, qn, hqn, hslot, _⟩ := wf_parent hwf hn (e1 ▸ hq)
    have had : a ≠ d := by intro e; subst e; rw [hdead] at hn; cases hn
    by_cases hqp : q = p
    · subst hqp
      rw [hpn] at hqn
      cases hqn
      refine ⟨pn1, hat, ?_⟩
      rcases hclr with ⟨hl, e⟩ | ⟨hr, e⟩
      · rcases hslot with hs | hs
        · rw [hl] at hs; cases hs; exact absurd rfl had
        · right; rw [e]; exact hs
      · rcases hslot with hs | hs
        · left; rw [e]; exact hs
        · rw [hr] at hs; cases hs; exact absurd rfl had
    · exact ⟨qn, by rw [hoff q hqp]; exact hqn, hslot⟩
  · intro a n2 ls hn2 hls x hx
    exact chainLinks_mem hls hx

/-- The loop of `remove`, started on a childless node of a well-formed store
in which every chain head has one owner, leaves such a store, with the chains
of the nodes that are left unchanged. -/
theorem removeLoop_sound :
    ∀ (fuel : Nat) (t : ITree) (h : Heap) (d : Nat) (nd : ITreeNode) (t1 : ITree) (h1 : Heap),
      wellFormed h = true → owned h → h.nodeAt d = some nd →
      nd.left = none ∧ nd.right = none → removeLoop fuel t h d = .ok (t1, h1) →
      wellFormed h1 = true ∧ owned h1 ∧ (distinctChains h → distinctChains h1) := by
  intro fuel
  induction fuel with
  | zero =>
    intro t h d nd t1 h1 _ _ _ _ hr
    simp [removeLoop] at hr
  | succ f ih =>
    intro t h d nd t1 h1 hwf ho hd hleaf hr
    unfold removeLoop at hr
    rw [hd] at hr
    simp only [deref_some, bind_ok] at hr
    obtain ⟨tabled, _, hr⟩ := bind_eq_ok hr
    obtain ⟨t2, _, hr⟩ := bind_eq_ok hr
    obtain ⟨hA, hdel, hr⟩ := bind_eq_ok hr
    obtain ⟨hsub, hdead, hsame, hlen⟩ := delete_sub hwf ho hd hleaf hdel
    have hwfA := subStore_wf hwf hsub
    have hoA := subStore_owned hsub ho
    have hdA := subStore_distinct hwf hsub
    cases hp : nd.parent with
    | none =>
      rw [hp] at hr
      simp only [Res.ok.injEq, Prod.mk.injEq] at hr
      rw [← hr.2]
      exact ⟨hwfA, hoA, hdA⟩
    | some p =>
      rw [hp] at hr
      simp only at hr
      obtain ⟨pn, hpnA, hr⟩ := bind_eq_ok hr
      have hpn := deref_eq_ok hpnA
      obtain ⟨pn1, hclr, hr⟩ := bind_eq_ok hr
      have hclr2 : (pn.left = some d ∧ pn1 = { pn with left := none }) ∨
          (pn.right = some d ∧ pn1 = { pn with right := none }) := by
        by_cases c1 : pn.left = some d
        · rw [if_pos c1] at hclr
          simp only [Res.ok.injEq] at hclr
          exact Or.inl ⟨c1, hclr.symm⟩
        · rw [if_neg c1] at hclr
          by_cases c2 : pn.right = some d
          · rw [if_pos c2] at hclr
            simp only [Res.ok.injEq] at hclr
            exact Or.inr ⟨c2, hclr.symm⟩
          · rw [if_neg c2] at hclr
            cases hclr
      obtain ⟨hsub2, hat⟩ := clear_sub hwfA hpn hdead hclr2
      have hwfB := subStore_wf hwfA hsub2
      have hoB := subStore_owned hsub2 hoA
      have hdB := subStore_distinct hwfA hsub2
      by_cases hl : pn1.left = none ∧ pn1.right = none
      · rw [if_pos hl] at hr
        obtain ⟨r1, r2, r3⟩ := ih t2 _ p pn1 t1 h1 hwfB hoB hat hl hr
        exact ⟨r1, r2, fun hdist => r3 (hdB (hdA hdist))⟩
      · rw [if_neg hl] at hr
        simp only [Res.ok.injEq, Prod.mk.injEq] at hr
        rw [← hr.2]
        exact ⟨hwfB, hoB, fun hdist => hdB (hdA hdist)⟩

/-- A call of `remove` that returns keeps the store well-formed, every chain
head with one owner, and the chains free of repeated constraints. -/
theorem remove_sound {t : ITree} {h : Heap} {node : Option Nat} {t1 : ITree} {h1 : Heap}
    (hwf : wellFormed h = true) (ho : owned h) (hr : t.remove h node = .ok (t1, h1)) :
    wellFormed h1 = true ∧ owned h1 ∧ (distinctChains h → distinctChains h1) := by
  unfold ITree.remove at hr
  obtain ⟨a, ha, hr⟩ := bind_eq_ok hr
  obtain ⟨n, hn, hr⟩ := bind_eq_ok hr
  by_cases hl : n.left = none ∧ n.right = none
  · rw [if_pos hl] at hr
    exact removeLoop_sound _ t h a n t1 h1 hwf ho (deref_eq_ok hn) hl hr
  · rw [if_neg hl] at hr
    cases hr

theorem start_owned (states : List ExecutionState) :
    owned { pcs := [], nodes := [], states := states } := by
  constructor
  · intro d e nd ne y hd
    simp [Heap.nodeAt] at hd
  · intro a n y lk hn
    simp [Heap.nodeAt] at hn

/-- Every store the driver reaches is well-formed, with one owner for every
chain head. -/
theorem built_sound {adm : Heap → Option Nat → List Expr → Bool} {h : Heap}
    (hb : Built adm h) : wellFormed h = true ∧ owned h := by
  induction hb with
  | start states => exact ⟨start_wf states, start_owned states⟩
  | edit h states _ ih =>
    exact ⟨sameShape_wf ih.1 (edit_shape h states), sameShape_owned (edit_shape h states) ih.2⟩
  | root h sd t h1 _ hr ih => exact ⟨(root_grow ih.1 hr).1, root_owned ih.1 ih.2 hr⟩
  | split h p l r res h1 _ hr _ ih =>
    obtain ⟨_, _, _, _, _, _, _, _, hwf, _⟩ := split_grow ih.1 (tree_split_inv hr)
    exact ⟨hwf, split_owned ih.1 ih.2 (tree_split_inv hr)⟩
  | mark h t core h1 _ hr ih =>
    exact ⟨sameShape_wf ih.1 (mark_shape ih.1 hr), sameShape_owned (mark_shape ih.1 hr) ih.2⟩
  | check h t solver state timeout b h1 s1 _ hr ih =>
    exact ⟨sameShape_wf ih.1 (check_shape hr), sameShape_owned (check_shape hr) ih.2⟩
  | locate h a pp h1 _ hr ih =>
    exact ⟨sameShape_wf ih.1 (locate_shape hr), sameShape_owned (locate_shape hr) ih.2⟩
  | remove h t node t1 h1 _ hr ih =>
    obtain ⟨r1, r2, _⟩ := remove_sound ih.1 ih.2 hr
    exact ⟨r1, r2⟩

theorem built_wf {adm : Heap → Option Nat → List Expr → Bool} {h : Heap}
    (hb : Built adm h) : wellFormed h = true :=
  (built_sound hb).1

theorem sameShape_distinct {h h1 : Heap} (hwf : wellFormed h = true) (hs : SameShape h h1)
    (hd : distinctChains h) : distinctChains h1 := by
  intro a n1 ls1 hn1 hch1
  obtain ⟨n, hn, _, _, _, e4⟩ := sameShape_node (sameShape_symm hs) hn1
  obtain ⟨ls, hls⟩ := wf_chain hwf hn
  obtain ⟨ls2, hls2, hm⟩ := sameShape_chain hs _ _ _ hls
  rw [e4, ← hs.2.1] at hls2
  have := chainLinks_det hch1 hls2
  subst this
  have hd1 := hd a n ls hn hls
  have hm2 := congrArg (List.map Prod.snd) hm
  simp only [List.map_map] at hm2
  have e : (ls1.map fun x => x.2.constraint) = ls.map fun x => x.2.constraint := hm2
  rw [e]; exact hd1

theorem newLink_off_chain {h : Heap} {pc : Option Nat} {cs : List Expr} {lk : PathCondition}
    {ls : List (Nat × PathCondition)} (hnl : newLink h pc cs = some lk)
    (hch : chainLinks h (h.pcs.length + 1) pc = some ls) (hf : freshLast h pc cs = true) :
    lk.constraint ∉ ls.map fun x => x.2.constraint := by
  obtain ⟨c, hc, hlkeq⟩ := newLink_some h _ _ lk hnl
  have hfl : ∀ x ∈ ls.tail, x.2.constraint ≠ c := by
    unfold freshLast at hf
    simpa [hc, hch] using hf
  have hlc : lk.constraint = c := by rw [hlkeq]
  rw [hlc]
  cases pc with
  | none =>
    rw [chainLinks_none] at hch
    cases hch
    simp
  | some hd =>
    obtain ⟨l, rest, g, _, hl, _, rfl⟩ := chainLinks_cons hch
    have hne : l.constraint ≠ c := by
      intro e
      unfold newLink at hnl
      simp [hc, hl, e] at hnl
    intro hmem
    simp only [List.map_cons, List.mem_cons, List.mem_map] at hmem
    rcases hmem with e | ⟨x, hx, e⟩
    · exact hne e.symm
    · exact hfl x hx e

/-- Chains stay free of repeated constraints as long as the states handed to
`split` meet `freshLast`. -/
theorem built_distinct {h : Heap} (hb : Built freshLast h) : distinctChains h := by
  induction hb with
  | start states =>
    intro a n ls hn _
    simp [Heap.nodeAt] at hn
  | edit h states hb ih => exact sameShape_distinct (built_wf hb) (edit_shape h states) ih
  | root h sd t h1 hb hr ih =>
    intro a n ls hn hch
    rcases (root_grow (built_wf hb) hr).2 a n ls hn hch with ⟨n0, hn0, hch0⟩ | hlen
    · exact ih a n0 ls hn0 hch0
    · match ls, hlen with
      | [], _ => simp
      | [x], _ => simp
  | split h p l r res h1 hb hr hadm ih =>
    obtain ⟨pn, sl, sr, lsP, hpn, hsl, hsr, hlsP, _, hdesc⟩ :=
      split_grow (built_wf hb) (tree_split_inv hr)
    intro a n ls hn hch
    rcases hdesc a n ls hn hch with ⟨n0, hn0, hch0⟩ | e | ⟨s, lk, y, hs, hnl, e⟩
    · exact ih a n0 ls hn0 hch0
    · rw [e]; exact ih p pn lsP hpn hlsP
    · rw [e]
      have hf : freshLast h pn.pathCondition s.constraints = true := by
        rcases hs with e1 | e1
        · rw [e1]; exact hadm pn sl hpn (Or.inl hsl)
        · rw [e1]; exact hadm pn sr hpn (Or.inr hsr)
      simp only [List.map_cons, List.nodup_cons]
      exact ⟨newLink_off_chain hnl hlsP hf, ih p pn lsP hpn hlsP⟩
  | mark h t core h1 hb hr ih =>
    exact sameShape_distinct (built_wf hb) (mark_shape (built_wf hb) hr) ih
  | check h t solver state timeout b h1 s1 hb hr ih =>
    exact sameShape_distinct (built_wf hb) (check_shape hr) ih
  | locate h a pp h1 hb hr ih =>
    exact sameShape_distinct (built_wf hb) (locate_shape hr) ih
  | remove h t node t1 h1 hb hr ih =>
    exact (remove_sound (built_sound hb).1 (built_sound hb).2 hr).2.2 ih

/-- The interpolant of the entry of a node whose chain head is live is the
list of the flagged constraints of its chain. -/
theorem entry_interpolant {h : Heap} {x : Nat} {e : SubsumptionTableEntry} {m : ITreeNode}
    {ls : List (Nat × PathCondition)} (hm : h.nodeAt x = some m)
    (hch : chainLinks h (h.pcs.length + 1) m.pathCondition = some ls)
    (he : entryOf h x = some e) :
    e.interpolant = (ls.filter fun x => x.2.inInterpolant).map fun x => x.2.constraint := by
  unfold entryOf at he
  rw [hm] at he
  simp only at he
  cases hpc : m.pathCondition with
  | none => simp [hpc, PathCondition.packInterpolant] at he
  | some y =>
    rw [hpc] at he hch
    have := packInterpolantLoop_chain h _ _ [] _ hch
    have hp : PathCondition.packInterpolant h (some y)
        = .ok ((ls.filter fun x => x.2.inInterpolant).map fun x => x.2.constraint) := by
      show packInterpolantLoop h (h.pcs.length + 1) (some y) [] = _
      rw [this]; simp
    rw [hp] at he
    simp only [Option.some.injEq] at he
    rw [← he]

theorem erase_bind {σ α β : Type} (x : Exit σ α) (f : α → Exit σ β) :
    (x.bind f).erase = x.erase.bind fun a => (f a).erase := by
  cases x <;> rfl

theorem erase_ofRes {σ α : Type} (s : σ) (r : Res α) : (Exit.ofRes s r).erase = r := by
  cases r <;> rfl

theorem erase_under {σ τ α : Type} (f : σ → τ) (x : Exit σ α) :
    (x.under f).erase = x.erase := by
  cases x <;> rfl

theorem erase_abort {σ α : Type} {x : Exit σ α} (hx : x.erase = .abort) :
    ∃ s, x = .abort s := by
  cases x with
  | ok a => simp [Exit.erase] at hx
  | abort s => exact ⟨s, rfl⟩
  | fault => simp [Exit.erase] at hx
  | diverge => simp [Exit.erase] at hx

/-- Without the state of the abort, `splitExit` is `split`. -/
theorem splitExit_erase (h : Heap) (p l r : Nat) :
    (ITreeNode.splitExit h p l r).erase = ITreeNode.split h p l r := by
  unfold ITreeNode.splitExit ITreeNode.split
  rw [erase_bind, erase_ofRes]
  congr 1
  funext n
  split
  · rw [erase_bind, erase_ofRes]
    congr 1
    funext x
    rw [erase_bind, erase_ofRes]
    congr 1
    funext ls
    simp only
    rw [erase_bind, erase_ofRes]
    congr 1
    funext y
    rw [erase_bind, erase_ofRes]
    congr 1
    funext n1
    rw [erase_bind, erase_ofRes]
    rfl
  · rfl

theorem tree_splitExit_erase (t : ITree) (h : Heap) (p l r : Nat) :
    (ITree.splitExit t h p l r).erase = ITree.split h p l r := by
  unfold ITree.splitExit ITree.split
  rw [erase_bind, erase_under, splitExit_erase]
  congr 1
  funext h1
  rw [erase_bind, erase_ofRes]
  rfl

theorem checkExit_erase (t : ITree) (h : Heap) (solver : TimingSolver)
    (state : ExecutionState) (timeout : Nat) :
    (t.checkCurrentStateSubsumptionExit h solver state timeout).erase
      = t.checkCurrentStateSubsumption h solver state timeout := by
  unfold ITree.checkCurrentStateSubsumptionExit ITree.checkCurrentStateSubsumption
  split
  · rw [erase_ofRes]
  · rfl

theorem removeLoopExit_erase :
    ∀ (fuel : Nat) (t : ITree) (h : Heap) (node : Nat),
      (removeLoopExit fuel t h node).erase = removeLoop fuel t h node := by
  intro fuel
  induction fuel with
  | zero => intro t h node; rfl
  | succ f ih =>
    intro t h node
    unfold removeLoopExit removeLoop
    rw [erase_bind, erase_ofRes]
    congr 1
    funext n
    rw [erase_bind, erase_ofRes]
    congr 1
    funext tabled
    rw [erase_bind, erase_ofRes]
    congr 1
    funext t1
    rw [erase_bind, erase_ofRes]
    congr 1
    funext h1
    cases n.parent with
    | none => rfl
    | some p =>
      simp only
      rw [erase_bind, erase_ofRes]
      congr 1
      funext pn
      rw [erase_bind]
      congr 1
      · split
        · rfl
        · split <;> rfl
      · funext pn1
        split
        · exact ih _ _ _
        · rfl

theorem removeExit_erase (t : ITree) (h : Heap) (node : Option Nat) :
    (t.removeExit h node).erase = t.remove h node := by
  unfold ITree.removeExit ITree.remove
  rw [erase_bind, erase_ofRes]
  congr 1
  funext a
  rw [erase_bind, erase_ofRes]
  congr 1
  funext n
  split
  · exact removeLoopExit_erase _ _ _ _
  · rfl

/-- The store at the failed assertion of `split` is the store of before. -/
theorem splitExit_abort (h : Heap) (p l r : Nat) :
    (∀ pn, h.nodeAt p = some pn → (pn.left ≠ none ∨ pn.right ≠ none) →
      ITreeNode.splitExit h p l r = .abort h) ∧
    (∀ s, ITreeNode.splitExit h p l r = .abort s → s = h) := by
  have hfwd : ∀ pn, h.nodeAt p = some pn → (pn.left ≠ none ∨ pn.right ≠ none) →
      ITreeNode.splitExit h p l r = .abort h := by
    intro pn hpn hch
    unfold ITreeNode.splitExit
    rw [hpn]
    simp only [deref, Exit.ofRes, Exit.bind]
    rw [if_neg]
    rintro ⟨h1, h2⟩
    rcases hch with h3 | h3
    · exact h3 h1
    · exact h3 h2
  refine ⟨hfwd, ?_⟩
  intro s hs
  have he : ITreeNode.split h p l r = .abort := by
    rw [← splitExit_erase, hs]; rfl
  obtain ⟨pn, hpn, hch⟩ := (split_abort_iff h p l r).mp he
  rw [hfwd pn hpn hch] at hs
  cases hs
  rfl

theorem tree_splitExit_abort (t : ITree) (h : Heap) (p l r : Nat) :
    (∀ pn, h.nodeAt p = some pn → (pn.left ≠ none ∨ pn.right ≠ none) →
      ITree.splitExit t h p l r = .abort (t, h)) ∧
    (∀ s, ITree.splitExit t h p l r = .abort s → s = (t, h)) := by
  have hfwd : ∀ pn, h.nodeAt p = some pn → (pn.left ≠ none ∨ pn.right ≠ none) →
      ITree.splitExit t h p l r = .abort (t, h) := by
    intro pn hpn hch
    unfold ITree.splitExit
    rw [(splitExit_abort h p l r).1 pn hpn hch]
    rfl
  refine ⟨hfwd, ?_⟩
  intro s hs
  have he : ITree.split h p l r = .abort := by
    rw [← tree_splitExit_erase t, hs]; rfl
  rw [tree_split_abort_iff] at he
  obtain ⟨pn, hpn, hch⟩ := (split_abort_iff h p l r).mp he
  rw [hfwd pn hpn hch] at hs
  cases hs
  rfl

theorem checkExit_abort (t : ITree) (h : Heap) (solver : TimingSolver)
    (state : ExecutionState) (timeout : Nat) :
    (state.itreeNode ≠ t.currentINode →
      t.checkCurrentStateSubsumptionExit h solver state timeout = .abort (t, h, solver)) ∧
    (∀ s, t.checkCurrentStateSubsumptionExit h solver state timeout = .abort s →
      s = (t, h, solver)) := by
  have hfwd : state.itreeNode ≠ t.currentINode →
      t.checkCurrentStateSubsumptionExit h solver state timeout = .abort (t, h, solver) := by
    intro hne
    unfold ITree.checkCurrentStateSubsumptionExit
    rw [if_neg hne]
  refine ⟨hfwd, ?_⟩
  intro s hs
  have he : t.checkCurrentStateSubsumption h solver state timeout = .abort := by
    rw [← checkExit_erase, hs]; rfl
  rw [hfwd ((check_abort_iff t h solver state timeout).mp he)] at hs
  cases hs
  rfl

theorem removeExit_abort (t : ITree) (h : Heap) (p : Nat) (pn : ITreeNode)
    (hpn : h.nodeAt p = some pn) :
    ((pn.left ≠ none ∨ pn.right ≠ none) → t.removeExit h (some p) = .abort (t, h)) ∧
    (wellFormed h = true → ∀ s, t.removeExit h (some p) = .abort s → s = (t, h)) := by
  have hfwd : (pn.left ≠ none ∨ pn.right ≠ none) →
      t.removeExit h (some p) = .abort (t, h) := by
    intro hch
    unfold ITree.removeExit
    simp only [deref, Exit.ofRes, Exit.bind, hpn]
    rw [if_neg]
    rintro ⟨h1, h2⟩
    rcases hch with h3 | h3
    · exact h3 h1
    · exact h3 h2
  refine ⟨hfwd, ?_⟩
  intro hwf s hs
  have he : t.remove h (some p) = .abort := by
    rw [← removeExit_erase, hs]; rfl
  have hch : pn.left ≠ none ∨ pn.right ≠ none := by
    by_contra hno
    have hleaf : pn.left = none ∧ pn.right = none := by
      constructor
      · by_contra h1; exact hno (Or.inl h1)
      · by_contra h1; exact hno (Or.inr h1)
    obtain ⟨t1, h1, _, hr, _⟩ := remove_spec t h p pn hwf hpn hleaf
    rw [hr] at he
    cases he
  rw [hfwd hch] at hs
  cases hs
  rfl

/-! ## The claims -/

/-- Claim C1: when the state's node carries a program point other than the
entry's, `subsumed` returns false and hands back the store and the solver
exactly as it got them: no call was logged on the solver (no `evaluate`, no
`setTimeout`) and no flag of any link was touched. -/
theorem subsumed_other_point (e : SubsumptionTableEntry) (h : Heap) (solver : TimingSolver)
    (state : ExecutionState) (timeout : Nat) (na : Nat) (n : ITreeNode)
    (hs : state.itreeNode = some na) (hn : h.nodeAt na = some n)
    (hid : n.nodeId ≠ e.nodeId) :
    e.subsumed h solver state timeout = .ok (false, h, solver) := by
  unfold SubsumptionTableEntry.subsumed
  simp [hs, hn, hid]

/-- Witness of C1 on `exHeap`, with the entry of program point 8. -/
theorem subsumed_other_point_witness :
    exEntryElsewhere.subsumed exHeap exSolverPass exState 5
      = .ok (false, exHeap, exSolverPass) :=
  subsumed_other_point exEntryElsewhere exHeap exSolverPass exState 5 0
    { parent := none, left := none, right := none, nodeId := 7,
      isSubsumed := false, data := 0, pathCondition := some 1 }
    (by decide) (by decide) (by decide)

/-- Claim C2: all-or-nothing marking. Whenever `subsumed` returns false,
whatever the solver answered before, the store it leaves is the store it
got; in particular every link has the same in-interpolant flag as before. -/
theorem subsumed_false_keeps_flags (e : SubsumptionTableEntry) (h : Heap)
    (solver : TimingSolver) (state : ExecutionState) (timeout : Nat)
    (h1 : Heap) (s1 : TimingSolver)
    (hr : e.subsumed h solver state timeout = .ok (false, h1, s1)) :
    h1 = h ∧ ∀ a, (h1.pcAt a).map (fun l => l.inInterpolant)
      = (h.pcAt a).map (fun l => l.inInterpolant) := by
  have := subsumed_false_heap hr
  subst this
  exact ⟨rfl, fun _ => rfl⟩

/-- Witness of C2: the first query passes with unsat core `[10]`, the second
one is not valid, and the flags of both links stay unset. -/
theorem subsumed_false_keeps_flags_witness :
    exEntry.subsumed exHeap exSolverFail exState 5
        = .ok (false, exHeap, exSolverFailAfter) ∧
      ∀ a, (exHeap.pcAt a).map (fun l => l.inInterpolant)
        = (exHeap.pcAt a).map (fun l => l.inInterpolant) :=
  ⟨by decide,
   (subsumed_false_keeps_flags exEntry exHeap exSolverFail exState 5 exHeap exSolverFailAfter
      (by decide)).2⟩

/-- Claim C3: on a state whose node (if it has one) is live with a chain that
ends and carries every unsat-core constraint the solver returns, `subsumed`
returns; it returns true exactly when the state has a node at the entry's
program point and each interpolant constraint, in order, gets a successful
answer of validity `True`; at the entry's program point the `evaluate`
queries it makes are the interpolant constraints in order up to and including
the first one that is unsuccessful or not `True`; elsewhere the solver is not
called. -/
theorem subsumed_true_iff (e : SubsumptionTableEntry) (h : Heap) (solver : TimingSolver)
    (state : ExecutionState) (timeout : Nat)
    (hnode : ∀ na, state.itreeNode = some na → ∃ n ls, h.nodeAt na = some n ∧
      chainLinks h (h.pcs.length + 1) n.pathCondition = some ls ∧
      ∀ a ∈ (passing solver.script).take e.interpolant.length, ∀ c ∈ a.core,
        c ∈ ls.map (fun x => x.2.constraint)) :
    ∃ b h1 s1, e.subsumed h solver state timeout = .ok (b, h1, s1) ∧
      (b = true ↔ e.samePoint h state ∧
        ∀ i, i < e.interpolant.length →
          ∃ a, solver.script[i]? = some a ∧ a.success = true ∧
            a.validity = Validity.True) ∧
      (e.samePoint h state → ∃ l, s1.log = solver.log ++ l ∧
        evalQueries l = e.interpolant.take ((passing solver.script).length + 1)) ∧
      (¬ e.samePoint h state → s1 = solver) := by
  obtain ⟨b, h1, s1, hr, hb, hq, hn, _, _⟩ := subsumed_spec e h solver state timeout hnode
  refine ⟨b, h1, s1, hr, ?_, hq, hn⟩
  rw [hb, passing_length_iff]

/-- Witness of C3: both queries pass, the cores `[10]` and `[11, 10]` lie on
the chain of the node. -/
theorem subsumed_true_iff_witness :
    ∃ b h1 s1, exEntry.subsumed exHeap exSolverPass exState 5 = .ok (b, h1, s1) ∧
      (b = true ↔ exEntry.samePoint exHeap exState ∧
        ∀ i, i < exEntry.interpolant.length →
          ∃ a, exSolverPass.script[i]? = some a ∧ a.success = true ∧
            a.validity = Validity.True) ∧
      (exEntry.samePoint exHeap exState → ∃ l, s1.log = exSolverPass.log ++ l ∧
        evalQueries l
          = exEntry.interpolant.take ((passing exSolverPass.script).length + 1)) ∧
      (¬ exEntry.samePoint exHeap exState → s1 = exSolverPass) :=
  subsumed_true_iff exEntry exHeap exSolverPass exState 5 (by
    intro na hna
    refine ⟨{ parent := none, left := none, right := none, nodeId := 7,
              isSubsumed := false, data := 0, pathCondition := some 1 },
            [(1, ⟨⟨11⟩, false, some 0⟩), (0, ⟨⟨10⟩, false, none⟩)], ?_, by decide, by decide⟩
    have : na = 0 := by
      have h0 : exState.itreeNode = some 0 := rfl
      rw [h0] at hna; cases hna; rfl
    subst this
    decide)

/-- Claim C4: `checkCurrentStateSubsumption` on a state sitting on the current
node. The entries are tried in table order, each on the solver as the
previous failing check left it. If the entries before `e` all fail and the
check of `e` succeeds, the call returns true with the current node marked
subsumed and with the solver as the check of `e` left it (no later entry is
tried); if all entries fail it returns false with the store unchanged; the
call returns true or false in no other way; with an empty table it returns
false and the solver is not called. -/
theorem checkCurrentStateSubsumption_scan (t : ITree) (h : Heap) (solver : TimingSolver)
    (state : ExecutionState) (timeout : Nat)
    (hcur : state.itreeNode = t.currentINode) :
    (∀ pre e post s0 h0 s1, t.subsumptionTable = pre ++ e :: post →
      failAll state timeout h pre solver = some s0 →
      e.subsumed h s0 state timeout = .ok (true, h0, s1) →
      ∃ c n, t.currentINode = some c ∧ h0.nodeAt c = some n ∧
        t.checkCurrentStateSubsumption h solver state timeout
          = .ok (true, h0.setNode c { n with isSubsumed := true }, s1)) ∧
    (∀ s1, failAll state timeout h t.subsumptionTable solver = some s1 →
      t.checkCurrentStateSubsumption h solver state timeout = .ok (false, h, s1)) ∧
    (∀ h1 s1, t.checkCurrentStateSubsumption h solver state timeout = .ok (true, h1, s1) →
      ∃ pre e post s0 h0 c n, t.subsumptionTable = pre ++ e :: post ∧
        failAll state timeout h pre solver = some s0 ∧
        e.subsumed h s0 state timeout = .ok (true, h0, s1) ∧
        t.currentINode = some c ∧ h0.nodeAt c = some n ∧
        h1 = h0.setNode c { n with isSubsumed := true }) ∧
    (∀ h1 s1, t.checkCurrentStateSubsumption h solver state timeout = .ok (false, h1, s1) →
      failAll state timeout h t.subsumptionTable solver = some s1 ∧ h1 = h) ∧
    (t.subsumptionTable = [] →
      t.checkCurrentStateSubsumption h solver state timeout = .ok (false, h, solver)) := by
  refine ⟨?_, ?_, ?_, ?_, ?_⟩
  · intro pre e post s0 h0 s1 htab hpre he
    obtain ⟨na, n, hna, _, hn0⟩ := subsumed_true_node he
    have hc : t.currentINode = some na := by rw [← hcur]; exact hna
    refine ⟨na, n, hc, hn0, ?_⟩
    unfold ITree.checkCurrentStateSubsumption
    rw [if_pos hcur, htab, checkLoop_append t state timeout h (e :: post) pre solver s0 hpre]
    simp [checkLoop, he, hc, hn0, deref, Res.bind]
  · intro s1 hall
    unfold ITree.checkCurrentStateSubsumption
    rw [if_pos hcur]
    have := checkLoop_append t state timeout h [] t.subsumptionTable solver s1 hall
    rw [List.append_nil] at this
    rw [this]; rfl
  · intro h1 s1 hr
    unfold ITree.checkCurrentStateSubsumption at hr
    rw [if_pos hcur] at hr
    exact (checkLoop_returns t state timeout h _ _ _ _ _ hr).1 rfl
  · intro h1 s1 hr
    unfold ITree.checkCurrentStateSubsumption at hr
    rw [if_pos hcur] at hr
    exact (checkLoop_returns t state timeout h _ _ _ _ _ hr).2 rfl
  · intro hnil
    unfold ITree.checkCurrentStateSubsumption
    rw [if_pos hcur, hnil]; rfl

/-- Witness of C4: the entry of the other program point fails without a
query, `exEntry` then succeeds and the node is marked subsumed. -/
theorem checkCurrentStateSubsumption_scan_witness :
    exState.itreeNode = exTree.currentINode ∧
    exTree.checkCurrentStateSubsumption exHeap exSolverPass exState 5
      = .ok (true, exHeapSubsumed, exSolverPassAfter) ∧
    ∃ c n, exTree.currentINode = some c ∧ exHeapFlagged.nodeAt c = some n ∧
      exTree.checkCurrentStateSubsumption exHeap exSolverPass exState 5
        = .ok (true, exHeapFlagged.setNode c { n with isSubsumed := true },
            exSolverPassAfter) :=
  ⟨by decide, by decide,
   (checkCurrentStateSubsumption_scan exTree exHeap exSolverPass exState 5 (by decide)).1
     [exEntryElsewhere] exEntry [] exSolverPass exHeapFlagged exSolverPassAfter
     (by decide) (by decide) (by decide)⟩

/-- Claim C5: cascading removal. In a well-formed store, `remove` of a leaf
`a` returns, and the nodes it deletes are exactly those of the cascade of the
specification (`a`, then each ancestor that has thereby become childless):
they are gone afterwards, the first ancestor that still has a child keeps its
record with only the slot of the deleted child cleared, and every other node
is as before. -/
theorem remove_cascade (t : ITree) (h : Heap) (a : Nat) (n : ITreeNode)
    (hwf : wellFormed h = true) (hn : h.nodeAt a = some n)
    (hleaf : n.left = none ∧ n.right = none) :
    ∃ t1 h1, t.remove h (some a) = .ok (t1, h1) ∧
      a ∈ (cascade h (h.nodes.length + 1) a).1 ∧
      (∀ x ∈ (cascade h (h.nodes.length + 1) a).1, h1.nodeAt x = none) ∧
      (∀ q c, (cascade h (h.nodes.length + 1) a).2 = some (q, c) → ∃ qn,
        h.nodeAt q = some qn ∧ h1.nodeAt q = some (clearSlot qn c) ∧
        ((clearSlot qn c).left ≠ none ∨ (clearSlot qn c).right ≠ none)) ∧
      (∀ x, x ∉ (cascade h (h.nodes.length + 1) a).1 →
        (∀ c, (cascade h (h.nodes.length + 1) a).2 ≠ some (x, c)) →
        h1.nodeAt x = h.nodeAt x) := by
  obtain ⟨t1, h1, es, hr, _, _, _, _, hdead, hframe, hstop⟩ := remove_spec t h a n hwf hn hleaf
  exact ⟨t1, h1, hr, cascade_head hn, hdead, hstop, hframe⟩

/-- Witness of C5 on the tree `root -> {A, B}`, `A -> {A1, A2}` built by the
constructor and two splits: `remove(A1)` deletes only A1, `remove(A2)` then
deletes A2 and A, and `remove(B)` then deletes B and the root. -/
theorem remove_cascade_witness :
    famBuild = .ok (famTree, famHeap) ∧
    (cascade famHeap 6 3 = ([3], some (1, 3)) ∧
      famTree.remove famHeap (some 3) = .ok (famTree, famHeap1)) ∧
    (cascade famHeap1 6 4 = ([4, 1], some (0, 1)) ∧
      famTree.remove famHeap1 (some 4) = .ok (famTree, famHeap2)) ∧
    (cascade famHeap2 6 2 = ([2, 0], none) ∧
      famTree.remove famHeap2 (some 2) = .ok (famTree, famHeap3)) ∧
    ∃ t1 h1, famTree.remove famHeap (some 3) = .ok (t1, h1) ∧
      3 ∈ (cascade famHeap (famHeap.nodes.length + 1) 3).1 ∧
      (∀ x ∈ (cascade famHeap (famHeap.nodes.length + 1) 3).1, h1.nodeAt x = none) ∧
      (∀ q c, (cascade famHeap (famHeap.nodes.length + 1) 3).2 = some (q, c) → ∃ qn,
        famHeap.nodeAt q = some qn ∧ h1.nodeAt q = some (clearSlot qn c) ∧
        ((clearSlot qn c).left ≠ none ∨ (clearSlot qn c).right ≠ none)) ∧
      (∀ x, x ∉ (cascade famHeap (famHeap.nodes.length + 1) 3).1 →
        (∀ c, (cascade famHeap (famHeap.nodes.length + 1) 3).2 ≠ some (x, c)) →
        h1.nodeAt x = famHeap.nodeAt x) :=
  ⟨by decide, ⟨by decide, by decide⟩, ⟨by decide, by decide⟩, ⟨by decide, by decide⟩,
   remove_cascade famTree famHeap 3 (famNode (some 1) none none 3 (some 2))
     (by decide) (by decide) (by decide)⟩

/-- Claim C6: in a well-formed store, `remove` of a leaf `a` returns with the
old table followed by the new entries `es`: one entry for each node of the
cascade, bottom-up, that `qualifies`, and that entry is the node's `entryOf`.
A node qualifies exactly when it is not marked subsumed and the program's
`introducesMarkedConstraint` holds of it; `entryOf` is exactly what the
constructor `SubsumptionTableEntry(node)` builds (the node's program point
with the packed interpolant of its chain); a node without parent never
qualifies. -/
theorem remove_tables (t : ITree) (h : Heap) (a : Nat) (n : ITreeNode)
    (hwf : wellFormed h = true) (hn : h.nodeAt a = some n)
    (hleaf : n.left = none ∧ n.right = none) :
    ∃ t1 h1 es, t.remove h (some a) = .ok (t1, h1) ∧
      t1.subsumptionTable = t.subsumptionTable ++ es ∧
      es.map some
        = ((cascade h (h.nodes.length + 1) a).1.filter (qualifies h)).map (entryOf h) ∧
      (∀ x, qualifies h x = true ↔ ∃ m, h.nodeAt x = some m ∧ m.isSubsumed = false ∧
        m.introducesMarkedConstraint h = .ok true) ∧
      (∀ x e, entryOf h x = some e ↔ ∃ m, h.nodeAt x = some m ∧
        SubsumptionTableEntry.create h m = .ok e) ∧
      (∀ x m, h.nodeAt x = some m → m.parent = none → qualifies h x = false) := by
  obtain ⟨t1, h1, es, hr, htab, _, _, hes, _⟩ := remove_spec t h a n hwf hn hleaf
  exact ⟨t1, h1, es, hr, htab, hes, qualifies_iff h, entryOf_iff h, qualifies_root h⟩

/-- Witness of C6 on the marked tree: `remove(A1)` tables A1 with interpolant
`[3, 1]`; `remove(A2)` then deletes A2, which shares the chain head of A and
is not tabled, and A, which is tabled with interpolant `[1]`. -/
theorem remove_tables_witness :
    famTree.remove famMarked (some 3)
      = .ok ({ famTree with subsumptionTable := [⟨0, [⟨3⟩, ⟨1⟩]⟩] }, famMarked1) ∧
    ({ famTree with subsumptionTable := [⟨0, [⟨3⟩, ⟨1⟩]⟩] } : ITree).remove famMarked1 (some 4)
      = .ok ({ famTree with subsumptionTable := [⟨0, [⟨3⟩, ⟨1⟩]⟩, ⟨0, [⟨1⟩]⟩] }, famHeap2) ∧
    ∃ t1 h1 es, famTree.remove famMarked (some 3) = .ok (t1, h1) ∧
      t1.subsumptionTable = famTree.subsumptionTable ++ es ∧
      es.map some
        = ((cascade famMarked (famMarked.nodes.length + 1) 3).1.filter
            (qualifies famMarked)).map (entryOf famMarked) ∧
      (∀ x, qualifies famMarked x = true ↔ ∃ m, famMarked.nodeAt x = some m ∧
        m.isSubsumed = false ∧ m.introducesMarkedConstraint famMarked = .ok true) ∧
      (∀ x e, entryOf famMarked x = some e ↔ ∃ m, famMarked.nodeAt x = some m ∧
        SubsumptionTableEntry.create famMarked m = .ok e) ∧
      (∀ x m, famMarked.nodeAt x = some m → m.parent = none →
        qualifies famMarked x = false) :=
  ⟨by decide, by decide,
   remove_tables famTree famMarked 3 (famNode (some 1) none none 3 (some 2))
     (by decide) (by decide) (by decide)⟩

/-- Claim C7, as stated, fails: right after the split the current node of
the tree is still null, so `checkCurrentStateSubsumption` of L fails its
assertion `state.itreeNode == currentINode`, and the scenario with exactly
the listed calls does not get past its first check. -/
theorem e2e_check_before_setCurrentINode :
    ((ITree.create e2eStart 0).bind fun r0 =>
      (ITree.split r0.2 0 1 2).bind fun r1 =>
        (deref (r1.2.stateAt 1)).bind fun stL =>
          r0.1.checkCurrentStateSubsumption r1.2 idleSolver stL 10) = .abort ∧
    e2e false = .abort := by
  constructor <;> decide

/-- Claim C7, amended: with L made the current node before the first check,
the check of L against the empty table returns false, `remove(R)` leaves the
table empty, and after `markPathCondition([x > 0])` the call `remove(L)`
leaves exactly one entry, with the program point of L and interpolant
`[x > 0]`; that entry's `subsumed` returns true for a state on a node with the
same program point and chain `[x == 5]` when the solver answers the query
`x > 0` with success, validity `True` and unsat core `[x == 5]`. -/
theorem e2e_scenario :
    e2e true = .ok
      { checkL := false, tableAfterR := [], idL := 0,
        tableAfterL := [{ nodeId := 0, interpolant := [xGt0] }],
        freshId := 0, freshChain := .ok [xEq5], subsumedFresh := true,
        queries := [xGt0] } := by
  decide

/-- Claim C8: prefix sharing. Splitting a live childless node `p` whose chain
consists of live links and ends, with two existing states, returns; the
links that were in the store are untouched; the chain head of each child is
as `ChildHead` says (the parent's head itself, or a new unflagged link with
the last constraint of the child's state and the parent's head as tail, the
latter exactly when the state has a constraint and the parent's chain is
empty or its head carries another constraint); and the chain of each of the
two siblings is the parent's chain, or one link put on top of it. -/
theorem split_shares_chain (h : Heap) (p l r : Nat) (pn : ITreeNode)
    (sl sr : ExecutionState) (ls : List (Nat × PathCondition))
    (hpn : h.nodeAt p = some pn) (hleaf : pn.left = none ∧ pn.right = none)
    (hsl : h.stateAt l = some sl) (hsr : h.stateAt r = some sr)
    (hchain : chainLinks h (h.pcs.length + 1) pn.pathCondition = some ls) :
    ∃ h2 lc rc ln rn, ITreeNode.split h p l r = .ok h2 ∧
      h2.nodeAt p = some { pn with left := some lc, right := some rc } ∧
      h2.nodeAt lc = some ln ∧ h2.nodeAt rc = some rn ∧
      ln.parent = some p ∧ rn.parent = some p ∧
      (∀ a, a < h.pcs.length → h2.pcs[a]? = h.pcs[a]?) ∧
      ChildHead h h2 pn sl ln ∧ ChildHead h h2 pn sr rn ∧
      ∃ lsL lsR,
        chainLinks h2 (h2.pcs.length + 1) ln.pathCondition = some lsL ∧
        chainLinks h2 (h2.pcs.length + 1) rn.pathCondition = some lsR ∧
        (lsL = ls ∨ ∃ x, lsL = x :: ls) ∧ (lsR = ls ∨ ∃ x, lsR = x :: ls) := by
  have hhd : ∀ hd, pn.pathCondition = some hd → ∃ lk, h.pcAt hd = some lk := by
    intro hd hpc; rw [hpc] at hchain; exact chainLinks_head hchain
  obtain ⟨h2, hrun, hp2, hl2, hr2, hpcs, _, _, _, _, _⟩ :=
    split_spec h p l r pn sl sr hpn hleaf hsl hsr hhd
  have hL := child_head h h2 pn sl 0 ls _ hchain hpcs (by
    intro lk hlk
    unfold Heap.pcAt
    rw [hpcs, hlk, getElem_append_at]
    simp) (freshNode (some p) l _) rfl
  have hR := child_head h h2 pn sr
    (newLink h pn.pathCondition sl.constraints).toList.length ls _ hchain hpcs (by
    intro lk hlk
    unfold Heap.pcAt
    rw [hpcs, hlk, getElem_append_at]
    cases newLink h pn.pathCondition sl.constraints <;> simp) (freshNode (some p) r _) rfl
  obtain ⟨hL1, lsL, hL2, hL3⟩ := hL
  obtain ⟨hR1, lsR, hR2, hR3⟩ := hR
  refine ⟨h2, h.nodes.length, h.nodes.length + 1, _, _, hrun, hp2, hl2, hr2, rfl, rfl, ?_,
    hL1, hR1, lsL, lsR, hL2, hR2, hL3, hR3⟩
  intro a ha
  rw [hpcs, List.getElem?_append_left ha]

/-- Witness of C8: node B of `famHeap`, whose chain is the single link 1 with
constraint 2, is split with state 3 (last constraint 3: a new link) and with
state 2 (last constraint 2: the head of B is shared). -/
theorem split_shares_chain_witness :
    ∃ h2 lc rc ln rn, ITreeNode.split famHeap 2 3 2 = .ok h2 ∧
      h2.nodeAt 2 = some { famNode (some 0) none none 2 (some 1) with
        left := some lc, right := some rc } ∧
      h2.nodeAt lc = some ln ∧ h2.nodeAt rc = some rn ∧
      ln.parent = some 2 ∧ rn.parent = some 2 ∧
      (∀ a, a < famHeap.pcs.length → h2.pcs[a]? = famHeap.pcs[a]?) ∧
      ChildHead famHeap h2 (famNode (some 0) none none 2 (some 1))
        ⟨[⟨1⟩, ⟨3⟩], some 3⟩ ln ∧
      ChildHead famHeap h2 (famNode (some 0) none none 2 (some 1)) ⟨[⟨2⟩], some 2⟩ rn ∧
      ∃ lsL lsR,
        chainLinks h2 (h2.pcs.length + 1) ln.pathCondition = some lsL ∧
        chainLinks h2 (h2.pcs.length + 1) rn.pathCondition = some lsR ∧
        (lsL = [(1, ⟨⟨2⟩, false, none⟩)] ∨ ∃ x, lsL = x :: [(1, ⟨⟨2⟩, false, none⟩)]) ∧
        (lsR = [(1, ⟨⟨2⟩, false, none⟩)] ∨ ∃ x, lsR = x :: [(1, ⟨⟨2⟩, false, none⟩)]) :=
  split_shares_chain famHeap 2 3 2 (famNode (some 0) none none 2 (some 1))
    ⟨[⟨1⟩, ⟨3⟩], some 3⟩ ⟨[⟨2⟩], some 2⟩ [(1, ⟨⟨2⟩, false, none⟩)]
    (by decide) (by decide) (by decide) (by decide) (by decide)

/-- Claim C9: no duplicate empty growth. Let the node `p` have been made by
the constructor (as a root or as a child) from a state with constraints
`st.constraints`, and let it later, in store `h2`, be childless with the
chain head it was made with, that head (if any) a live link with the
constraint it had. Splitting `p` with two states whose constraints are still
`st.constraints` returns, gives both children the chain head of `p`, and
allocates no link. -/
theorem split_without_growth (h : Heap) (parent : Option Nat) (sd p : Nat)
    (st : ExecutionState) (h1 : Heap)
    (hst : h.stateAt sd = some st)
    (hc : ITreeNode.create h parent sd = .ok (p, h1))
    (h2 : Heap) (pn : ITreeNode) (l r : Nat) (sl sr : ExecutionState)
    (hpn : h2.nodeAt p = some pn) (hleaf : pn.left = none ∧ pn.right = none)
    (hkeep : ∀ pn1, h1.nodeAt p = some pn1 → pn.pathCondition = pn1.pathCondition)
    (hlink : ∀ hd, pn.pathCondition = some hd → ∃ lk1 lk2, h1.pcAt hd = some lk1 ∧
      h2.pcAt hd = some lk2 ∧ lk2.constraint = lk1.constraint)
    (hsl : h2.stateAt l = some sl) (hsr : h2.stateAt r = some sr)
    (hcl : sl.constraints = st.constraints) (hcr : sr.constraints = st.constraints) :
    ∃ h3 lc rc ln rn, ITreeNode.split h2 p l r = .ok h3 ∧
      h3.nodeAt p = some { pn with left := some lc, right := some rc } ∧
      h3.nodeAt lc = some ln ∧ h3.nodeAt rc = some rn ∧
      ln.pathCondition = pn.pathCondition ∧ rn.pathCondition = pn.pathCondition ∧
      h3.pcs = h2.pcs := by
  obtain ⟨pc, hnode, hhead⟩ := create_head h parent sd p st h1 hst hc
  have hpc : pn.pathCondition = pc := hkeep _ hnode
  have hhd : ∀ hd, pn.pathCondition = some hd → ∃ lk, h2.pcAt hd = some lk := by
    intro hd hh
    obtain ⟨_, lk2, _, h2l, _⟩ := hlink hd hh
    exact ⟨lk2, h2l⟩
  have hno : newLink h2 pn.pathCondition st.constraints = none := by
    apply newLink_same
    intro c hcc
    obtain ⟨a, lk, hpa, hlk, hcon⟩ := hhead c hcc
    obtain ⟨lk1, lk2, e1, e2, e3⟩ := hlink a (hpc.trans hpa)
    rw [hlk] at e1; cases e1
    exact ⟨a, lk2, hpc.trans hpa, e2, e3.trans hcon⟩
  obtain ⟨h3, hrun, hp3, hl3, hr3, hpcs, _⟩ :=
    split_spec h2 p l r pn sl sr hpn hleaf hsl hsr hhd
  rw [hcl, hno] at hl3
  rw [hcr, hno] at hr3
  rw [hcl, hcr, hno] at hpcs
  refine ⟨h3, _, _, _, _, hrun, hp3, hl3, hr3, rfl, rfl, ?_⟩
  simpa using hpcs

/-- Witness of C9: the root made from state 1 of `famStart` (constraints
`[1]`) is split with states 1 and 4, both with constraints `[1]`. -/
theorem split_without_growth_witness :
    ∃ h3 lc rc ln rn, ITreeNode.split soloHeap 0 1 4 = .ok h3 ∧
      h3.nodeAt 0 = some { freshNode none 1 (some 0) with left := some lc, right := some rc } ∧
      h3.nodeAt lc = some ln ∧ h3.nodeAt rc = some rn ∧
      ln.pathCondition = (freshNode none 1 (some 0)).pathCondition ∧
      rn.pathCondition = (freshNode none 1 (some 0)).pathCondition ∧
      h3.pcs = soloHeap.pcs :=
  split_without_growth famStart none 1 0 ⟨[⟨1⟩], none⟩ soloHeap (by decide) (by decide)
    soloHeap (freshNode none 1 (some 0)) 1 4 ⟨[⟨1⟩], none⟩ ⟨[⟨1⟩], none⟩
    (by decide) (by decide)
    (by
      intro pn1 h1
      have : soloHeap.nodeAt 0 = some (freshNode none 1 (some 0)) := by decide
      rw [this] at h1; cases h1; rfl)
    (by
      intro hd hh
      have : hd = 0 := by
        have h0 : (freshNode none 1 (some 0)).pathCondition = some 0 := rfl
        rw [h0] at hh; cases hh; rfl
      subst this
      exact ⟨⟨⟨1⟩, false, none⟩, ⟨⟨1⟩, false, none⟩, by decide, by decide, rfl⟩)
    (by decide) (by decide) rfl rfl

/-- Claim C10, as stated, fails for a first value of 0: on a node fresh from
the constructor, `setNodeLocation(0)` followed by `setNodeLocation(5)` leaves
the program point at 5, the second value. -/
theorem setNodeLocation_zero_then_five :
    ∃ h h2 h3 n, ITreeNode.create famStart none 0 = .ok (0, h) ∧
      ITreeNode.setNodeLocation h 0 0 = .ok h2 ∧
      ITreeNode.setNodeLocation h2 0 5 = .ok h3 ∧
      h3.nodeAt 0 = some n ∧ n.nodeId = 5 ∧ n.nodeId ≠ 0 :=
  ⟨{ pcs := [], nodes := [some (freshNode none 0 none)], states := famStart.states },
   { pcs := [], nodes := [some (freshNode none 0 none)], states := famStart.states },
   { pcs := [], nodes := [some { freshNode none 0 none with nodeId := 5 }],
     states := famStart.states },
   { freshNode none 0 none with nodeId := 5 },
   by decide, by decide, by decide, by decide, by decide, by decide⟩

/-- Claim C10, amended: on a node fresh from the constructor, for every first
value `a` other than 0 and every second value `b`, `setNodeLocation(a)`
followed by `setNodeLocation(b)` returns and leaves the program point at
`a`, every other field of the node being as the constructor set it. -/
theorem setNodeLocation_keeps_first (h0 : Heap) (parent : Option Nat) (sd p : Nat)
    (h : Heap) (a b : Nat)
    (hc : ITreeNode.create h0 parent sd = .ok (p, h)) (ha : a ≠ 0) :
    ∃ h2 h3 n, h.nodeAt p = some n ∧ n.nodeId = 0 ∧
      ITreeNode.setNodeLocation h p a = .ok h2 ∧
      ITreeNode.setNodeLocation h2 p b = .ok h3 ∧
      h3.nodeAt p = some { n with nodeId := a } := by
  have hst : ∃ st, h0.stateAt sd = some st := by
    unfold ITreeNode.create at hc
    cases hs : h0.stateAt sd with
    | none => simp [hs] at hc
    | some st => exact ⟨st, rfl⟩
  obtain ⟨st, hst⟩ := hst
  obtain ⟨pc, hnode, _⟩ := create_head h0 parent sd p st h hst hc
  have hp : p < h.nodes.length := nodeAt_lt hnode
  have hset : (h.setNode p { freshNode parent sd pc with nodeId := a }).nodeAt p
      = some { freshNode parent sd pc with nodeId := a } := by
    unfold Heap.setNode
    rw [nodeAt_set, if_pos ⟨rfl, hp⟩]
  refine ⟨h.setNode p { freshNode parent sd pc with nodeId := a },
    h.setNode p { freshNode parent sd pc with nodeId := a }, freshNode parent sd pc,
    hnode, rfl, ?_, ?_, hset⟩
  · simp [ITreeNode.setNodeLocation, hnode, freshNode]
  · simp [ITreeNode.setNodeLocation, hset, ha]

/-- Witness of C10 amended, with the values 7 and then 9 on the root made
from state 0 of `famStart`. -/
theorem setNodeLocation_keeps_first_witness :
    ∃ h2 h3 n, soloRoot.nodeAt 0 = some n ∧ n.nodeId = 0 ∧
      ITreeNode.setNodeLocation soloRoot 0 7 = .ok h2 ∧
      ITreeNode.setNodeLocation h2 0 9 = .ok h3 ∧
      h3.nodeAt 0 = some { n with nodeId := 7 } :=
  setNodeLocation_keeps_first famStart none 0 0 soloRoot 7 9 (by decide) (by decide)

/-- Claim C11: for a chain of live links that ends, whose links are `ls` in
the order of the walk from the head `a`, `packInterpolant` called on the head
returns the constraints of exactly the flagged links of `ls`, in that order,
one element per flagged link. The call only reads the store: it yields the
list and nothing else, so no flag changes. -/
theorem packInterpolant_flagged (h : Heap) (a : Nat) (ls : List (Nat × PathCondition))
    (hchain : chainLinks h (h.pcs.length + 1) (some a) = some ls) :
    PathCondition.packInterpolant h (some a)
      = .ok ((ls.filter fun x => x.2.inInterpolant).map fun x => x.2.constraint) := by
  show packInterpolantLoop h (h.pcs.length + 1) (some a) [] = _
  rw [packInterpolantLoop_chain h _ _ [] ls hchain]
  simp

/-- Witness of C11 on `packHeap`: of the three links, head first, the first
and the third are flagged, and the result is `[32, 30]`. -/
theorem packInterpolant_flagged_witness :
    chainLinks packHeap (packHeap.pcs.length + 1) (some 2)
      = some [(2, ⟨⟨32⟩, true, some 1⟩), (1, ⟨⟨31⟩, false, some 0⟩), (0, ⟨⟨30⟩, true, none⟩)] ∧
    PathCondition.packInterpolant packHeap (some 2) = .ok [⟨32⟩, ⟨30⟩] :=
  ⟨by decide,
   packInterpolant_flagged packHeap 2
     [(2, ⟨⟨32⟩, true, some 1⟩), (1, ⟨⟨31⟩, false, some 0⟩), (0, ⟨⟨30⟩, true, none⟩)]
     (by decide)⟩

/-- Claim C14: precondition violations end in a failed assertion and in no
other way. `ITreeNode::split` and `ITree::split` abort exactly when the node
is live and has a left or a right child; `remove` of a live node that has a
child aborts, and in a well-formed store `remove` of a live node aborts only
then; `checkCurrentStateSubsumption` aborts exactly when the state's node is
not the current node. The abort comes before any change: in the embedding
that keeps the state at a failed assertion, which without that state is the
embedding of the results, the state at the abort of a split is the store of
before the call, with the tree of before for `ITree::split`; at the abort of
a check it is the tree, the store and the solver of before; and at the abort
of `remove` of a node with a child it is the tree and the store of before,
which in a well-formed store is the only abort of `remove` (the assertion of
line 208, which comes after the node was deleted, cannot fail there). -/
theorem precondition_aborts (t : ITree) (h : Heap) (p l r : Nat) (pn : ITreeNode)
    (solver : TimingSolver) (state : ExecutionState) (timeout : Nat)
    (hpn : h.nodeAt p = some pn) :
    (ITreeNode.split h p l r = .abort ↔ (pn.left ≠ none ∨ pn.right ≠ none)) ∧
    (ITree.split h p l r = .abort ↔ (pn.left ≠ none ∨ pn.right ≠ none)) ∧
    ((pn.left ≠ none ∨ pn.right ≠ none) → t.remove h (some p) = .abort) ∧
    (wellFormed h = true →
      (t.remove h (some p) = .abort ↔ (pn.left ≠ none ∨ pn.right ≠ none)) ∧
      (pn.left = none ∧ pn.right = none → ∃ t1 h1, t.remove h (some p) = .ok (t1, h1))) ∧
    (t.checkCurrentStateSubsumption h solver state timeout = .abort
      ↔ state.itreeNode ≠ t.currentINode) ∧
    ((ITreeNode.splitExit h p l r).erase = ITreeNode.split h p l r ∧
      (ITree.splitExit t h p l r).erase = ITree.split h p l r ∧
      (t.removeExit h (some p)).erase = t.remove h (some p) ∧
      (t.checkCurrentStateSubsumptionExit h solver state timeout).erase
        = t.checkCurrentStateSubsumption h solver state timeout) ∧
    ((pn.left ≠ none ∨ pn.right ≠ none) →
      ITreeNode.splitExit h p l r = .abort h ∧
      ITree.splitExit t h p l r = .abort (t, h) ∧
      t.removeExit h (some p) = .abort (t, h)) ∧
    (state.itreeNode ≠ t.currentINode →
      t.checkCurrentStateSubsumptionExit h solver state timeout = .abort (t, h, solver)) ∧
    (∀ s, ITreeNode.splitExit h p l r = .abort s → s = h) ∧
    (∀ s, ITree.splitExit t h p l r = .abort s → s = (t, h)) ∧
    (∀ s, t.checkCurrentStateSubsumptionExit h solver state timeout = .abort s →
      s = (t, h, solver)) ∧
    (wellFormed h = true → ∀ s, t.removeExit h (some p) = .abort s → s = (t, h)) := by
  have hsplit : ITreeNode.split h p l r = .abort ↔ (pn.left ≠ none ∨ pn.right ≠ none) := by
    rw [split_abort_iff]
    constructor
    · rintro ⟨pn1, h1, h2⟩
      rw [hpn] at h1; cases h1; exact h2
    · intro h2; exact ⟨pn, hpn, h2⟩
  refine ⟨hsplit, ?_, remove_abort_of_child t h p pn hpn, ?_,
    check_abort_iff t h solver state timeout,
    ⟨splitExit_erase h p l r, tree_splitExit_erase t h p l r, removeExit_erase t h (some p),
      checkExit_erase t h solver state timeout⟩,
    fun hch => ⟨(splitExit_abort h p l r).1 pn hpn hch,
      (tree_splitExit_abort t h p l r).1 pn hpn hch, (removeExit_abort t h p pn hpn).1 hch⟩,
    (checkExit_abort t h solver state timeout).1,
    (splitExit_abort h p l r).2, (tree_splitExit_abort t h p l r).2,
    (checkExit_abort t h solver state timeout).2, (removeExit_abort t h p pn hpn).2⟩
  · rw [tree_split_abort_iff]; exact hsplit
  · intro hwf
    have hok : pn.left = none ∧ pn.right = none → ∃ t1 h1, t.remove h (some p) = .ok (t1, h1) := by
      intro hleaf
      obtain ⟨t1, h1, _, hr, _⟩ := remove_spec t h p pn hwf hpn hleaf
      exact ⟨t1, h1, hr⟩
    refine ⟨⟨?_, remove_abort_of_child t h p pn hpn⟩, hok⟩
    intro hab
    by_contra hno
    have hleaf : pn.left = none ∧ pn.right = none := by
      constructor
      · by_contra h1; exact hno (Or.inl h1)
      · by_contra h1; exact hno (Or.inr h1)
    obtain ⟨t1, h1, hr⟩ := hok hleaf
    rw [hr] at hab
    cases hab

/-- Witness of C14 on `famHeap`: node A (address 1) has two children, so the
splits and `remove` abort on it, with the store and the tree as they were;
the leaf A1 (address 3) can be split and removed; a check for a state on a
node that is not current aborts, with the solver not called. -/
theorem precondition_aborts_witness :
    (ITreeNode.split famHeap 1 3 4 = .abort ∧ ITree.split famHeap 1 3 4 = .abort ∧
      famTree.remove famHeap (some 1) = .abort ∧
      famTree.checkCurrentStateSubsumption famHeap idleSolver ⟨[⟨1⟩], some 1⟩ 5 = .abort) ∧
    (ITreeNode.splitExit famHeap 1 3 4 = .abort famHeap ∧
      ITree.splitExit famTree famHeap 1 3 4 = .abort (famTree, famHeap) ∧
      famTree.removeExit famHeap (some 1) = .abort (famTree, famHeap) ∧
      famTree.checkCurrentStateSubsumptionExit famHeap idleSolver ⟨[⟨1⟩], some 1⟩ 5
        = .abort (famTree, famHeap, idleSolver) ∧
      famTree.removeExit famHeap (some 3) = .ok (famTree, famHeap1)) ∧
    ((ITreeNode.split famHeap 3 3 4 = .abort ↔
        ((famNode (some 1) none none 3 (some 2)).left ≠ none ∨
         (famNode (some 1) none none 3 (some 2)).right ≠ none)) ∧
      (ITree.split famHeap 3 3 4 = .abort ↔
        ((famNode (some 1) none none 3 (some 2)).left ≠ none ∨
         (famNode (some 1) none none 3 (some 2)).right ≠ none)) ∧
      (((famNode (some 1) none none 3 (some 2)).left ≠ none ∨
         (famNode (some 1) none none 3 (some 2)).right ≠ none) →
        famTree.remove famHeap (some 3) = .abort) ∧
      (wellFormed famHeap = true →
        (famTree.remove famHeap (some 3) = .abort ↔
          ((famNode (some 1) none none 3 (some 2)).left ≠ none ∨
           (famNode (some 1) none none 3 (some 2)).right ≠ none)) ∧
        ((famNode (some 1) none none 3 (some 2)).left = none ∧
          (famNode (some 1) none none 3 (some 2)).right = none →
          ∃ t1 h1, famTree.remove famHeap (some 3) = .ok (t1, h1))) ∧
      (famTree.checkCurrentStateSubsumption famHeap idleSolver ⟨[], none⟩ 5 = .abort
        ↔ (⟨[], none⟩ : ExecutionState).itreeNode ≠ famTree.currentINode) ∧
      ((ITreeNode.splitExit famHeap 3 3 4).erase = ITreeNode.split famHeap 3 3 4 ∧
        (ITree.splitExit famTree famHeap 3 3 4).erase = ITree.split famHeap 3 3 4 ∧
        (famTree.removeExit famHeap (some 3)).erase = famTree.remove famHeap (some 3) ∧
        (famTree.checkCurrentStateSubsumptionExit famHeap idleSolver ⟨[], none⟩ 5).erase
          = famTree.checkCurrentStateSubsumption famHeap idleSolver ⟨[], none⟩ 5) ∧
      (((famNode (some 1) none none 3 (some 2)).left ≠ none ∨
         (famNode (some 1) none none 3 (some 2)).right ≠ none) →
        ITreeNode.splitExit famHeap 3 3 4 = .abort famHeap ∧
        ITree.splitExit famTree famHeap 3 3 4 = .abort (famTree, famHeap) ∧
        famTree.removeExit famHeap (some 3) = .abort (famTree, famHeap)) ∧
      ((⟨[], none⟩ : ExecutionState).itreeNode ≠ famTree.currentINode →
        famTree.checkCurrentStateSubsumptionExit famHeap idleSolver ⟨[], none⟩ 5
          = .abort (famTree, famHeap, idleSolver)) ∧
      (∀ s, ITreeNode.splitExit famHeap 3 3 4 = .abort s → s = famHeap) ∧
      (∀ s, ITree.splitExit famTree famHeap 3 3 4 = .abort s → s = (famTree, famHeap)) ∧
      (∀ s, famTree.checkCurrentStateSubsumptionExit famHeap idleSolver ⟨[], none⟩ 5
          = .abort s → s = (famTree, famHeap, idleSolver)) ∧
      (wellFormed famHeap = true →
        ∀ s, famTree.removeExit famHeap (some 3) = .abort s → s = (famTree, famHeap))) :=
  ⟨⟨by decide, by decide, by decide, by decide⟩,
   ⟨by decide, by decide, by decide, by decide, by decide⟩,
   precondition_aborts famTree famHeap 3 3 4 (famNode (some 1) none none 3 (some 2))
     idleSolver ⟨[], none⟩ 5 (by decide)⟩

/-- Claim C15, as stated, fails when `l` and `r` are the same state: node B
of `famHeap` split with state 3 on both sides gets the children 5 and 6, and
the back-reference of state 3 ends as the right child 6, not the left child
5. -/
theorem split_same_state :
    ∃ h2, ITree.split famHeap 2 3 3 = .ok ((some 5, some 6), h2) ∧
      h2.stateAt 3 = some ⟨[⟨1⟩, ⟨3⟩], some 6⟩ ∧
      h2.stateAt 3 ≠ some ⟨[⟨1⟩, ⟨3⟩], some 5⟩ :=
  ⟨{ pcs := famHeap.pcs ++ [some ⟨⟨3⟩, false, some 1⟩, some ⟨⟨3⟩, false, some 1⟩],
     nodes := [some (famNode none (some 1) (some 2) 0 none),
               some (famNode (some 0) (some 3) (some 4) 1 (some 0)),
               some (famNode (some 0) (some 5) (some 6) 2 (some 1)),
               some (famNode (some 1) none none 3 (some 2)),
               some (famNode (some 1) none none 4 (some 0)),
               some (famNode (some 2) none none 3 (some 3)),
               some (famNode (some 2) none none 3 (some 4))],
     states := [⟨[], none⟩, ⟨[⟨1⟩], some 1⟩, ⟨[⟨2⟩], some 2⟩, ⟨[⟨1⟩, ⟨3⟩], some 6⟩,
                ⟨[⟨1⟩], some 4⟩] },
   by decide, by decide, by decide⟩

/-- Claim C15, amended: for a live childless node `p` whose chain head, if
any, is live, and two existing states `l` and `r`, `ITree::split` returns the
pair `(p.left, p.right)` of two nodes that were not in the store before, each
with parent `p`, no children, program point 0 and subsumed flag false; `p`
keeps every field but its two child slots; afterwards the back-reference of
`r` is the right child, and that of `l` is the left child provided `l` and
`r` are different states. -/
theorem split_returns_children (h : Heap) (p l r : Nat) (pn : ITreeNode)
    (sl sr : ExecutionState)
    (hpn : h.nodeAt p = some pn) (hleaf : pn.left = none ∧ pn.right = none)
    (hsl : h.stateAt l = some sl) (hsr : h.stateAt r = some sr)
    (hhd : ∀ hd, pn.pathCondition = some hd → ∃ lk, h.pcAt hd = some lk) :
    ∃ h2 lc rc ln rn, ITree.split h p l r = .ok ((some lc, some rc), h2) ∧
      h.nodeAt lc = none ∧ h.nodeAt rc = none ∧ lc ≠ rc ∧
      h2.nodeAt lc = some ln ∧ h2.nodeAt rc = some rn ∧
      (ln.parent = some p ∧ ln.left = none ∧ ln.right = none ∧ ln.nodeId = 0 ∧
        ln.isSubsumed = false) ∧
      (rn.parent = some p ∧ rn.left = none ∧ rn.right = none ∧ rn.nodeId = 0 ∧
        rn.isSubsumed = false) ∧
      h2.nodeAt p = some { pn with left := some lc, right := some rc } ∧
      h2.stateAt r = some { sr with itreeNode := some rc } ∧
      (l ≠ r → h2.stateAt l = some { sl with itreeNode := some lc }) := by
  obtain ⟨h2, hrun, hp2, hl2, hr2, _, _, _, hsr2, hsl2, _⟩ :=
    split_spec h p l r pn sl sr hpn hleaf hsl hsr hhd
  have hdead : ∀ k, h.nodeAt (h.nodes.length + k) = none := by
    intro k
    unfold Heap.nodeAt
    rw [List.getElem?_eq_none (by omega)]; rfl
  refine ⟨h2, h.nodes.length, h.nodes.length + 1, _, _, ?_, hdead 0, hdead 1, by omega,
    hl2, hr2, ⟨rfl, rfl, rfl, rfl, rfl⟩, ⟨rfl, rfl, rfl, rfl, rfl⟩, hp2, hsr2, hsl2⟩
  unfold ITree.split
  simp only [hrun, bind_ok, hp2, deref_some]

/-- Witness of C15 amended: node B of `famHeap` split with the different
states 3 and 2. -/
theorem split_returns_children_witness :
    ∃ h2 lc rc ln rn, ITree.split famHeap 2 3 2 = .ok ((some lc, some rc), h2) ∧
      famHeap.nodeAt lc = none ∧ famHeap.nodeAt rc = none ∧ lc ≠ rc ∧
      h2.nodeAt lc = some ln ∧ h2.nodeAt rc = some rn ∧
      (ln.parent = some 2 ∧ ln.left = none ∧ ln.right = none ∧ ln.nodeId = 0 ∧
        ln.isSubsumed = false) ∧
      (rn.parent = some 2 ∧ rn.left = none ∧ rn.right = none ∧ rn.nodeId = 0 ∧
        rn.isSubsumed = false) ∧
      h2.nodeAt 2 = some { famNode (some 0) none none 2 (some 1) with
        left := some lc, right := some rc } ∧
      h2.stateAt 2 = some { (⟨[⟨2⟩], some 2⟩ : ExecutionState) with itreeNode := some rc } ∧
      (3 ≠ 2 → h2.stateAt 3
        = some { (⟨[⟨1⟩, ⟨3⟩], some 3⟩ : ExecutionState) with itreeNode := some lc }) :=
  split_returns_children famHeap 2 3 2 (famNode (some 0) none none 2 (some 1))
    ⟨[⟨1⟩, ⟨3⟩], some 3⟩ ⟨[⟨2⟩], some 2⟩ (by decide) (by decide) (by decide) (by decide)
    (by
      intro hd hh
      have : hd = 1 := by
        have h0 : (famNode (some 0) none none 2 (some 1)).pathCondition = some 1 := rfl
        rw [h0] at hh; cases hh; rfl
      subst this
      exact ⟨⟨⟨2⟩, false, none⟩, by decide⟩)

/-- Claim C19: in a well-formed store, every entry that `remove` of a leaf
appends to the table comes from a node of the cascade whose chain head is a
live link, and its interpolant is not empty: it starts with the constraint of
that head, the link the node itself introduced. -/
theorem remove_entry_head (t : ITree) (h : Heap) (a : Nat) (n : ITreeNode)
    (hwf : wellFormed h = true) (hn : h.nodeAt a = some n)
    (hleaf : n.left = none ∧ n.right = none) :
    ∃ t1 h1 es, t.remove h (some a) = .ok (t1, h1) ∧
      t1.subsumptionTable = t.subsumptionTable ++ es ∧
      ∀ e ∈ es, ∃ x m l lk rest, x ∈ (cascade h (h.nodes.length + 1) a).1 ∧
        h.nodeAt x = some m ∧ (∃ p pn, m.parent = some p ∧ h.nodeAt p = some pn ∧
          m.pathCondition ≠ pn.pathCondition) ∧
        m.pathCondition = some l ∧ h.pcAt l = some lk ∧
        e.nodeId = m.nodeId ∧ e.interpolant = lk.constraint :: rest := by
  obtain ⟨t1, h1, es, hr, htab, _, _, hes, _⟩ := remove_spec t h a n hwf hn hleaf
  refine ⟨t1, h1, es, hr, htab, ?_⟩
  intro e he
  have hin : some e ∈ es.map some := List.mem_map.mpr ⟨e, he, rfl⟩
  rw [hes] at hin
  obtain ⟨x, hx, hxe⟩ := List.mem_map.mp hin
  obtain ⟨hxp, hxq⟩ := List.mem_filter.mp hx
  obtain ⟨m, l, lk, rest, hm, hpc, hl, hid, hint⟩ := entry_head hwf hxq hxe
  refine ⟨x, m, l, lk, rest, hxp, hm, ?_, hpc, hl, hid, hint⟩
  obtain ⟨m1, hm1, _, hintro⟩ := (qualifies_iff h x).mp hxq
  rw [hm] at hm1; cases hm1
  unfold ITreeNode.introducesMarkedConstraint at hintro
  cases hp : m.parent with
  | none => simp [hp] at hintro
  | some p =>
    simp only [hp] at hintro
    cases hpn : h.nodeAt p with
    | none => simp [hpn, deref, Res.bind] at hintro
    | some pn =>
      simp only [hpn, deref_some, bind_ok] at hintro
      refine ⟨p, pn, rfl, hpn, ?_⟩
      intro heq
      simp [heq] at hintro

/-- Witness of C19 on the marked tree: `remove(A1)` appends one entry, whose
interpolant `[3, 1]` starts with the constraint 3 of the link A1 introduced. -/
theorem remove_entry_head_witness :
    famTree.remove famMarked (some 3)
      = .ok ({ famTree with subsumptionTable := [⟨0, [⟨3⟩, ⟨1⟩]⟩] }, famMarked1) ∧
    ∃ t1 h1 es, famTree.remove famMarked (some 3) = .ok (t1, h1) ∧
      t1.subsumptionTable = famTree.subsumptionTable ++ es ∧
      ∀ e ∈ es, ∃ x m l lk rest,
        x ∈ (cascade famMarked (famMarked.nodes.length + 1) 3).1 ∧
        famMarked.nodeAt x = some m ∧ (∃ p pn, m.parent = some p ∧
          famMarked.nodeAt p = some pn ∧ m.pathCondition ≠ pn.pathCondition) ∧
        m.pathCondition = some l ∧ famMarked.pcAt l = some lk ∧
        e.nodeId = m.nodeId ∧ e.interpolant = lk.constraint :: rest :=
  ⟨by decide,
   remove_entry_head famTree famMarked 3 (famNode (some 1) none none 3 (some 2))
     (by decide) (by decide) (by decide)⟩

/-- Claim C20: let the state sit on a live node whose chain `ls` consists of
live links and ends, and let every constraint of every unsat core the solver
may return be the constraint of some link of `ls`. Then `makeMarkerMap` binds
exactly the constraints of `ls`; on that map, and on every map with the same
keys that earlier lookups have left, the lookups for a returned core all find
their marker; a lookup misses exactly for a constraint that is not on the
chain; and the whole call returns, never going through a missing marker. -/
theorem subsumed_markers_found (e : SubsumptionTableEntry) (h : Heap)
    (solver : TimingSolver) (state : ExecutionState) (timeout : Nat) (na : Nat)
    (n : ITreeNode) (ls : List (Nat × PathCondition))
    (hs : state.itreeNode = some na) (hn : h.nodeAt na = some n)
    (hchain : chainLinks h (h.pcs.length + 1) n.pathCondition = some ls)
    (hcore : ∀ a ∈ solver.script, ∀ c ∈ a.core, c ∈ ls.map (fun x => x.2.constraint)) :
    (∃ m, n.makeMarkerMap h = .ok m ∧
      (∀ c, c ∈ m.keys ↔ c ∈ ls.map (fun x => x.2.constraint)) ∧
      (∀ a ∈ solver.script, ∀ m1 : MarkerMap, m1.keys = m.keys →
        ∃ m2, markCore a.core m1 = some m2 ∧ m2.keys = m.keys) ∧
      (∀ c, ∀ m1 : MarkerMap, m1.keys = m.keys →
        (MarkerMap.mayInclude c m1 = none ↔ c ∉ ls.map (fun x => x.2.constraint)))) ∧
    ∃ b h1 s1, e.subsumed h solver state timeout = .ok (b, h1, s1) := by
  obtain ⟨m, hm, hk, _⟩ := makeMarkerMapLoop_ok h _ _ [] ls hchain
  have hkeys : ∀ c, c ∈ m.keys ↔ c ∈ ls.map (fun x => x.2.constraint) := by
    intro c; rw [hk]; simp [MarkerMap.keys]
  constructor
  · refine ⟨m, hm, hkeys, ?_, ?_⟩
    · intro a ha m1 hm1
      have hsub : ∀ c ∈ a.core, c ∈ m1.keys := by
        intro c hc; rw [hm1, hkeys]; exact hcore a ha c hc
      obtain ⟨m2, h1, h2, _⟩ := markCore_of_subset hsub
      exact ⟨m2, h1, h2.trans hm1⟩
    · intro c m1 hm1
      rw [mayInclude_none_iff, hm1, hkeys]
  · have hnode : ∀ na1, state.itreeNode = some na1 → ∃ n1 ls1, h.nodeAt na1 = some n1 ∧
        chainLinks h (h.pcs.length + 1) n1.pathCondition = some ls1 ∧
        ∀ a ∈ (passing solver.script).take e.interpolant.length, ∀ c ∈ a.core,
          c ∈ ls1.map (fun x => x.2.constraint) := by
      intro na1 hna1
      rw [hs] at hna1; cases hna1
      refine ⟨n, ls, hn, hchain, ?_⟩
      intro a ha c hc
      have h1 : a ∈ passing solver.script := List.mem_of_mem_take ha
      have h2 : a ∈ solver.script := by
        unfold passing at h1
        exact (List.takeWhile_sublist _).subset h1
      exact hcore a h2 c hc
    obtain ⟨b, h1, s1, hr, _⟩ := subsumed_spec e h solver state timeout hnode
    exact ⟨b, h1, s1, hr⟩

/-- Witness of C20 on `exHeap`: both cores of `exSolverPass` lie on the
two-link chain of the node. -/
theorem subsumed_markers_found_witness :
    (∃ m, ITreeNode.makeMarkerMap exHeap
        { parent := none, left := none, right := none, nodeId := 7,
          isSubsumed := false, data := 0, pathCondition := some 1 } = .ok m ∧
      (∀ c, c ∈ m.keys ↔ c ∈ [(1, (⟨⟨11⟩, false, some 0⟩ : PathCondition)),
          (0, ⟨⟨10⟩, false, none⟩)].map (fun x => x.2.constraint)) ∧
      (∀ a ∈ exSolverPass.script, ∀ m1 : MarkerMap, m1.keys = m.keys →
        ∃ m2, markCore a.core m1 = some m2 ∧ m2.keys = m.keys) ∧
      (∀ c, ∀ m1 : MarkerMap, m1.keys = m.keys →
        (MarkerMap.mayInclude c m1 = none ↔
          c ∉ [(1, (⟨⟨11⟩, false, some 0⟩ : PathCondition)),
            (0, ⟨⟨10⟩, false, none⟩)].map (fun x => x.2.constraint)))) ∧
    ∃ b h1 s1, exEntry.subsumed exHeap exSolverPass exState 5 = .ok (b, h1, s1) :=
  subsumed_markers_found exEntry exHeap exSolverPass exState 5 0
    { parent := none, left := none, right := none, nodeId := 7,
      isSubsumed := false, data := 0, pathCondition := some 1 }
    [(1, ⟨⟨11⟩, false, some 0⟩), (0, ⟨⟨10⟩, false, none⟩)]
    (by decide) (by decide) (by decide) (by decide)

/-- Claim C13: `markPathCondition` with an empty unsat core returns the store
it got. With the current node live and its chain `ls` made of live links that
end, the call returns a store with the same nodes and states and the same
links except for flags: there is a list `marked` of links of the chain, in
chain order, the i-th of which carries the i-th core element processed (the
core read from its last element backward), so at most one link per core
element, and a link of the store differs from before only in that its flag is
set, and only if it is in `marked`. The tree object and its table are only
read. -/
theorem markPathCondition_frame (t : ITree) (h : Heap) (core : List Expr) (c : Nat)
    (n : ITreeNode) (ls : List (Nat × PathCondition))
    (hc : t.currentINode = some c) (hn : h.nodeAt c = some n)
    (hchain : chainLinks h (h.pcs.length + 1) n.pathCondition = some ls) :
    t.markPathCondition h [] = .ok h ∧
    ∃ (h1 : Heap) (marked : List (Nat × PathCondition)), t.markPathCondition h core = .ok h1 ∧ h1.nodes = h.nodes ∧
      h1.states = h.states ∧ h1.pcs.length = h.pcs.length ∧
      marked.Sublist ls ∧
      marked.map (fun x => x.2.constraint) = core.reverse.take marked.length ∧
      marked.length ≤ core.length ∧
      ∀ y, h1.pcAt y = (h.pcAt y).map (flagIf (marked.map Prod.fst) y) := by
  constructor
  · simp [ITree.markPathCondition]
  · obtain ⟨h1, hr, h2, h3, h4, h5⟩ := markPathCondition_spec t h core c n ls hc hn hchain
    refine ⟨h1, greedyLinks ls core.reverse, hr, h2, h3, h4, greedyLinks_sublist _ _,
      greedyLinks_take _ _, ?_, h5⟩
    have := congrArg List.length (greedyLinks_take ls core.reverse)
    simp only [List.length_map, List.length_take, List.length_reverse] at this
    omega

/-- Witness of C13 on `exHeap`: the core `[10, 11]`, read backward, flags the
link of 11 and then the link of 10. -/
theorem markPathCondition_frame_witness :
    exTree.markPathCondition exHeap [] = .ok exHeap ∧
    ∃ (h1 : Heap) (marked : List (Nat × PathCondition)), exTree.markPathCondition exHeap [⟨10⟩, ⟨11⟩] = .ok h1 ∧
      h1.nodes = exHeap.nodes ∧ h1.states = exHeap.states ∧
      h1.pcs.length = exHeap.pcs.length ∧
      marked.Sublist [(1, (⟨⟨11⟩, false, some 0⟩ : PathCondition)), (0, ⟨⟨10⟩, false, none⟩)] ∧
      marked.map (fun x => x.2.constraint)
        = ([⟨10⟩, ⟨11⟩] : List Expr).reverse.take marked.length ∧
      marked.length ≤ ([⟨10⟩, ⟨11⟩] : List Expr).length ∧
      ∀ y, h1.pcAt y = (exHeap.pcAt y).map (flagIf (marked.map Prod.fst) y) :=
  markPathCondition_frame exTree exHeap [⟨10⟩, ⟨11⟩] 0
    { parent := none, left := none, right := none, nodeId := 7,
      isSubsumed := false, data := 0, pathCondition := some 1 }
    [(1, ⟨⟨11⟩, false, some 0⟩), (0, ⟨⟨10⟩, false, none⟩)]
    (by decide) (by decide) (by decide)

/-- Claim C16: with the current node live and its chain `ls` made of live
links that end, `markPathCondition(core)` returns, and the links it flags are
those of the greedy left-to-right embedding of the reversed core into `ls`.
If the reversed core is a subsequence of the constraints of `ls`, the
embedding takes one link for every core element, so every core element is
the constraint of a link of the chain that is flagged afterwards. If a core
element has no equal link at or behind the walk position reached by the
elements before it, that element and all elements after it flag nothing. -/
theorem markPathCondition_greedy (t : ITree) (h : Heap) (core : List Expr) (c : Nat)
    (n : ITreeNode) (ls : List (Nat × PathCondition))
    (hc : t.currentINode = some c) (hn : h.nodeAt c = some n)
    (hchain : chainLinks h (h.pcs.length + 1) n.pathCondition = some ls) :
    ∃ h1, t.markPathCondition h core = .ok h1 ∧
      (∀ y, h1.pcAt y
        = (h.pcAt y).map (flagIf ((greedyLinks ls core.reverse).map Prod.fst) y)) ∧
      (core.reverse.Sublist (ls.map fun x => x.2.constraint) →
        (greedyLinks ls core.reverse).map (fun x => x.2.constraint) = core.reverse ∧
        ∀ e ∈ core, ∃ x ∈ greedyLinks ls core.reverse, x ∈ ls ∧ x.2.constraint = e ∧
          h1.pcAt x.1 = some { x.2 with inInterpolant := true }) ∧
      (∀ done c0 cs, core.reverse = done ++ c0 :: cs →
        c0 ∉ (afterGreedy ls done).map (fun x => x.2.constraint) →
        greedyLinks ls core.reverse = greedyLinks ls done) := by
  obtain ⟨h1, hr, _, _, _, h5⟩ := markPathCondition_spec t h core c n ls hc hn hchain
  refine ⟨h1, hr, h5, ?_, ?_⟩
  · intro hsub
    have hfull := greedyLinks_full ls core.reverse hsub
    refine ⟨hfull, ?_⟩
    intro e he
    have he1 : e ∈ (greedyLinks ls core.reverse).map (fun x => x.2.constraint) := by
      rw [hfull]; simpa using he
    obtain ⟨x, hx, hxe⟩ := List.mem_map.mp he1
    have hxls : x ∈ ls := (greedyLinks_sublist ls core.reverse).subset hx
    refine ⟨x, hx, hxls, hxe, ?_⟩
    rw [h5, chainLinks_mem hchain hxls]
    have : x.1 ∈ (greedyLinks ls core.reverse).map Prod.fst := List.mem_map.mpr ⟨x, hx, rfl⟩
    simp [flagIf, this]
  · intro done c0 cs hsplit hmiss
    rw [hsplit, greedyLinks_append, greedyLinks_miss _ c0 cs hmiss, List.append_nil]

/-- Witness of C16 on `markHeap`, whose chain reads 43, 42, 41, 42, 40: the
core `[40, 42, 43]`, reversed `[43, 42, 40]`, is a subsequence and flags the
links 4, 3 and 0 (the first of the two links carrying 42). -/
theorem markPathCondition_greedy_witness :
    greedyLinks markChain [⟨43⟩, ⟨42⟩, ⟨40⟩]
      = [(4, ⟨⟨43⟩, false, some 3⟩), (3, ⟨⟨42⟩, false, some 2⟩), (0, ⟨⟨40⟩, false, none⟩)] ∧
    greedyLinks markChain [⟨43⟩, ⟨44⟩, ⟨40⟩] = [(4, ⟨⟨43⟩, false, some 3⟩)] ∧
    ∃ h1, markTree.markPathCondition markHeap [⟨40⟩, ⟨42⟩, ⟨43⟩] = .ok h1 ∧
      (∀ y, h1.pcAt y = (markHeap.pcAt y).map
        (flagIf ((greedyLinks markChain ([⟨40⟩, ⟨42⟩, ⟨43⟩] : List Expr).reverse).map
          Prod.fst) y)) ∧
      (([⟨40⟩, ⟨42⟩, ⟨43⟩] : List Expr).reverse.Sublist
          (markChain.map fun x => x.2.constraint) →
        (greedyLinks markChain ([⟨40⟩, ⟨42⟩, ⟨43⟩] : List Expr).reverse).map
            (fun x => x.2.constraint) = ([⟨40⟩, ⟨42⟩, ⟨43⟩] : List Expr).reverse ∧
        ∀ e ∈ ([⟨40⟩, ⟨42⟩, ⟨43⟩] : List Expr),
          ∃ x ∈ greedyLinks markChain ([⟨40⟩, ⟨42⟩, ⟨43⟩] : List Expr).reverse,
            x ∈ markChain ∧ x.2.constraint = e ∧
            h1.pcAt x.1 = some { x.2 with inInterpolant := true }) ∧
      (∀ done c0 cs, ([⟨40⟩, ⟨42⟩, ⟨43⟩] : List Expr).reverse = done ++ c0 :: cs →
        c0 ∉ (afterGreedy markChain done).map (fun x => x.2.constraint) →
        greedyLinks markChain ([⟨40⟩, ⟨42⟩, ⟨43⟩] : List Expr).reverse
          = greedyLinks markChain done) :=
  ⟨by decide, by decide,
   markPathCondition_greedy markTree markHeap [⟨40⟩, ⟨42⟩, ⟨43⟩] 0
     (freshNode none 0 (some 4)) markChain (by decide) (by decide) (by decide)⟩

/-- Claim C17: for a state on a live node whose chain `ls` consists of live
links and ends, `makeMarkerMap` returns a map with one binding per distinct
constraint of the chain, whose marker has its gate unset and gates the link
nearest the chain head that carries the constraint. If `subsumed` then
returns true, a link of the chain is flagged afterwards iff it was flagged
before or it is that head-most link for a constraint of the unsat core
returned for one of the interpolant queries; the links keep their constraints
and tails, and links off the chain are untouched. -/
theorem markerMap_gates_headMost (e : SubsumptionTableEntry) (h : Heap)
    (solver : TimingSolver) (state : ExecutionState) (timeout : Nat) (na : Nat)
    (n : ITreeNode) (ls : List (Nat × PathCondition))
    (hs : state.itreeNode = some na) (hn : h.nodeAt na = some n)
    (hchain : chainLinks h (h.pcs.length + 1) n.pathCondition = some ls) :
    (∃ m, n.makeMarkerMap h = .ok m ∧ m.keys.Nodup ∧
      (∀ c, c ∈ m.keys ↔ c ∈ ls.map (fun x => x.2.constraint)) ∧
      ∀ k v, ((k, v) ∈ m ↔
        headMost ls k = some v.pathCondition ∧ v.mayBeInInterpolant = false)) ∧
    ∀ h1 s1, e.subsumed h solver state timeout = .ok (true, h1, s1) →
      (∀ x ∈ ls, ∃ lk, h1.pcAt x.1 = some lk ∧ lk.constraint = x.2.constraint ∧
        lk.tail = x.2.tail ∧
        (lk.inInterpolant = true ↔ x.2.inInterpolant = true ∨
          ∃ c ∈ (solver.script.take e.interpolant.length).flatMap (fun a => a.core),
            headMost ls c = some x.1)) ∧
      ∀ y, y ∉ ls.map Prod.fst → h1.pcAt y = h.pcAt y := by
  constructor
  · obtain ⟨m, hm, hsorted, hmem⟩ := makeMarkerMap_spec h n ls hchain
    refine ⟨m, hm, sorted_keys_nodup hsorted, ?_, fun k v => hmem (k, v)⟩
    intro c
    rw [← headMost_isSome]
    constructor
    · intro hc
      obtain ⟨kv, hkv, rfl⟩ := List.mem_map.mp hc
      exact ⟨_, ((hmem kv).mp hkv).1⟩
    · rintro ⟨a, ha⟩
      exact List.mem_map.mpr ⟨(c, ⟨false, a⟩), (hmem _).mpr ⟨ha, rfl⟩, rfl⟩
  · intro h1 s1 hr
    obtain ⟨G, hG, hpoint⟩ :=
      subsumed_true_flags e h solver state timeout na n ls h1 s1 hs hn hchain hr
    constructor
    · intro x hx
      have hlive := chainLinks_mem hchain hx
      refine ⟨flagIf G x.1 x.2, ?_, ?_, ?_, ?_⟩
      · rw [hpoint, hlive]; rfl
      · unfold flagIf; split <;> rfl
      · unfold flagIf; split <;> rfl
      · rw [← hG]
        unfold flagIf
        by_cases hin : x.1 ∈ G
        · simp [hin]
        · simp [hin]
    · intro y hy
      rw [hpoint]
      have hnot : y ∉ G := by
        intro hin
        obtain ⟨c, _, hh⟩ := (hG y).mp hin
        exact hy (headMost_mem hh)
      cases h.pcAt y with
      | none => rfl
      | some l => simp [flagIf, hnot]

/-- Witness of C17 on `markHeap`, whose chain reads 43, 42, 41, 42, 40: the
core `[42, 40]` flags link 3, the head-most link with 42, and link 0. -/
theorem markerMap_gates_headMost_witness :
    dupEntry.subsumed markHeap dupSolver ⟨[], some 0⟩ 5
      = .ok (true, markHeapAfter, dupSolverAfter) ∧
    (∃ m, ITreeNode.makeMarkerMap markHeap (freshNode none 0 (some 4)) = .ok m ∧
      m.keys.Nodup ∧
      (∀ c, c ∈ m.keys ↔ c ∈ markChain.map (fun x => x.2.constraint)) ∧
      ∀ k v, ((k, v) ∈ m ↔
        headMost markChain k = some v.pathCondition ∧ v.mayBeInInterpolant = false)) ∧
    ∀ h1 s1, dupEntry.subsumed markHeap dupSolver ⟨[], some 0⟩ 5 = .ok (true, h1, s1) →
      (∀ x ∈ markChain, ∃ lk, h1.pcAt x.1 = some lk ∧ lk.constraint = x.2.constraint ∧
        lk.tail = x.2.tail ∧
        (lk.inInterpolant = true ↔ x.2.inInterpolant = true ∨
          ∃ c ∈ (dupSolver.script.take dupEntry.interpolant.length).flatMap (fun a => a.core),
            headMost markChain c = some x.1)) ∧
      ∀ y, y ∉ markChain.map Prod.fst → h1.pcAt y = markHeap.pcAt y :=
  ⟨by decide,
   markerMap_gates_headMost dupEntry markHeap dupSolver ⟨[], some 0⟩ 5 0
     (freshNode none 0 (some 4)) markChain (by decide) (by decide) (by decide)⟩

/-- Claim C12 as stated fails. From the states of `dupStart` the constructor
and two splits make node 3 with the chain of constraints 1, 2, 1: the
constructor compares the last constraint of a state with the chain head only.
Two calls of `markPathCondition([1])`, with the root and then node 3 active,
flag the two links that carry 1, and `remove` of node 3 tables the
interpolant `[1, 1]`. -/
theorem remove_tables_repeated_constraint :
    Built anyState dupHeap ∧
    (treeAt (some 3) []).remove dupHeap (some 3)
      = .ok (treeAt (some 3) [⟨0, [⟨1⟩, ⟨1⟩]⟩], dupAfter) ∧
    ¬ ([⟨1⟩, ⟨1⟩] : List Expr).Nodup :=
  ⟨Built.mark dupMark (treeAt (some 3) []) [⟨1⟩] dupHeap
    (Built.mark dupTop (treeAt (some 0) []) [⟨1⟩] dupMark
      (Built.split dupMid 1 3 4 (some 3, some 4) dupTop
        (Built.split dupRoot 0 1 2 (some 1, some 2) dupMid
          (Built.root dupStart 0 (treeAt none []) dupRoot (Built.start dupStart.states)
            (by decide))
          (by decide) (fun _ _ _ _ => rfl))
        (by decide) (fun _ _ _ _ => rfl))
      (by decide))
    (by decide),
   by decide, by decide⟩

/-- Claim C12, amended: in a store reached from an empty one by the `ITree`
constructor, `split`, `markPathCondition` and
`checkCurrentStateSubsumption` (with the driver's edits of its states,
`setNodeLocation` and earlier calls of `remove` in between), where no state
handed to `split` had as its last constraint the constraint of a link of the
parent's chain other than the head, `remove` of a childless node returns and
the interpolant of every entry it adds to the table contains no constraint
twice. -/
theorem remove_interpolant_nodup (h : Heap) (hb : Built freshLast h) (t : ITree) (a : Nat)
    (n : ITreeNode) (hn : h.nodeAt a = some n) (hleaf : n.left = none ∧ n.right = none) :
    ∃ t1 h1 es, t.remove h (some a) = .ok (t1, h1) ∧
      t1.subsumptionTable = t.subsumptionTable ++ es ∧
      ∀ e ∈ es, e.interpolant.Nodup := by
  have hwf := built_wf hb
  obtain ⟨t1, h1, es, hrun, htab, _, _, hes, _⟩ := remove_spec t h a n hwf hn hleaf
  refine ⟨t1, h1, es, hrun, htab, ?_⟩
  intro e he
  have hmem : some e ∈ es.map some := List.mem_map.mpr ⟨e, he, rfl⟩
  rw [hes] at hmem
  obtain ⟨x, hx, hxe⟩ := List.mem_map.mp hmem
  obtain ⟨m, hm, _⟩ := (entryOf_iff h x e).mp hxe
  obtain ⟨ls, hls⟩ := wf_chain hwf hm
  rw [entry_interpolant hm hls hxe]
  exact ((List.filter_sublist ls).map _).nodup (built_distinct hb x m ls hm hls)

/-- Witness of C12: the store `famMarked`, made from `famStart` by the
constructor, two splits and `markPathCondition([1, 3])` with node 3 active;
`remove` of node 3 tables the interpolant `[3, 1]`. -/
theorem remove_interpolant_nodup_witness :
    Built freshLast famMarked ∧
    famMarked.nodeAt 3 = some (famNode (some 1) none none 3 (some 2)) ∧
    (treeAt (some 3) []).remove famMarked (some 3)
      = .ok (treeAt (some 3) [⟨0, [⟨3⟩, ⟨1⟩]⟩], famMarked1) ∧
    ∃ t1 h1 es, (treeAt (some 3) []).remove famMarked (some 3) = .ok (t1, h1) ∧
      t1.subsumptionTable = (treeAt (some 3) []).subsumptionTable ++ es ∧
      ∀ e ∈ es, e.interpolant.Nodup :=
  have hb : Built freshLast famMarked :=
    Built.mark famHeap (treeAt (some 3) []) [⟨1⟩, ⟨3⟩] famMarked
      (Built.split famMid 1 3 4 (some 3, some 4) famHeap
        (Built.split famRoot 0 1 2 (some 1, some 2) famMid
          (Built.root famStart 0 famTree famRoot (Built.start famStart.states) (by decide))
          (by decide)
          (by
            intro pn s hpn hs
            have e := Option.some.inj hpn
            subst e
            rcases hs with hs | hs
            · have e2 := Option.some.inj hs
              subst e2
              decide
            · have e2 := Option.some.inj hs
              subst e2
              decide))
        (by decide)
        (by
          intro pn s hpn hs
          have e := Option.some.inj hpn
          subst e
          rcases hs with hs | hs
          · have e2 := Option.some.inj hs
            subst e2
            decide
          · have e2 := Option.some.inj hs
            subst e2
            decide))
      (by decide)
  ⟨hb, by decide, by decide,
    remove_interpolant_nodup famMarked hb (treeAt (some 3) []) 3
      (famNode (some 1) none none 3 (some 2)) (by decide) (by decide)⟩

/-- Claim C18: in every store reached from an empty one by the `ITree`
constructor and `split` (with the driver's edits of its states, the flag and
program-point operations and earlier calls of `remove` in between), every
node with a parent has a live parent, and if its chain head is not the
parent's, that head is a live link: the chain is not empty. Hence `introducesMarkedConstraint` returns on every
live node, and answers true only for a node with a non-empty chain; and
`remove` of a childless node returns, the entries it tables are those of the
qualifying nodes of the cascade, and each such node has a live chain head on
which `getInterpolant` returns. -/
theorem built_chain_nonempty (h : Heap) (hb : Built anyState h) :
    (∀ a n p, h.nodeAt a = some n → n.parent = some p →
      ∃ pn, h.nodeAt p = some pn ∧
        (n.pathCondition ≠ pn.pathCondition →
          ∃ y lk, n.pathCondition = some y ∧ h.pcAt y = some lk)) ∧
    (∀ a n, h.nodeAt a = some n →
      ∃ b, n.introducesMarkedConstraint h = .ok b ∧ (b = true → n.pathCondition ≠ none)) ∧
    (∀ (t : ITree) a n, h.nodeAt a = some n → n.left = none ∧ n.right = none →
      ∃ t1 h1 es, t.remove h (some a) = .ok (t1, h1) ∧
        t1.subsumptionTable = t.subsumptionTable ++ es ∧
        es.map some
          = ((cascade h (h.nodes.length + 1) a).1.filter (qualifies h)).map (entryOf h) ∧
        ∀ x ∈ (cascade h (h.nodes.length + 1) a).1, qualifies h x = true →
          ∃ m y lk i, h.nodeAt x = some m ∧ m.pathCondition = some y ∧
            h.pcAt y = some lk ∧ m.getInterpolant h = .ok i) := by
  have hwf := built_wf hb
  have hpar : ∀ a n p, h.nodeAt a = some n → n.parent = some p →
      ∃ pn, h.nodeAt p = some pn ∧
        (n.pathCondition ≠ pn.pathCondition →
          ∃ y lk, n.pathCondition = some y ∧ h.pcAt y = some lk) := by
    intro a n p hn hp
    obtain ⟨_, pn, hpn, _, hhead⟩ := wf_parent hwf hn hp
    refine ⟨pn, hpn, ?_⟩
    intro hne
    rcases hhead with e | ⟨y, lk, e1, e2, _⟩
    · exact absurd e hne
    · exact ⟨y, lk, e1, e2⟩
  refine ⟨hpar, ?_, ?_⟩
  · intro a n hn
    unfold ITreeNode.introducesMarkedConstraint
    cases hp : n.parent with
    | none => exact ⟨false, rfl, by simp⟩
    | some p =>
      obtain ⟨pn, hpn, hhead⟩ := hpar a n p hn hp
      simp only [hpn, deref_some, bind_ok]
      by_cases hne : n.pathCondition ≠ pn.pathCondition
      · obtain ⟨y, lk, e1, e2⟩ := hhead hne
        rw [if_pos hne]
        refine ⟨lk.inInterpolant, ?_, ?_⟩
        · simp [PathCondition.carInInterpolant, e1, e2]
        · intro _; rw [e1]; simp
      · rw [if_neg hne]
        exact ⟨false, rfl, by simp⟩
  · intro t a n hn hleaf
    obtain ⟨t1, h1, es, hrun, htab, _, _, hes, _⟩ := remove_spec t h a n hwf hn hleaf
    refine ⟨t1, h1, es, hrun, htab, hes, ?_⟩
    intro x _ hq
    obtain ⟨m, y, lk, hm, hy, hlk, _⟩ := qualifies_head hq
    obtain ⟨ls, hls⟩ := wf_chain hwf hm
    refine ⟨m, y, lk,
      [] ++ (ls.filter fun x => x.2.inInterpolant).map fun x => x.2.constraint,
      hm, hy, hlk, ?_⟩
    unfold ITreeNode.getInterpolant
    rw [hy] at hls ⊢
    show packInterpolantLoop h (h.pcs.length + 1) (some y) [] = _
    exact packInterpolantLoop_chain h _ _ [] _ hls

/-- Witness of C18: the store `famHeap1`, made from `famStart` by the
constructor, two splits and `remove` of node 3. -/
theorem built_chain_nonempty_witness :
    Built anyState famHeap1 ∧
    ((∀ a n p, famHeap1.nodeAt a = some n → n.parent = some p →
      ∃ pn, famHeap1.nodeAt p = some pn ∧
        (n.pathCondition ≠ pn.pathCondition →
          ∃ y lk, n.pathCondition = some y ∧ famHeap1.pcAt y = some lk)) ∧
    (∀ a n, famHeap1.nodeAt a = some n →
      ∃ b, n.introducesMarkedConstraint famHeap1 = .ok b ∧
        (b = true → n.pathCondition ≠ none)) ∧
    (∀ (t : ITree) a n, famHeap1.nodeAt a = some n → n.left = none ∧ n.right = none →
      ∃ t1 h1 es, t.remove famHeap1 (some a) = .ok (t1, h1) ∧
        t1.subsumptionTable = t.subsumptionTable ++ es ∧
        es.map some
          = ((cascade famHeap1 (famHeap1.nodes.length + 1) a).1.filter
              (qualifies famHeap1)).map (entryOf famHeap1) ∧
        ∀ x ∈ (cascade famHeap1 (famHeap1.nodes.length + 1) a).1, qualifies famHeap1 x = true →
          ∃ m y lk i, famHeap1.nodeAt x = some m ∧ m.pathCondition = some y ∧
            famHeap1.pcAt y = some lk ∧ m.getInterpolant famHeap1 = .ok i)) :=
  have hb : Built anyState famHeap1 :=
    Built.remove famHeap famTree (some 3) famTree famHeap1
      (Built.split famMid 1 3 4 (some 3, some 4) famHeap
        (Built.split famRoot 0 1 2 (some 1, some 2) famMid
          (Built.root famStart 0 famTree famRoot (Built.start famStart.states) (by decide))
          (by decide) (fun _ _ _ _ => rfl))
        (by decide) (fun _ _ _ _ => rfl))
      (by decide)
  ⟨hb, built_chain_nonempty famHeap1 hb⟩

end ITreeModel
